import Mathlib

/-!
# GoAWK bytecode disassembler (`internal/compiler/disassembler.go`)

A shallow embedding of `Program.Disassemble`, `disassembler.disassemble`, `fetch`, `writef`,
`writeOpf` and `localName`, together with the `fmt` verbs the disassembler uses
(`%d`, `%04x`, `%s`, `%q`, `%.6g`).

Conventions of the embedding:

* An instruction word (`Opcode`, a 32-bit integer type) is represented by its numeric value in
  `Int`.  Conversions `int(w)` and `lexer.Token(w)` keep the value; `int32(w)` is `toInt32`.
* `ip`, `opAddr` and `funcIndex` are Go `int`s that are never negative; they are `Nat`.  Go `int` is
  taken to be 64 bits wide, so `d.ip + int(offset)` (a slice index plus a 32-bit value) cannot wrap
  and is computed in `Int`.
* A Go string is represented by the sequence of its Unicode code points (`String`); strings that
  are not valid UTF-8 are outside the model.
* A run-time panic is an `Except.error`.
* The writer is a log of the chunks handed to `Write`, with a failure policy.
-/

namespace GoAwk

/-! ## `fmt` verbs -/

/-- Digits of `n` in base `b`, most significant first (`fuel` bounds the number of digits). -/
def digitsAux (b : Nat) : Nat → Nat → List Char
  | 0, n => [Nat.digitChar (n % b)]
  | fuel + 1, n =>
    if n < b then [Nat.digitChar n] else digitsAux b fuel (n / b) ++ [Nat.digitChar (n % b)]

/-- Decimal digits of a natural number. -/
def decDigits (n : Nat) : List Char := digitsAux 10 n n

/-- Lowercase hexadecimal digits of a natural number. -/
def hexDigits (n : Nat) : List Char := digitsAux 16 n n

/-- Left padding with `0` up to `w` characters. -/
def padZero (w : Nat) (ds : List Char) : List Char :=
  List.replicate (w - ds.length) '0' ++ ds

/-- The verb `%d` applied to an integer. -/
def fmtD (n : Int) : String :=
  if n < 0 then String.mk ('-' :: decDigits n.natAbs) else String.mk (decDigits n.toNat)

/-- The verb `%04x` applied to an integer: lowercase hexadecimal, zero-padded to a minimum width
of four characters; the sign of a negative number counts towards the width. -/
def fmtX04 (n : Int) : String :=
  if n < 0 then String.mk ('-' :: padZero 3 (hexDigits n.natAbs))
  else String.mk (padZero 4 (hexDigits n.toNat))

/-- The verb `%d` applied to a string operand: the bad-verb rendering of `fmt`. -/
def fmtBadD (s : String) : String := "%!d(string=" ++ s ++ ")"

/-- The conversion `int32(w)` of an instruction word. -/
def toInt32 (w : Int) : Int := (w + 2 ^ 31) % 2 ^ 32 - 2 ^ 31

/-! ### `%q` (`strconv.Quote`) -/

/-- Go `unicode.IsPrint` on Latin-1; `high` is the table lookup for code points above `0xFF`. -/
def isPrint (high : Char → Bool) (c : Char) : Bool :=
  if c.toNat ≤ 0xFF then
    if 0x20 ≤ c.toNat ∧ c.toNat ≤ 0x7E then true
    else if 0xA1 ≤ c.toNat ∧ c.toNat ≤ 0xFF then c.toNat != 0xAD
    else false
  else high c

/-- Exactly `w` lowercase hexadecimal digits of `n` (the low `4 * w` bits). -/
def hexFixed : Nat → Nat → List Char
  | 0, _ => []
  | w + 1, n => hexFixed w (n / 16) ++ [Nat.digitChar (n % 16)]

/-- Go `strconv.appendEscapedRune` with quote `"`, neither ASCII-only nor graphic-only. -/
def escapeRune (high : Char → Bool) (c : Char) : List Char :=
  if c = '"' ∨ c = '\\' then ['\\', c]
  else if isPrint high c then [c]
  else if c.toNat = 0x07 then ['\\', 'a']
  else if c.toNat = 0x08 then ['\\', 'b']
  else if c.toNat = 0x0C then ['\\', 'f']
  else if c.toNat = 0x0A then ['\\', 'n']
  else if c.toNat = 0x0D then ['\\', 'r']
  else if c.toNat = 0x09 then ['\\', 't']
  else if c.toNat = 0x0B then ['\\', 'v']
  else if c.toNat < 0x20 ∨ c.toNat = 0x7F then '\\' :: 'x' :: hexFixed 2 c.toNat
  else if c.toNat < 0x10000 then '\\' :: 'u' :: hexFixed 4 c.toNat
  else '\\' :: 'U' :: hexFixed 8 c.toNat

/-- Escaped body of a quoted string. -/
def escapeAll (high : Char → Bool) : List Char → List Char
  | [] => []
  | c :: cs => escapeRune high c ++ escapeAll high cs

/-- The verb `%q` applied to a string (`strconv.Quote`). -/
def fmtQ (high : Char → Bool) (s : String) : String :=
  String.mk ('"' :: (escapeAll high s.data ++ ['"']))

/-! ### `float64` and `%.6g` -/

/-- An IEEE-754 double.  `finite neg m e` denotes `(-1)^neg * m * 2^e`. -/
inductive Float64 where
  | finite (neg : Bool) (mant : Nat) (exp : Int)
  | inf (neg : Bool)
  | nan
deriving DecidableEq, Repr

/-- The finite values that a double can hold. -/
def Float64.Representable : Float64 → Prop
  | .finite _ m e => m < 2 ^ 53 ∧ -1074 ≤ e ∧ e ≤ 971
  | _ => True

/-- Numerator of the magnitude `m * 2^e` written as a fraction of naturals. -/
def magNum (m : Nat) (e : Int) : Nat := m * 2 ^ e.toNat

/-- Denominator of the magnitude `m * 2^e` written as a fraction of naturals. -/
def magDen (e : Int) : Nat := 2 ^ (-e).toNat

/-- Number of binary digits of a natural number (`fuel` bounds the count). -/
def bitLenAux : Nat → Nat → Nat
  | 0, _ => 0
  | fuel + 1, n => if n = 0 then 0 else bitLenAux fuel (n / 2) + 1

/-- Number of binary digits of a natural number. -/
def bitLen (n : Nat) : Nat := bitLenAux n n

/-- Rounding of the fraction `a / b` to the nearest integer, ties to even. -/
def roundHalfEven (a b : Nat) : Nat :=
  let q := a / b
  let r := a % b
  if 2 * r > b ∨ (2 * r = b ∧ q % 2 = 1) then q + 1 else q

/-- The conversion `float64(i)` of an integer: nearest double, ties to even. -/
def Float64.ofInt (i : Int) : Float64 :=
  let a := i.natAbs
  let k := bitLen a - 53
  .finite (decide (i < 0)) (roundHalfEven a (2 ^ k)) k

/-- The conversion `int(f)`: truncation towards zero when the result fits in 64 bits.  Otherwise
Go leaves the result to the implementation, here `overflow f`. -/
def Float64.toInt (overflow : Float64 → Int) : Float64 → Int
  | .finite neg m e =>
    let t : Int := if neg then -((magNum m e / magDen e : Nat) : Int) else (magNum m e / magDen e : Nat)
    if -(2 : Int) ^ 63 ≤ t ∧ t < (2 : Int) ^ 63 then t else overflow (.finite neg m e)
  | f => overflow f

/-- The comparison `a == b` of two doubles. -/
def Float64.eq : Float64 → Float64 → Bool
  | .finite n1 m1 e1, .finite n2 m2 e2 =>
    if m1 = 0 ∧ m2 = 0 then true
    else decide (n1 = n2 ∧ magNum m1 e1 * magDen e2 = magNum m2 e2 * magDen e1)
  | .inf n1, .inf n2 => decide (n1 = n2)
  | _, _ => false

/-- Least `k` at or above the start value with `n < d * 10^k`. -/
def decPointUp : Nat → Nat → Nat → Nat → Nat
  | 0, _, _, k => k
  | fuel + 1, n, d, k => if n < d * 10 ^ k then k else decPointUp fuel n d (k + 1)

/-- Number of zeros between the decimal point and the first digit of `n / d < 1`. -/
def decPointDown : Nat → Nat → Nat → Nat → Nat
  | 0, _, _, j => j
  | fuel + 1, n, d, j => if n * 10 ^ (j + 1) < d then decPointDown fuel n d (j + 1) else j

/-- Removal of trailing `0` digits. -/
def trimZeros (ds : List Char) : List Char :=
  (ds.reverse.dropWhile (fun c => c == '0')).reverse

/-- Decimal digits and decimal point of a positive fraction `n / d` rounded to six significant
digits, ties to even, trailing zeros removed (`strconv` with `digits = 6`). -/
def sixDigits (n d : Nat) : List Char × Int :=
  let dp : Int := if d ≤ n then (decPointUp (n + 1) n d 0 : Nat) else -(decPointDown (d + 1) n d 0 : Nat)
  let s : Int := 6 - dp
  let q := roundHalfEven (n * 10 ^ s.toNat) (d * 10 ^ (-s).toNat)
  if q = 10 ^ 6 then (['1'], dp + 1) else (trimZeros (decDigits q), dp)

/-- Go `strconv` `%e` layout of the digits `ds` with decimal point `dp`. -/
def fmtE (ds : List Char) (dp : Int) (prec : Nat) : List Char :=
  let m := min ds.length (prec + 1)
  let frac : List Char :=
    if 0 < prec then '.' :: ((ds.take m).drop 1 ++ List.replicate (prec + 1 - max m 1) '0') else []
  let exp : Int := if ds.length = 0 then 0 else dp - 1
  let sign : Char := if exp < 0 then '-' else '+'
  let a := exp.natAbs
  let expDigits : List Char := if a < 10 then '0' :: decDigits a else decDigits a
  ds.headD '0' :: (frac ++ 'e' :: sign :: expDigits)

/-- Go `strconv` `%f` layout of the digits `ds` with decimal point `dp`. -/
def fmtF (ds : List Char) (dp : Int) (prec : Nat) : List Char :=
  let whole : List Char :=
    if 0 < dp then ds.take dp.toNat ++ List.replicate (dp.toNat - ds.length) '0' else ['0']
  let frac : List Char :=
    if 0 < prec then
      '.' :: (List.range prec).map (fun i =>
        let j : Int := dp + i
        if 0 ≤ j ∧ j < ds.length then ds.getD j.toNat '0' else '0')
    else []
  whole ++ frac

/-- Go `strconv` `%g` layout with precision six of the digits `ds` with decimal point `dp`. -/
def fmtGDigits (ds : List Char) (dp : Int) : List Char :=
  let nd := ds.length
  let eprec : Int := if 6 > nd ∧ (nd : Int) ≥ dp then nd else 6
  let exp := dp - 1
  if exp < -4 ∨ exp ≥ eprec then fmtE ds dp (min 6 nd - 1)
  else
    let prec : Int := if 6 > dp then nd else 6
    fmtF ds dp (prec - dp).toNat

/-- The verb `%.6g` applied to a double. -/
def fmtG6 : Float64 → String
  | .nan => "NaN"
  | .inf neg => if neg then "-Inf" else "+Inf"
  | .finite neg m e =>
    let body : List Char :=
      if m = 0 then fmtGDigits [] 0
      else
        let r := sixDigits (magNum m e) (magDen e)
        fmtGDigits r.1 r.2
    String.mk (if neg then '-' :: body else body)

/-! ## Data model -/

/-- The `case` labels of the `switch op` in `disassemble`; `other` is its `default` branch. -/
inductive Mnemonic where
  | Num | Str | FieldNum | Global | Local | Special
  | ArrayGlobal | InGlobal | InLocal
  | AssignGlobal | AssignLocal | AssignSpecial | AssignArrayGlobal | AssignArrayLocal
  | DeleteGlobal | DeleteLocal | DeleteAllGlobal | DeleteAllLocal
  | IncrField | IncrGlobal | IncrLocal | IncrSpecial | IncrArrayGlobal | IncrArrayLocal
  | AugAssignField | AugAssignGlobal | AugAssignLocal | AugAssignSpecial
  | AugAssignArrayGlobal | AugAssignArrayLocal
  | Regex | MultiIndex
  | Jump | JumpFalse | JumpTrue
  | JumpNumLess | JumpNumGreater | JumpNumLessOrEqual | JumpNumGreaterOrEqual
  | ForGlobalInGlobal
  | CallSplitGlobal | CallSplitLocal | CallSplitSepGlobal | CallSplitSepLocal
  | CallSprintf | CallUser | Nulls | Print | Printf
  | other
deriving DecidableEq, Repr

/-- What `disassembler.go` uses but does not define, taken as parameters: the numeric values
of the `Opcode` constants (given as the map from a word to the `case` it selects), the `String`
methods of `Opcode` and `lexer.Token`, the constant `lexer.ILLEGAL`, `ast.SpecialVarName`, the
`unicode.IsPrint` table above Latin-1 and the platform's result of an out-of-range `int(f)`. -/
structure Externals where
  classify : Int → Mnemonic
  opString : Int → String
  tokenString : Int → String
  ILLEGAL : Int
  SpecialVarName : Int → String
  isPrintHigh : Char → Bool
  floatToIntOverflow : Float64 → Int

/-- Modelled from the spec: the type of a function descriptor is declared outside
`disassembler.go`.  A function has a name, an ordered list of parameter names and a body
stream; these are the fields `Name`, `Params` and `Body` that the disassembler reads. -/
structure Function where
  Name : String
  Params : List String
  Body : List Int

/-- Modelled from the spec: the type of an action is declared outside `disassembler.go`.  An
action has zero, one or two pattern streams and an optional body stream; these are the fields
`Pattern` and `Body` that the disassembler reads. -/
structure Action where
  Pattern : List (List Int)
  Body : List Int

/-- Modelled from the spec: the type `Program` is declared outside `disassembler.go`.  It holds
the optional `BEGIN` and `END` streams, the actions, the constant pools `Nums`, `Strs` and
`Regexes`, the name tables `ScalarNames` and `ArrayNames`, and the functions.  `Begin` and
`End` are `none` for a nil slice.  A compiled regular expression is represented by its source
text, which is what `%q` prints of it. -/
structure Program where
  Begin : Option (List Int)
  Actions : List Action
  End : Option (List Int)
  Nums : List Float64
  Strs : List String
  Regexes : List String
  ScalarNames : List String
  ArrayNames : List String
  Functions : List Function

/-- An `io.Writer`: the chunks passed to `Write` so far, and whether `Write` fails on a chunk,
given the chunks before it. -/
structure Writer where
  written : List String
  failure : List String → String → Option String

/-- One call of `Write`: the chunk is logged and the error, if any, returned. -/
def Writer.write (w : Writer) (s : String) : Writer × Option String :=
  ({ w with written := w.written ++ [s] }, w.failure w.written s)

/-- Ways in which a run does not return: the two panics of the code, and the exhaustion of the
loop budget of the model. -/
inductive Abort where
  | indexOutOfRange (index : Int) (len : Nat)
  | unexpectedLocal (index : Int)
  | outOfFuel
deriving DecidableEq, Repr

/-- The struct `disassembler`. -/
structure Disassembler where
  program : Program
  writer : Writer
  code : List Int
  funcIndex : Nat
  ip : Nat
  opAddr : Nat
  err : Option String

/-- A slice index expression `xs[i]`: panics when `i` is out of range. -/
def sliceIndex {α : Type} (xs : List α) (i : Int) : Except Abort α :=
  if 0 ≤ i then
    match xs.get? i.toNat with
    | some a => .ok a
    | none => .error (.indexOutOfRange i xs.length)
  else .error (.indexOutOfRange i xs.length)

/-! ## The disassembler -/

/-- The method `fetch`. -/
def fetch (d : Disassembler) : Except Abort (Int × Disassembler) :=
  match d.code.get? d.ip with
  | some op => .ok (op, { d with ip := d.ip + 1 })
  | none => .error (.indexOutOfRange d.ip d.code.length)

/-- The method `writef`, applied to the formatted text. -/
def writef (d : Disassembler) (text : String) : Disassembler :=
  match d.err with
  | some _ => d
  | none =>
    let r := d.writer.write text
    { d with writer := r.1, err := r.2 }

/-- The method `writeOpf`, applied to the formatted operation text. -/
def writeOpf (d : Disassembler) (text : String) : Disassembler :=
  match d.err with
  | some _ => d
  | none =>
    let addrStr := fmtX04 d.opAddr
    let r := d.writer.write (addrStr ++ "    " ++ text ++ "\n")
    { d with writer := r.1, err := r.2 }

/-- The loop of `localName` over `f.Params`, at position `i`. -/
def localNameLoop : List String → Nat → Int → Option String
  | [], _, _ => none
  | p :: ps, i, index => if (i : Int) = index then some p else localNameLoop ps (i + 1) index

/-- The method `localName`. -/
def localName (d : Disassembler) (index : Int) : Except Abort String :=
  match sliceIndex d.program.Functions d.funcIndex with
  | .error a => .error a
  | .ok f =>
    match localNameLoop f.Params 0 index with
    | some p => .ok p
    | none => .error (.unexpectedLocal index)

/-- The `switch op` of `disassemble`, by the `case` that the opcode word `op` selects; `d` is the
state after the fetch of the opcode. -/
def switchOp (x : Externals) (op : Int) (d : Disassembler) :
    Mnemonic → Except Abort Disassembler
  | .Num => do
    let r ← fetch d
    let num ← sliceIndex r.2.program.Nums r.1
    if Float64.eq num (Float64.ofInt (num.toInt x.floatToIntOverflow)) then
      pure (writeOpf r.2 ("Num " ++ fmtD (num.toInt x.floatToIntOverflow)))
    else
      pure (writeOpf r.2 ("Num " ++ fmtG6 num))
  | .Str => do
    let r ← fetch d
    let str ← sliceIndex r.2.program.Strs r.1
    pure (writeOpf r.2 ("Str " ++ fmtQ x.isPrintHigh str))
  | .FieldNum => do
    let r ← fetch d
    pure (writeOpf r.2 ("FieldNum " ++ fmtD r.1))
  | .Global => do
    let r ← fetch d
    let name ← sliceIndex r.2.program.ScalarNames r.1
    pure (writeOpf r.2 ("Global " ++ name))
  | .Local => do
    let r ← fetch d
    let name ← localName r.2 r.1
    pure (writeOpf r.2 ("Local " ++ name))
  | .Special => do
    let r ← fetch d
    pure (writeOpf r.2 ("Special " ++ x.SpecialVarName r.1))
  | .ArrayGlobal => do
    let r ← fetch d
    let name ← sliceIndex r.2.program.ArrayNames r.1
    pure (writeOpf r.2 ("ArrayGlobal " ++ name))
  | .InGlobal => do
    let r ← fetch d
    let name ← sliceIndex r.2.program.ArrayNames r.1
    pure (writeOpf r.2 ("InGlobal " ++ name))
  | .InLocal => do
    let r ← fetch d
    pure (writeOpf r.2 ("InLocal " ++ fmtD r.1))
  | .AssignGlobal => do
    let r ← fetch d
    let name ← sliceIndex r.2.program.ScalarNames r.1
    pure (writeOpf r.2 ("AssignGlobal " ++ name))
  | .AssignLocal => do
    let r ← fetch d
    let name ← localName r.2 r.1
    pure (writeOpf r.2 ("AssignLocal " ++ name))
  | .AssignSpecial => do
    let r ← fetch d
    pure (writeOpf r.2 ("AssignSpecial " ++ x.SpecialVarName r.1))
  | .AssignArrayGlobal => do
    let r ← fetch d
    let name ← sliceIndex r.2.program.ArrayNames r.1
    pure (writeOpf r.2 ("AssignArrayGlobal " ++ name))
  | .AssignArrayLocal => do
    let r ← fetch d
    pure (writeOpf r.2 ("AssignArrayLocal " ++ fmtD r.1))
  | .DeleteGlobal => do
    let r ← fetch d
    let name ← sliceIndex r.2.program.ArrayNames r.1
    pure (writeOpf r.2 ("DeleteGlobal " ++ name))
  | .DeleteLocal => do
    let r ← fetch d
    pure (writeOpf r.2 ("DeleteLocal " ++ fmtD r.1))
  | .DeleteAllGlobal => do
    let r ← fetch d
    let name ← sliceIndex r.2.program.ArrayNames r.1
    pure (writeOpf r.2 ("DeleteAllGlobal " ++ name))
  | .DeleteAllLocal => do
    let r ← fetch d
    pure (writeOpf r.2 ("DeleteAllLocal " ++ fmtD r.1))
  | .IncrField => do
    let r ← fetch d
    pure (writeOpf r.2 ("IncrField " ++ fmtD (toInt32 r.1)))
  | .IncrGlobal => do
    let r1 ← fetch d
    let r2 ← fetch r1.2
    let name ← sliceIndex r2.2.program.ScalarNames r2.1
    pure (writeOpf r2.2 ("IncrGlobal " ++ fmtD (toInt32 r1.1) ++ " " ++ name))
  | .IncrLocal => do
    let r1 ← fetch d
    let r2 ← fetch r1.2
    let name ← localName r2.2 r2.1
    pure (writeOpf r2.2 ("IncrLocal " ++ fmtD (toInt32 r1.1) ++ " " ++ name))
  | .IncrSpecial => do
    let r1 ← fetch d
    let r2 ← fetch r1.2
    pure (writeOpf r2.2 ("IncrSpecial " ++ fmtD (toInt32 r1.1) ++ " " ++ x.SpecialVarName r2.1))
  | .IncrArrayGlobal => do
    let r1 ← fetch d
    let r2 ← fetch r1.2
    let name ← sliceIndex r2.2.program.ArrayNames r2.1
    pure (writeOpf r2.2 ("IncrArrayGlobal " ++ fmtD (toInt32 r1.1) ++ " " ++ name))
  | .IncrArrayLocal => do
    let r1 ← fetch d
    let r2 ← fetch r1.2
    pure (writeOpf r2.2 ("IncrArrayLocal " ++ fmtD (toInt32 r1.1) ++ " " ++ fmtD r2.1))
  | .AugAssignField => do
    let r ← fetch d
    pure (writeOpf r.2 ("AugAssignField " ++ x.tokenString r.1))
  | .AugAssignGlobal => do
    let r1 ← fetch d
    let r2 ← fetch r1.2
    let name ← sliceIndex r2.2.program.ScalarNames r2.1
    pure (writeOpf r2.2 ("AugAssignGlobal " ++ x.tokenString r1.1 ++ " " ++ name))
  | .AugAssignLocal => do
    let r1 ← fetch d
    let r2 ← fetch r1.2
    let name ← localName r2.2 r2.1
    pure (writeOpf r2.2 ("AugAssignLocal " ++ x.tokenString r1.1 ++ " " ++ name))
  | .AugAssignSpecial => do
    let r1 ← fetch d
    let r2 ← fetch r1.2
    pure (writeOpf r2.2
      ("AugAssignSpecial " ++ x.tokenString r1.1 ++ " " ++ fmtBadD (x.SpecialVarName r2.1)))
  | .AugAssignArrayGlobal => do
    let r1 ← fetch d
    let r2 ← fetch r1.2
    let name ← sliceIndex r2.2.program.ArrayNames r2.1
    pure (writeOpf r2.2 ("AugAssignArrayGlobal " ++ x.tokenString r1.1 ++ " " ++ name))
  | .AugAssignArrayLocal => do
    let r1 ← fetch d
    let r2 ← fetch r1.2
    pure (writeOpf r2.2 ("AugAssignArrayLocal " ++ x.tokenString r1.1 ++ " " ++ fmtD r2.1))
  | .Regex => do
    let r ← fetch d
    let re ← sliceIndex r.2.program.Regexes r.1
    pure (writeOpf r.2 ("Regex " ++ fmtQ x.isPrintHigh re))
  | .MultiIndex => do
    let r ← fetch d
    pure (writeOpf r.2 ("MultiIndex " ++ fmtD r.1))
  | .Jump => do
    let r ← fetch d
    pure (writeOpf r.2 ("Jump 0x" ++ fmtX04 ((r.2.ip : Int) + toInt32 r.1)))
  | .JumpFalse => do
    let r ← fetch d
    pure (writeOpf r.2 ("JumpFalse 0x" ++ fmtX04 ((r.2.ip : Int) + toInt32 r.1)))
  | .JumpTrue => do
    let r ← fetch d
    pure (writeOpf r.2 ("JumpTrue 0x" ++ fmtX04 ((r.2.ip : Int) + toInt32 r.1)))
  | .JumpNumLess => do
    let r ← fetch d
    pure (writeOpf r.2 ("JumpNumLess 0x" ++ fmtX04 ((r.2.ip : Int) + toInt32 r.1)))
  | .JumpNumGreater => do
    let r ← fetch d
    pure (writeOpf r.2 ("JumpNumGreater 0x" ++ fmtX04 ((r.2.ip : Int) + toInt32 r.1)))
  | .JumpNumLessOrEqual => do
    let r ← fetch d
    pure (writeOpf r.2 ("JumpNumLessOrEqual 0x" ++ fmtX04 ((r.2.ip : Int) + toInt32 r.1)))
  | .JumpNumGreaterOrEqual => do
    let r ← fetch d
    pure (writeOpf r.2 ("JumpNumGreaterOrEqual 0x" ++ fmtX04 ((r.2.ip : Int) + toInt32 r.1)))
  | .ForGlobalInGlobal => do
    let r1 ← fetch d
    let r2 ← fetch r1.2
    let r3 ← fetch r2.2
    let varName ← sliceIndex r3.2.program.ScalarNames r1.1
    let arrayName ← sliceIndex r3.2.program.ArrayNames r2.1
    pure (writeOpf r3.2
      ("ForGlobalInGlobal " ++ varName ++ " " ++ arrayName ++ " 0x" ++ fmtX04 ((r3.2.ip : Int) + r3.1)))
  | .CallSplitGlobal => do
    let r ← fetch d
    let name ← sliceIndex r.2.program.ArrayNames r.1
    pure (writeOpf r.2 ("CallSplitGlobal " ++ name))
  | .CallSplitLocal => do
    let r ← fetch d
    let name ← sliceIndex r.2.program.ArrayNames r.1
    pure (writeOpf r.2 ("CallSplitLocal " ++ name))
  | .CallSplitSepGlobal => do
    let r ← fetch d
    let name ← sliceIndex r.2.program.ArrayNames r.1
    pure (writeOpf r.2 ("CallSplitSepGlobal " ++ name))
  | .CallSplitSepLocal => do
    let r ← fetch d
    let name ← sliceIndex r.2.program.ArrayNames r.1
    pure (writeOpf r.2 ("CallSplitSepLocal " ++ name))
  | .CallSprintf => do
    let r ← fetch d
    pure (writeOpf r.2 ("CallSprintf " ++ fmtD r.1))
  | .CallUser => do
    let r ← fetch d
    let f ← sliceIndex r.2.program.Functions r.1
    pure (writeOpf r.2 ("CallUser " ++ f.Name))
  | .Nulls => do
    let r ← fetch d
    pure (writeOpf r.2 ("Nulls " ++ fmtD r.1))
  | .Print => do
    let r1 ← fetch d
    let r2 ← fetch r1.2
    if r2.1 = x.ILLEGAL then
      pure (writeOpf r2.2 ("Print " ++ fmtD r1.1))
    else
      pure (writeOpf r2.2 ("Print " ++ fmtD r1.1 ++ " " ++ x.tokenString r2.1))
  | .Printf => do
    let r1 ← fetch d
    let r2 ← fetch r1.2
    if r2.1 = x.ILLEGAL then
      pure (writeOpf r2.2 ("Printf " ++ fmtD r1.1))
    else
      pure (writeOpf r2.2 ("Printf " ++ fmtD r1.1 ++ " " ++ x.tokenString r2.1))
  | .other => pure (writeOpf d (x.opString op))

/-- One iteration of the loop of `disassemble`: `d.opAddr = d.ip`, the fetch of the opcode and
the `switch` on it. -/
def step (x : Externals) (d : Disassembler) : Except Abort Disassembler :=
  match fetch { d with opAddr := d.ip } with
  | .ok r => switchOp x r.1 r.2 (x.classify r.1)
  | .error a => .error a

/-- The `for` loop of `disassemble`; `fuel` bounds the number of iterations. -/
def loop (x : Externals) : Nat → Disassembler → Except Abort Disassembler
  | 0, d => if d.ip < d.code.length ∧ d.err = none then .error .outOfFuel else .ok d
  | fuel + 1, d =>
    if d.ip < d.code.length ∧ d.err = none then
      match step x d with
      | .ok d1 => loop x fuel d1
      | .error a => .error a
    else .ok d

/-- The method `disassemble`; the error it returns is the field `err` of the result.  Every
iteration advances `ip`, so `len(code) - ip` iterations are enough. -/
def disassemble (x : Externals) (d : Disassembler) (pfx : String) : Except Abort Disassembler :=
  let d1 := if pfx ≠ "" then writef d ("        // " ++ pfx ++ "\n") else d
  match loop x (d1.code.length - d1.ip) d1 with
  | .ok d2 => .ok (writef d2 "\n")
  | .error a => .error a

/-- A fresh `disassembler` value on `code`, as the composite literals of `Disassemble` build it. -/
def newDisassembler (p : Program) (w : Writer) (code : List Int) (funcIndex : Nat) :
    Disassembler :=
  { program := p, writer := w, code := code, funcIndex := funcIndex, ip := 0, opAddr := 0,
    err := none }

/-- State of `Program.Disassemble` between two units: the writer, and the error to return if a
unit has failed. -/
abbrev Progress := Writer × Option String

/-- One unit of `Program.Disassemble`: nothing when an earlier unit has returned an error. -/
def runUnit (x : Externals) (p : Program) (code : List Int) (funcIndex : Nat) (pfx : String)
    (s : Progress) : Except Abort Progress :=
  match s.2 with
  | some _ => .ok s
  | none =>
    match disassemble x (newDisassembler p s.1 code funcIndex) pfx with
    | .ok d => .ok (d.writer, d.err)
    | .error a => .error a

/-- The body of the loop over `p.Actions`. -/
def runAction (x : Externals) (p : Program) (action : Action) (s : Progress) :
    Except Abort Progress := do
  let s1 ←
    match action.Pattern with
    | [] => pure s
    | [pat] => runUnit x p pat 0 "pattern" s
    | [start, stop] => do
      let t ← runUnit x p start 0 "start" s
      runUnit x p stop 0 "stop" t
    | _ => pure s
  if action.Body.length > 0 then runUnit x p action.Body 0 "\x7b body \x7d" s1 else pure s1

/-- The loop over `p.Actions`. -/
def runActions (x : Externals) (p : Program) : List Action → Progress → Except Abort Progress
  | [], s => pure s
  | a :: rest, s => do
    let s1 ← runAction x p a s
    runActions x p rest s1

/-- The loop over `p.Functions`, at index `i`. -/
def runFunctions (x : Externals) (p : Program) : List Function → Nat → Progress →
    Except Abort Progress
  | [], _, s => pure s
  | f :: rest, i, s => do
    let s1 ← runUnit x p f.Body i ("function " ++ f.Name) s
    runFunctions x p rest (i + 1) s1

/-- The method `Program.Disassemble`: the final writer and the returned error. -/
def Program.Disassemble (x : Externals) (p : Program) (writer : Writer) :
    Except Abort Progress := do
  let s0 : Progress := (writer, none)
  let s1 ← match p.Begin with
    | some code => runUnit x p code 0 "BEGIN" s0
    | none => pure s0
  let s2 ← runActions x p p.Actions s1
  let s3 ← match p.End with
    | some code => runUnit x p code 0 "END" s2
    | none => pure s2
  runFunctions x p p.Functions 0 s3

/-! ## A concrete instance of the externals

`opcodes.go`, the lexer and the `ast` package are not part of the disassembler's file.  To run the
model on concrete streams one numbering is fixed here: the word `k` selects the `k`-th label of
the `switch` in source order, words from 49 on take the `default` branch. -/

/-- Modelled from the spec: the values of the `Opcode` constants are declared outside
`disassembler.go`; the sample numbering takes the labels of the `switch` in source order. -/
def sampleOpcodes : List Mnemonic :=
  [ .Num, .Str, .FieldNum, .Global, .Local, .Special, .ArrayGlobal, .InGlobal, .InLocal,
    .AssignGlobal, .AssignLocal, .AssignSpecial, .AssignArrayGlobal, .AssignArrayLocal,
    .DeleteGlobal, .DeleteLocal, .DeleteAllGlobal, .DeleteAllLocal,
    .IncrField, .IncrGlobal, .IncrLocal, .IncrSpecial, .IncrArrayGlobal, .IncrArrayLocal,
    .AugAssignField, .AugAssignGlobal, .AugAssignLocal, .AugAssignSpecial,
    .AugAssignArrayGlobal, .AugAssignArrayLocal, .Regex, .MultiIndex,
    .Jump, .JumpFalse, .JumpTrue, .JumpNumLess, .JumpNumGreater, .JumpNumLessOrEqual,
    .JumpNumGreaterOrEqual, .ForGlobalInGlobal,
    .CallSplitGlobal, .CallSplitLocal, .CallSplitSepGlobal, .CallSplitSepLocal,
    .CallSprintf, .CallUser, .Nulls, .Print, .Printf ]

/-- Modelled from the spec: the opcode numbering, the lexer tokens and `ast.SpecialVarName` are
declared outside `disassembler.go`.  In this sample instance token 0 is the "none" sentinel
`ILLEGAL`, token 1 is the append operator and reads `>>`, token 2 reads `+=`; word 49 is an
operand-free opcode named `Nop`; an out-of-range `int(f)` gives the least 64-bit integer. -/
def sampleExternals : Externals where
  classify w := if 0 ≤ w then sampleOpcodes.getD w.toNat .other else .other
  opString w := if w = 49 then "Nop" else "Opcode(" ++ fmtD w ++ ")"
  tokenString t := if t = 1 then ">>" else if t = 2 then "+=" else "ILLEGAL"
  ILLEGAL := 0
  SpecialVarName i := if i = 1 then "NF" else "<unknown special var " ++ fmtD i ++ ">"
  isPrintHigh _ := true
  floatToIntOverflow _ := -(2 : Int) ^ 63

/-- A writer that accepts everything, with nothing written yet. -/
def okWriter : Writer := { written := [], failure := fun _ _ => none }

/-- A sample program: one function `f(a, b)`, two numbers, one string, one scalar, one array. -/
def sampleProgram : Program where
  Begin := some [0, 0, 0, 1, 1, 0, 47, 2, 0, 47, 2, 1, 32, 4294967293, 49]
  Actions := []
  End := none
  Nums := [.finite false 5 0, .finite false 21 (-2)]
  Strs := ["a\"b"]
  Regexes := []
  ScalarNames := ["x"]
  ArrayNames := ["arr"]
  Functions := [{ Name := "f", Params := ["a", "b"], Body := [4, 1, 49] }]

/-! ## Instruction layout

The layout of an instruction, read off the `switch` of `disassemble`: how many operands each
`case` fetches, what each operand indexes, and the text the `case` formats.  `step` is proved
below to agree with this description. -/

/-- What an operand refers to. -/
inductive OperandKind where
  | plain | num | str | regex | scalar | array | func | localSlot
deriving DecidableEq, Repr

/-- The operands that the `case` of a mnemonic fetches, in order. -/
def operandKinds : Mnemonic → List OperandKind
  | .Num => [.num]
  | .Str => [.str]
  | .Regex => [.regex]
  | .CallUser => [.func]
  | .Global | .AssignGlobal => [.scalar]
  | .Local | .AssignLocal => [.localSlot]
  | .ArrayGlobal | .InGlobal | .AssignArrayGlobal | .DeleteGlobal | .DeleteAllGlobal
  | .CallSplitGlobal | .CallSplitLocal | .CallSplitSepGlobal | .CallSplitSepLocal => [.array]
  | .FieldNum | .Special | .InLocal | .AssignSpecial | .AssignArrayLocal | .DeleteLocal
  | .DeleteAllLocal | .IncrField | .AugAssignField | .MultiIndex | .CallSprintf | .Nulls
  | .Jump | .JumpFalse | .JumpTrue | .JumpNumLess | .JumpNumGreater | .JumpNumLessOrEqual
  | .JumpNumGreaterOrEqual => [.plain]
  | .IncrGlobal | .AugAssignGlobal => [.plain, .scalar]
  | .IncrLocal | .AugAssignLocal => [.plain, .localSlot]
  | .IncrArrayGlobal | .AugAssignArrayGlobal => [.plain, .array]
  | .IncrSpecial | .IncrArrayLocal | .AugAssignSpecial | .AugAssignArrayLocal | .Print
  | .Printf => [.plain, .plain]
  | .ForGlobalInGlobal => [.scalar, .array, .plain]
  | .other => []

/-- Number of operands of an instruction: none for the `default` branch, two for the `Incr*` and
non-field `AugAssign*` cases with a variable, `Print` and `Printf`, three for
`ForGlobalInGlobal`, one for every other case. -/
def operandCount : Mnemonic → Nat
  | .other => 0
  | .IncrGlobal | .IncrLocal | .IncrSpecial | .IncrArrayGlobal | .IncrArrayLocal
  | .AugAssignGlobal | .AugAssignLocal | .AugAssignSpecial | .AugAssignArrayGlobal
  | .AugAssignArrayLocal | .Print | .Printf => 2
  | .ForGlobalInGlobal => 3
  | _ => 1

/-- An operand is in range for what it refers to, in function `funcIndex` of program `p`. -/
def operandOk (p : Program) (funcIndex : Nat) (k : OperandKind) (v : Int) : Bool :=
  match k with
  | .plain => true
  | .num => decide (0 ≤ v ∧ v < p.Nums.length)
  | .str => decide (0 ≤ v ∧ v < p.Strs.length)
  | .regex => decide (0 ≤ v ∧ v < p.Regexes.length)
  | .scalar => decide (0 ≤ v ∧ v < p.ScalarNames.length)
  | .array => decide (0 ≤ v ∧ v < p.ArrayNames.length)
  | .func => decide (0 ≤ v ∧ v < p.Functions.length)
  | .localSlot =>
    match p.Functions.get? funcIndex with
    | some f => decide (0 ≤ v ∧ v < f.Params.length)
    | none => false

/-- The operands have the kinds listed, one for one, and each is in range. -/
def operandsOk (p : Program) (funcIndex : Nat) : List OperandKind → List Int → Bool
  | [], [] => true
  | k :: ks, v :: vs => operandOk p funcIndex k v && operandsOk p funcIndex ks vs
  | _, _ => false

/-- One instruction of a stream: the opcode word and its operand words. -/
structure Instr where
  op : Int
  operands : List Int
deriving DecidableEq, Repr

/-- Number of words of an instruction. -/
def Instr.width (i : Instr) : Nat := 1 + i.operands.length

/-- The stream made of the given instructions, one after the other. -/
def encode : List Instr → List Int
  | [] => []
  | i :: rest => i.op :: (i.operands ++ encode rest)

/-- A complete instruction: exactly the operands of its opcode, each in range. -/
def Instr.WellFormed (x : Externals) (p : Program) (funcIndex : Nat) (i : Instr) : Prop :=
  operandsOk p funcIndex (operandKinds (x.classify i.op)) i.operands = true

/-- Start address of the instruction number `k` (from 0) of a stream that starts at address 0:
the sum of the widths of the instructions before it. -/
def addrOf (is : List Instr) (k : Nat) : Nat := ((is.take k).map Instr.width).sum

/-- The panic of a `fetch` past the end of the stream. -/
def truncated (d : Disassembler) : Abort := .indexOutOfRange d.code.length d.code.length

/-- An instruction without operands. -/
def operands0 (d : Disassembler) (f : Except Abort String) : List Int → Except Abort String
  | [] => f
  | _ => .error (truncated d)

/-- An instruction with one operand. -/
def operands1 (d : Disassembler) (f : Int → Except Abort String) : List Int → Except Abort String
  | [a] => f a
  | _ => .error (truncated d)

/-- An instruction with two operands. -/
def operands2 (d : Disassembler) (f : Int → Int → Except Abort String) :
    List Int → Except Abort String
  | [a, b] => f a b
  | _ => .error (truncated d)

/-- An instruction with three operands. -/
def operands3 (d : Disassembler) (f : Int → Int → Int → Except Abort String) :
    List Int → Except Abort String
  | [a, b, c] => f a b c
  | _ => .error (truncated d)

/-- The text that the `case` of mnemonic `m` formats for the opcode word `op` with the given
operand words, in the state `d` in which the instruction starts. -/
def instrText (x : Externals) (d : Disassembler) (op : Int) :
    Mnemonic → List Int → Except Abort String
  | .Num => operands1 d fun index => do
    let num ← sliceIndex d.program.Nums index
    if Float64.eq num (Float64.ofInt (num.toInt x.floatToIntOverflow)) then
      pure ("Num " ++ fmtD (num.toInt x.floatToIntOverflow))
    else
      pure ("Num " ++ fmtG6 num)
  | .Str => operands1 d fun index => do
    let str ← sliceIndex d.program.Strs index
    pure ("Str " ++ fmtQ x.isPrintHigh str)
  | .Regex => operands1 d fun index => do
    let re ← sliceIndex d.program.Regexes index
    pure ("Regex " ++ fmtQ x.isPrintHigh re)
  | .CallUser => operands1 d fun index => do
    let f ← sliceIndex d.program.Functions index
    pure ("CallUser " ++ f.Name)
  | .Global => operands1 d fun index => do
    let name ← sliceIndex d.program.ScalarNames index
    pure ("Global " ++ name)
  | .ArrayGlobal => operands1 d fun index => do
    let name ← sliceIndex d.program.ArrayNames index
    pure ("ArrayGlobal " ++ name)
  | .InGlobal => operands1 d fun index => do
    let name ← sliceIndex d.program.ArrayNames index
    pure ("InGlobal " ++ name)
  | .AssignGlobal => operands1 d fun index => do
    let name ← sliceIndex d.program.ScalarNames index
    pure ("AssignGlobal " ++ name)
  | .AssignArrayGlobal => operands1 d fun index => do
    let name ← sliceIndex d.program.ArrayNames index
    pure ("AssignArrayGlobal " ++ name)
  | .DeleteGlobal => operands1 d fun index => do
    let name ← sliceIndex d.program.ArrayNames index
    pure ("DeleteGlobal " ++ name)
  | .DeleteAllGlobal => operands1 d fun index => do
    let name ← sliceIndex d.program.ArrayNames index
    pure ("DeleteAllGlobal " ++ name)
  | .CallSplitGlobal => operands1 d fun index => do
    let name ← sliceIndex d.program.ArrayNames index
    pure ("CallSplitGlobal " ++ name)
  | .CallSplitLocal => operands1 d fun index => do
    let name ← sliceIndex d.program.ArrayNames index
    pure ("CallSplitLocal " ++ name)
  | .CallSplitSepGlobal => operands1 d fun index => do
    let name ← sliceIndex d.program.ArrayNames index
    pure ("CallSplitSepGlobal " ++ name)
  | .CallSplitSepLocal => operands1 d fun index => do
    let name ← sliceIndex d.program.ArrayNames index
    pure ("CallSplitSepLocal " ++ name)
  | .Local => operands1 d fun index => do
    let name ← localName d index
    pure ("Local " ++ name)
  | .AssignLocal => operands1 d fun index => do
    let name ← localName d index
    pure ("AssignLocal " ++ name)
  | .Special => operands1 d fun index => pure ("Special " ++ x.SpecialVarName index)
  | .AssignSpecial => operands1 d fun index => pure ("AssignSpecial " ++ x.SpecialVarName index)
  | .FieldNum => operands1 d fun v => pure ("FieldNum " ++ fmtD v)
  | .InLocal => operands1 d fun v => pure ("InLocal " ++ fmtD v)
  | .AssignArrayLocal => operands1 d fun v => pure ("AssignArrayLocal " ++ fmtD v)
  | .DeleteLocal => operands1 d fun v => pure ("DeleteLocal " ++ fmtD v)
  | .DeleteAllLocal => operands1 d fun v => pure ("DeleteAllLocal " ++ fmtD v)
  | .MultiIndex => operands1 d fun v => pure ("MultiIndex " ++ fmtD v)
  | .CallSprintf => operands1 d fun v => pure ("CallSprintf " ++ fmtD v)
  | .Nulls => operands1 d fun v => pure ("Nulls " ++ fmtD v)
  | .IncrField => operands1 d fun amount => pure ("IncrField " ++ fmtD (toInt32 amount))
  | .AugAssignField => operands1 d fun operation => pure ("AugAssignField " ++ x.tokenString operation)
  | .Jump => operands1 d fun offset => pure ("Jump 0x" ++ fmtX04 (((d.ip + 2 : Nat) : Int) + toInt32 offset))
  | .JumpFalse => operands1 d fun offset => pure ("JumpFalse 0x" ++ fmtX04 (((d.ip + 2 : Nat) : Int) + toInt32 offset))
  | .JumpTrue => operands1 d fun offset => pure ("JumpTrue 0x" ++ fmtX04 (((d.ip + 2 : Nat) : Int) + toInt32 offset))
  | .JumpNumLess => operands1 d fun offset => pure ("JumpNumLess 0x" ++ fmtX04 (((d.ip + 2 : Nat) : Int) + toInt32 offset))
  | .JumpNumGreater => operands1 d fun offset => pure ("JumpNumGreater 0x" ++ fmtX04 (((d.ip + 2 : Nat) : Int) + toInt32 offset))
  | .JumpNumLessOrEqual => operands1 d fun offset => pure ("JumpNumLessOrEqual 0x" ++ fmtX04 (((d.ip + 2 : Nat) : Int) + toInt32 offset))
  | .JumpNumGreaterOrEqual => operands1 d fun offset => pure ("JumpNumGreaterOrEqual 0x" ++ fmtX04 (((d.ip + 2 : Nat) : Int) + toInt32 offset))
  | .IncrGlobal => operands2 d fun amount index => do
    let name ← sliceIndex d.program.ScalarNames index
    pure ("IncrGlobal " ++ fmtD (toInt32 amount) ++ " " ++ name)
  | .IncrArrayGlobal => operands2 d fun amount index => do
    let name ← sliceIndex d.program.ArrayNames index
    pure ("IncrArrayGlobal " ++ fmtD (toInt32 amount) ++ " " ++ name)
  | .AugAssignGlobal => operands2 d fun operation index => do
    let name ← sliceIndex d.program.ScalarNames index
    pure ("AugAssignGlobal " ++ x.tokenString operation ++ " " ++ name)
  | .AugAssignArrayGlobal => operands2 d fun operation index => do
    let name ← sliceIndex d.program.ArrayNames index
    pure ("AugAssignArrayGlobal " ++ x.tokenString operation ++ " " ++ name)
  | .IncrLocal => operands2 d fun amount index => do
    let name ← localName d index
    pure ("IncrLocal " ++ fmtD (toInt32 amount) ++ " " ++ name)
  | .AugAssignLocal => operands2 d fun operation index => do
    let name ← localName d index
    pure ("AugAssignLocal " ++ x.tokenString operation ++ " " ++ name)
  | .IncrSpecial => operands2 d fun amount index =>
    pure ("IncrSpecial " ++ fmtD (toInt32 amount) ++ " " ++ x.SpecialVarName index)
  | .IncrArrayLocal => operands2 d fun amount index =>
    pure ("IncrArrayLocal " ++ fmtD (toInt32 amount) ++ " " ++ fmtD index)
  | .AugAssignSpecial => operands2 d fun operation index =>
    pure ("AugAssignSpecial " ++ x.tokenString operation ++ " " ++ fmtBadD (x.SpecialVarName index))
  | .AugAssignArrayLocal => operands2 d fun operation index =>
    pure ("AugAssignArrayLocal " ++ x.tokenString operation ++ " " ++ fmtD index)
  | .Print => operands2 d fun numArgs redirect =>
    if redirect = x.ILLEGAL then pure ("Print " ++ fmtD numArgs)
    else pure ("Print " ++ fmtD numArgs ++ " " ++ x.tokenString redirect)
  | .Printf => operands2 d fun numArgs redirect =>
    if redirect = x.ILLEGAL then pure ("Printf " ++ fmtD numArgs)
    else pure ("Printf " ++ fmtD numArgs ++ " " ++ x.tokenString redirect)
  | .ForGlobalInGlobal => operands3 d fun varIndex arrayIndex offset => do
    let varName ← sliceIndex d.program.ScalarNames varIndex
    let arrayName ← sliceIndex d.program.ArrayNames arrayIndex
    pure ("ForGlobalInGlobal " ++ varName ++ " " ++ arrayName ++ " 0x" ++
      fmtX04 (((d.ip + 4 : Nat) : Int) + offset))
  | .other => operands0 d <| pure (x.opString op)

/-- The state after an instruction of `n` operands that started in `d` and formatted `text`. -/
def afterInstr (d : Disassembler) (n : Nat) (text : String) : Disassembler :=
  writeOpf { d with ip := d.ip + 1 + n, opAddr := d.ip } text

/-- A computation that returns. -/
def IsOk {α : Type} (e : Except Abort α) : Prop := ∃ a, e = .ok a


/-- A writer on which no `Write` fails. -/
def Writer.NeverFails (w : Writer) : Prop := ∀ l s, w.failure l s = none

/-- The line that `writeOpf` writes for an instruction at address `addr` with text `text`. -/
def opLine (addr : Nat) (text : String) : String :=
  fmtX04 addr ++ "    " ++ text ++ "\n"

/-- The lines written for the instructions `is` laid out from address `start`, given the text
of each instruction. -/
def linesFrom : Nat → List Instr → List String → List String
  | start, i :: is, t :: ts =>
    opLine start t :: linesFrom (start + i.width) is ts
  | _, _, _ => []


/-- A state of the disassembler of unit `code` of function `funcIndex` that stands at address
`addr`; only these four fields matter to the text of an instruction. -/
def stateAt (p : Program) (code : List Int) (funcIndex addr : Nat) : Disassembler :=
  { program := p, writer := { written := [], failure := fun _ _ => none }, code := code,
    funcIndex := funcIndex, ip := addr, opAddr := addr, err := none }

/-- The text of the instruction `i` when it starts at address `addr` of the unit `code`. -/
def instrTextAt (x : Externals) (p : Program) (code : List Int) (funcIndex addr : Nat)
    (i : Instr) : Except Abort String :=
  instrText x (stateAt p code funcIndex addr) i.op (x.classify i.op) i.operands

/-- The strings `ts` are the texts of the instructions `is` laid out from address `start`. -/
def TextsFor (x : Externals) (p : Program) (code : List Int) (funcIndex : Nat) :
    Nat → List Instr → List String → Prop
  | start, i :: is, t :: ts =>
    instrTextAt x p code funcIndex start i = .ok t ∧
      TextsFor x p code funcIndex (start + i.width) is ts
  | _, [], [] => True
  | _, _, _ => False

/-- The section line that `disassemble` writes first; nothing for an empty prefix. -/
def headerLines (pfx : String) : List String :=
  if pfx ≠ "" then ["        // " ++ pfx ++ "\n"] else []

/-- A pool-index operand is in range for its pool; other operands, local slots among them, are
not constrained. -/
def poolOk (p : Program) (k : OperandKind) (v : Int) : Bool :=
  match k with
  | .localSlot => true
  | k => operandOk p 0 k v

/-- The operands have the kinds listed, one for one, and each pool index is in range. -/
def poolsOk (p : Program) : List OperandKind → List Int → Bool
  | [], [] => true
  | k :: ks, v :: vs => poolOk p k v && poolsOk p ks vs
  | _, _ => false

/-- A complete instruction with all pool indexes in range: exactly the operands of its opcode,
each index into `Nums`, `Strs`, `Regexes`, `ScalarNames`, `ArrayNames` or `Functions` in range. -/
def Instr.Complete (x : Externals) (p : Program) (i : Instr) : Prop :=
  poolsOk p (operandKinds (x.classify i.op)) i.operands = true

/-- The mnemonic text of the seven jump instructions. -/
def jumpName : Mnemonic → Option String
  | .Jump => some "Jump"
  | .JumpFalse => some "JumpFalse"
  | .JumpTrue => some "JumpTrue"
  | .JumpNumLess => some "JumpNumLess"
  | .JumpNumGreater => some "JumpNumGreater"
  | .JumpNumLessOrEqual => some "JumpNumLessOrEqual"
  | .JumpNumGreaterOrEqual => some "JumpNumGreaterOrEqual"
  | _ => none

/-- A sample stream for `sampleProgram`: `Num 5.25`, `Print 2 >>`, `Nop`. -/
def sampleStream : List Instr := [⟨0, [1]⟩, ⟨47, [2, 1]⟩, ⟨49, []⟩]

/-- A character from `0-9a-f`. -/
def isLowerHex (c : Char) : Bool :=
  decide (('0' ≤ c ∧ c ≤ '9') ∨ ('a' ≤ c ∧ c ≤ 'f'))

/-- Value of a lowercase hexadecimal digit. -/
def hexVal (c : Char) : Nat :=
  if c ≤ '9' then c.toNat - 48 else c.toNat - 87

/-- The number that a string of lowercase hexadecimal digits denotes. -/
def hexValue (l : List Char) : Nat :=
  l.foldl (fun acc c => 16 * acc + hexVal c) 0

/-- A string without a newline character. -/
def Plain (s : String) : Prop := ∀ c ∈ s.data, c ≠ '\n'

instance (s : String) : Decidable (Plain s) := by
  unfold Plain
  infer_instance

/-- The names that the disassembler prints verbatim (`%s`) contain no newline: the scalar
and array names, the function and parameter names of the program, and the texts of opcodes,
tokens and special variables. -/
def PlainNames (x : Externals) (p : Program) : Prop :=
  (∀ s ∈ p.ScalarNames, Plain s) ∧ (∀ s ∈ p.ArrayNames, Plain s) ∧
  (∀ f ∈ p.Functions, Plain f.Name ∧ ∀ q ∈ f.Params, Plain q) ∧
  (∀ w, Plain (x.opString w)) ∧ (∀ w, Plain (x.tokenString w)) ∧
  (∀ w, Plain (x.SpecialVarName w))

/-- A formatting that, when it returns, returns a string without a newline. -/
def OkPlain (e : Except Abort String) : Prop := ∀ t, e = .ok t → Plain t

/-! ## Progress of the decode loop -/

/-- Outcome of a piece of decoding started in `d` with `ip` inside the stream: when it returns,
the stream is the same and `ip` has not moved back nor left the stream; when it panics, the
panic is one of the program (an index out of range, an unknown local), never the model's
"out of fuel". -/
def Advances (d : Disassembler) (e : Except Abort Disassembler) : Prop :=
  d.ip ≤ d.code.length →
    match e with
    | .ok d1 => d1.code = d.code ∧ d.ip ≤ d1.ip ∧ d1.ip ≤ d1.code.length
    | .error a => a ≠ .outOfFuel

/-! ## Latched writes -/

/-- The writes `cs` made one after the other under the latch of the field `err`: once a write
has failed, nothing more is written and the first error stays. -/
def latch : Progress → List String → Progress
  | s, [] => s
  | s, c :: cs =>
    match s.2 with
    | some _ => s
    | none => latch (s.1.write c) cs

/-- The writer that fails, with error `e`, exactly on its write number `k` (counted from 1, by
the number of writes already made). -/
def failAt (k : Nat) (e : String) : Writer :=
  { written := [], failure := fun l _ => if l.length + 1 = k then some e else none }

/-- The operation lines of the instructions `is` laid out from address `addr` of the unit
`code`. -/
def unitLines (x : Externals) (p : Program) (code : List Int) (funcIndex : Nat) :
    Nat → List Instr → List String
  | _, [] => []
  | addr, i :: is =>
    (match instrTextAt x p code funcIndex addr i with
      | .ok t => opLine addr t
      | .error _ => opLine addr "") ::
      unitLines x p code funcIndex (addr + i.width) is

/-! ## The sections of a program -/

/-- One call of `disassemble` by `Program.Disassemble`: the prefix shown in the section line, the
function index, and the code of the unit. -/
structure Section where
  pfx : String
  funcIndex : Nat
  code : List Int

/-- The sections of one action: none for no pattern, `pattern` for one, `start` then `stop` for
two, then `{ body }` when the body is not empty. -/
def actionSections (a : Action) : List Section :=
  (match a.Pattern with
    | [] => []
    | [pat] => [⟨"pattern", 0, pat⟩]
    | [start, stop] => [⟨"start", 0, start⟩, ⟨"stop", 0, stop⟩]
    | _ => []) ++
  (if a.Body.length > 0 then [⟨"\x7b body \x7d", 0, a.Body⟩] else [])

/-- The sections of the actions, in order. -/
def actionsSections : List Action → List Section
  | [] => []
  | a :: rest => actionSections a ++ actionsSections rest

/-- One section `function <name>` per function, in order, the first with index `i`. -/
def functionSections : List Function → Nat → List Section
  | [], _ => []
  | f :: rest, i => ⟨"function " ++ f.Name, i, f.Body⟩ :: functionSections rest (i + 1)

/-- The sections of a program in the order of the output: `BEGIN` when there is a begin block,
the sections of the actions, `END` when there is an end block, the functions. -/
def Program.sections (p : Program) : List Section :=
  (match p.Begin with
    | some code => [⟨"BEGIN", 0, code⟩]
    | none => []) ++
  actionsSections p.Actions ++
  (match p.End with
    | some code => [⟨"END", 0, code⟩]
    | none => []) ++
  functionSections p.Functions 0

/-- The sections `ss` disassembled one after the other. -/
def runSections (x : Externals) (p : Program) : List Section → Progress → Except Abort Progress
  | [], s => pure s
  | u :: us, s => do
    let s1 ← runUnit x p u.code u.funcIndex u.pfx s
    runSections x p us s1

/-- The writes of one section when no write fails: what `disassemble` hands to a writer that
accepts everything. -/
def sectionChunks (x : Externals) (p : Program) (s : Section) : List String :=
  match disassemble x (newDisassembler p okWriter s.code s.funcIndex) s.pfx with
  | .ok d => d.writer.written
  | .error _ => []

/-- The writes of the sections `ss` when no write fails. -/
def chunksOf (x : Externals) (p : Program) : List Section → List String
  | [] => []
  | s :: ss => sectionChunks x p s ++ chunksOf x p ss

/-- Every unit of the program is a concatenation of complete instructions whose pool indexes and
local slots are in range. -/
def Program.WellFormed (x : Externals) (p : Program) : Prop :=
  ∀ s ∈ p.sections, ∃ is : List Instr, s.code = encode is ∧
    ∀ i ∈ is, i.WellFormed x p s.funcIndex

/-- A sample program with a begin block, one action with a pattern and a body, and one
function. -/
def sampleProgram2 : Program where
  Begin := some [49]
  Actions := [{ Pattern := [[0, 0]], Body := [47, 2, 0] }]
  End := none
  Nums := [.finite false 5 0]
  Strs := []
  Regexes := []
  ScalarNames := []
  ArrayNames := []
  Functions := [{ Name := "f", Params := ["a", "b"], Body := [4, 1] }]

/-- The number of iterations that the loop of `disassemble` makes from `d`, counted along
`loop`; an iteration that panics counts. -/
def loopIterations (x : Externals) : Nat → Disassembler → Nat
  | 0, _ => 0
  | fuel + 1, d =>
    if d.ip < d.code.length ∧ d.err = none then
      match step x d with
      | .ok d1 => 1 + loopIterations x fuel d1
      | .error _ => 1
    else 0

/-! ## Basic facts -/

theorem get?_of_drop {α : Type} {l : List α} {n : Nat} {a : α} {rest : List α}
    (h : l.drop n = a :: rest) : l.get? n = some a ∧ l.drop (n + 1) = rest := by
  constructor
  · have := List.head?_drop l n
    rw [h] at this
    simpa using this.symm
  · have : l.drop (n + 1) = (l.drop n).tail := by simp [List.tail_drop]
    rw [this, h]; rfl

theorem fetch_drop {d : Disassembler} {w : Int} {rest : List Int}
    (h : d.code.drop d.ip = w :: rest) :
    fetch d = .ok (w, { d with ip := d.ip + 1 }) := by
  unfold fetch
  rw [(get?_of_drop h).1]

theorem operandKinds_length (m : Mnemonic) : (operandKinds m).length = operandCount m := by
  cases m <;> rfl

theorem localName_congr (d : Disassembler) (ip opAddr : Nat) (i : Int) :
    localName { d with ip := ip, opAddr := opAddr } i = localName d i := rfl

theorem step_fetch (x : Externals) (d : Disassembler) (op : Int) (rest : List Int)
    (h : d.code.drop d.ip = op :: rest) :
    step x d = switchOp x op { d with opAddr := d.ip, ip := d.ip + 1 } (x.classify op) := by
  have h0 : fetch { d with opAddr := d.ip } = .ok (op, { d with opAddr := d.ip, ip := d.ip + 1 }) :=
    fetch_drop (d := { d with opAddr := d.ip }) h
  rw [step, h0]

theorem step_eq0 (x : Externals) (d : Disassembler) (op : Int) (rest : List Int)
    (h : d.code.drop d.ip = op :: rest) (hn : operandCount (x.classify op) = 0) :
    step x d = (instrText x d op (x.classify op) []).map (afterInstr d 0) := by
  rw [step_fetch x d op rest h]
  cases hc : x.classify op <;> rw [hc] at hn <;> simp only [operandCount] at hn <;>
    first
    | omega
    | rfl

theorem step_eq1 (x : Externals) (d : Disassembler) (op a : Int) (rest : List Int)
    (h : d.code.drop d.ip = op :: a :: rest) (hn : operandCount (x.classify op) = 1) :
    step x d = (instrText x d op (x.classify op) [a]).map (afterInstr d 1) := by
  have h1 : fetch { d with opAddr := d.ip, ip := d.ip + 1 } =
      .ok (a, { d with opAddr := d.ip, ip := d.ip + 1 + 1 }) :=
    fetch_drop (d := { d with opAddr := d.ip, ip := d.ip + 1 }) (get?_of_drop h).2
  rw [step_fetch x d op _ h]
  cases hc : x.classify op <;> rw [hc] at hn <;> simp only [operandCount] at hn <;>
    first
    | omega
    | (simp only [switchOp, instrText, operands1, h1, bind, Except.bind, pure, Except.pure, Except.map,
        afterInstr, localName_congr]
       try (first
         | rfl
         | (split <;> first | rfl | (split <;> rfl))))

theorem step_eq2 (x : Externals) (d : Disassembler) (op a b : Int) (rest : List Int)
    (h : d.code.drop d.ip = op :: a :: b :: rest) (hn : operandCount (x.classify op) = 2) :
    step x d = (instrText x d op (x.classify op) [a, b]).map (afterInstr d 2) := by
  have h1 : fetch { d with opAddr := d.ip, ip := d.ip + 1 } =
      .ok (a, { d with opAddr := d.ip, ip := d.ip + 1 + 1 }) :=
    fetch_drop (d := { d with opAddr := d.ip, ip := d.ip + 1 }) (get?_of_drop h).2
  have h2 : fetch { d with opAddr := d.ip, ip := d.ip + 1 + 1 } =
      .ok (b, { d with opAddr := d.ip, ip := d.ip + 1 + 1 + 1 }) :=
    fetch_drop (d := { d with opAddr := d.ip, ip := d.ip + 1 + 1 })
      (get?_of_drop (get?_of_drop h).2).2
  rw [step_fetch x d op _ h]
  cases hc : x.classify op <;> rw [hc] at hn <;> simp only [operandCount] at hn <;>
    first
    | omega
    | (simp only [switchOp, instrText, operands2, h1, h2, bind, Except.bind, pure, Except.pure,
        Except.map, afterInstr, localName_congr]
       try (first
         | rfl
         | (split <;> rfl)))

theorem step_eq3 (x : Externals) (d : Disassembler) (op a b c : Int) (rest : List Int)
    (h : d.code.drop d.ip = op :: a :: b :: c :: rest)
    (hn : operandCount (x.classify op) = 3) :
    step x d = (instrText x d op (x.classify op) [a, b, c]).map (afterInstr d 3) := by
  have h1 : fetch { d with opAddr := d.ip, ip := d.ip + 1 } =
      .ok (a, { d with opAddr := d.ip, ip := d.ip + 1 + 1 }) :=
    fetch_drop (d := { d with opAddr := d.ip, ip := d.ip + 1 }) (get?_of_drop h).2
  have h2 : fetch { d with opAddr := d.ip, ip := d.ip + 1 + 1 } =
      .ok (b, { d with opAddr := d.ip, ip := d.ip + 1 + 1 + 1 }) :=
    fetch_drop (d := { d with opAddr := d.ip, ip := d.ip + 1 + 1 })
      (get?_of_drop (get?_of_drop h).2).2
  have h3 : fetch { d with opAddr := d.ip, ip := d.ip + 1 + 1 + 1 } =
      .ok (c, { d with opAddr := d.ip, ip := d.ip + 1 + 1 + 1 + 1 }) :=
    fetch_drop (d := { d with opAddr := d.ip, ip := d.ip + 1 + 1 + 1 })
      (get?_of_drop (get?_of_drop (get?_of_drop h).2).2).2
  rw [step_fetch x d op _ h]
  cases hc : x.classify op <;> rw [hc] at hn <;> simp only [operandCount] at hn <;>
    first
    | omega
    | (simp only [switchOp, instrText, operands3, h1, h2, h3, bind, Except.bind, pure,
        Except.pure, Except.map, afterInstr, localName_congr]
       split <;> first | rfl | (split <;> rfl))

/-- The `switch` of `disassemble` agrees with the instruction layout: on a complete instruction
`step` fetches exactly the operands of the opcode and writes the text of the `case`, or panics
as the formatting of the text does. -/
theorem step_eq_instrText (x : Externals) (d : Disassembler) (i : Instr) (rest : List Int)
    (h : d.code.drop d.ip = i.op :: (i.operands ++ rest))
    (hn : i.operands.length = operandCount (x.classify i.op)) :
    step x d =
      (instrText x d i.op (x.classify i.op) i.operands).map (afterInstr d i.operands.length) := by
  obtain ⟨op, operands⟩ := i
  simp only at h hn ⊢
  match operands, hn, h with
  | [], hn, h => exact step_eq0 x d op rest h hn.symm
  | [a], hn, h => exact step_eq1 x d op a rest h hn.symm
  | [a, b], hn, h => exact step_eq2 x d op a b rest h hn.symm
  | [a, b, c], hn, h => exact step_eq3 x d op a b c rest h hn.symm
  | a :: b :: c :: e :: t, hn, _ =>
    exfalso
    have : operandCount (x.classify op) ≤ 3 := by cases x.classify op <;> simp [operandCount]
    simp only [List.length_cons] at hn
    omega

theorem sliceIndex_ok {α : Type} (xs : List α) (i : Int) (h0 : 0 ≤ i) (h1 : i < xs.length) :
    ∃ a, xs.get? i.toNat = some a ∧ sliceIndex xs i = .ok a := by
  have hlt : i.toNat < xs.length := by omega
  refine ⟨xs.get ⟨i.toNat, hlt⟩, List.get?_eq_get hlt, ?_⟩
  unfold sliceIndex
  rw [if_pos h0, List.get?_eq_get hlt]

theorem sliceIndex_error {α : Type} (xs : List α) (i : Int) (h : ¬ (0 ≤ i ∧ i < xs.length)) :
    sliceIndex xs i = .error (.indexOutOfRange i xs.length) := by
  unfold sliceIndex
  by_cases h0 : 0 ≤ i
  · have hge : xs.length ≤ i.toNat := by omega
    rw [if_pos h0, List.get?_eq_none.mpr hge]
  · rw [if_neg h0]

theorem sliceIndex_nat {α : Type} (xs : List α) (n : Nat) (a : α) (h : xs.get? n = some a) :
    sliceIndex xs (n : Int) = .ok a := by
  unfold sliceIndex
  rw [if_pos (Int.ofNat_nonneg n), Int.toNat_ofNat, h]

theorem localNameLoop_eq (ps : List String) (i : Nat) (index : Int) :
    localNameLoop ps i index =
      if (i : Int) ≤ index then ps.get? (index - i).toNat else none := by
  induction ps generalizing i with
  | nil => simp [localNameLoop]
  | cons p ps ih =>
    unfold localNameLoop
    by_cases h : (i : Int) = index
    · subst h
      simp
    · rw [if_neg h, ih (i + 1)]
      by_cases hle : (i : Int) ≤ index
      · have h1 : ((i + 1 : Nat) : Int) ≤ index := by omega
        have h2 : (index - (i : Int)).toNat = (index - ((i + 1 : Nat) : Int)).toNat + 1 := by omega
        rw [if_pos h1, if_pos hle, h2]
        rfl
      · have h1 : ¬ ((i + 1 : Nat) : Int) ≤ index := by omega
        rw [if_neg h1, if_neg hle]

theorem localName_ok (d : Disassembler) (f : Function) (index : Int)
    (hf : d.program.Functions.get? d.funcIndex = some f)
    (h0 : 0 ≤ index) (h1 : index < f.Params.length) :
    ∃ name, f.Params.get? index.toNat = some name ∧ localName d index = .ok name := by
  have hlt : index.toNat < f.Params.length := by omega
  refine ⟨f.Params.get ⟨index.toNat, hlt⟩, List.get?_eq_get hlt, ?_⟩
  unfold localName
  rw [sliceIndex_nat _ _ _ hf]
  simp only [localNameLoop_eq, Int.ofNat_zero, sub_zero]
  rw [if_pos h0, List.get?_eq_get hlt]

theorem localName_unexpected (d : Disassembler) (f : Function) (index : Int)
    (hf : d.program.Functions.get? d.funcIndex = some f)
    (h : ¬ (0 ≤ index ∧ index < f.Params.length)) :
    localName d index = .error (.unexpectedLocal index) := by
  unfold localName
  rw [sliceIndex_nat _ _ _ hf]
  simp only [localNameLoop_eq, Int.ofNat_zero, sub_zero]
  by_cases h0 : 0 ≤ index
  · have hge : f.Params.length ≤ index.toNat := by omega
    rw [if_pos h0, List.get?_eq_none.mpr hge]
  · rw [if_neg h0]

theorem operandOk_localSlot {p : Program} {fi : Nat} {v : Int}
    (h : operandOk p fi .localSlot v = true) :
    ∃ f, p.Functions.get? fi = some f ∧ 0 ≤ v ∧ v < f.Params.length := by
  unfold operandOk at h
  simp only at h
  cases hf : p.Functions.get? fi with
  | none => rw [hf] at h; simp at h
  | some f => rw [hf] at h; exact ⟨f, rfl, by simpa using h⟩

theorem isOk_pure {α : Type} (a : α) : IsOk (pure a : Except Abort α) := ⟨a, rfl⟩

theorem isOk_bind {α β : Type} (e : Except Abort α) (f : α → Except Abort β)
    (he : IsOk e) (hf : ∀ a, IsOk (f a)) : IsOk (e >>= f) := by
  obtain ⟨a, rfl⟩ := he
  exact hf a

theorem isOk_ite {α : Type} (c : Prop) [Decidable c] (a b : Except Abort α)
    (ha : IsOk a) (hb : IsOk b) : IsOk (if c then a else b) := by
  split
  · exact ha
  · exact hb

theorem isOk_sliceIndex {α : Type} (xs : List α) (i : Int) (h0 : 0 ≤ i) (h1 : i < xs.length) :
    IsOk (sliceIndex xs i) := by
  obtain ⟨a, _, h⟩ := sliceIndex_ok xs i h0 h1
  exact ⟨a, h⟩

theorem isOk_localName (d : Disassembler) (i : Int)
    (h : operandOk d.program d.funcIndex .localSlot i = true) : IsOk (localName d i) := by
  obtain ⟨f, hf, h0, h1⟩ := operandOk_localSlot h
  obtain ⟨name, _, hn⟩ := localName_ok d f i hf h0 h1
  exact ⟨name, hn⟩

theorem operandOk_plain (p : Program) (fi : Nat) (v : Int) :
    operandOk p fi .plain v = true ↔ True := by simp [operandOk]

theorem operandOk_num (p : Program) (fi : Nat) (v : Int) :
    operandOk p fi .num v = true ↔ 0 ≤ v ∧ v < p.Nums.length := by simp [operandOk]

theorem operandOk_str (p : Program) (fi : Nat) (v : Int) :
    operandOk p fi .str v = true ↔ 0 ≤ v ∧ v < p.Strs.length := by simp [operandOk]

theorem operandOk_regex (p : Program) (fi : Nat) (v : Int) :
    operandOk p fi .regex v = true ↔ 0 ≤ v ∧ v < p.Regexes.length := by simp [operandOk]

theorem operandOk_scalar (p : Program) (fi : Nat) (v : Int) :
    operandOk p fi .scalar v = true ↔ 0 ≤ v ∧ v < p.ScalarNames.length := by simp [operandOk]

theorem operandOk_array (p : Program) (fi : Nat) (v : Int) :
    operandOk p fi .array v = true ↔ 0 ≤ v ∧ v < p.ArrayNames.length := by simp [operandOk]

theorem operandOk_func (p : Program) (fi : Nat) (v : Int) :
    operandOk p fi .func v = true ↔ 0 ≤ v ∧ v < p.Functions.length := by simp [operandOk]

/-- A complete instruction with its operands in range formats without a panic. -/
theorem instrText_ok (x : Externals) (d : Disassembler) (i : Instr)
    (h : i.WellFormed x d.program d.funcIndex) :
    i.operands.length = operandCount (x.classify i.op) ∧
      IsOk (instrText x d i.op (x.classify i.op) i.operands) := by
  obtain ⟨op, operands⟩ := i
  unfold Instr.WellFormed at h
  simp only at h ⊢
  cases hc : x.classify op <;> rw [hc] at h <;> simp only [operandKinds] at h <;>
    (rcases operands with _ | ⟨a, _ | ⟨b, _ | ⟨c, _ | ⟨e, t⟩⟩⟩⟩ <;>
      simp only [operandsOk, Bool.and_eq_true, Bool.and_true, Bool.false_eq_true, and_false,
        false_and, operandOk_plain, operandOk_num, operandOk_str, operandOk_regex,
        operandOk_scalar, operandOk_array, operandOk_func, true_and, and_true] at h) <;>
    refine ⟨rfl, ?_⟩ <;>
    simp only [instrText, operands0, operands1, operands2, operands3] <;>
    repeat' (first
      | exact isOk_pure _
      | exact isOk_sliceIndex _ _ (by omega) (by omega)
      | exact isOk_localName _ _ (by first | exact h | exact h.1 | exact h.2)
      | apply isOk_bind
      | apply isOk_ite
      | intro _)

/-! ## Runs over a well-formed stream -/


theorem linesFrom_length (start : Nat) (is : List Instr) (ts : List String)
    (h : ts.length = is.length) : (linesFrom start is ts).length = is.length := by
  induction is generalizing start ts with
  | nil => cases ts <;> simp [linesFrom]
  | cons i is ih =>
    cases ts with
    | nil => simp at h
    | cons t ts =>
      simp only [linesFrom, List.length_cons]
      rw [ih (start + i.width) ts (by simpa using h)]

theorem addrOf_zero (is : List Instr) : addrOf is 0 = 0 := by simp [addrOf]

theorem addrOf_succ (i : Instr) (is : List Instr) (k : Nat) :
    addrOf (i :: is) (k + 1) = i.width + addrOf is k := by
  simp [addrOf]

theorem textsFor_length (x : Externals) (p : Program) (code : List Int) (fi : Nat)
    (start : Nat) (is : List Instr) (ts : List String)
    (h : TextsFor x p code fi start is ts) : ts.length = is.length := by
  induction is generalizing start ts with
  | nil => cases ts <;> simp_all [TextsFor]
  | cons i is ih =>
    cases ts with
    | nil => simp [TextsFor] at h
    | cons t ts => simp only [TextsFor] at h; simp [ih _ _ h.2]

theorem linesFrom_get (x : Externals) (p : Program) (code : List Int) (fi : Nat)
    (start : Nat) (is : List Instr) (ts : List String)
    (h : TextsFor x p code fi start is ts) (k : Nat) (hk : k < is.length) :
    ∃ i t, is.get? k = some i ∧ instrTextAt x p code fi (start + addrOf is k) i = .ok t ∧
      (linesFrom start is ts).get? k = some (opLine (start + addrOf is k) t) := by
  induction is generalizing start ts k with
  | nil => simp at hk
  | cons i is ih =>
    cases ts with
    | nil => simp [TextsFor] at h
    | cons t ts =>
      simp only [TextsFor] at h
      cases k with
      | zero => exact ⟨i, t, rfl, by simpa [addrOf_zero] using h.1, by simp [linesFrom, addrOf_zero]⟩
      | succ k =>
        obtain ⟨j, t1, hj, ht1, hl⟩ := ih (start + i.width) ts h.2 k (by simpa using hk)
        refine ⟨j, t1, by simpa using hj, ?_, ?_⟩
        · rw [addrOf_succ, ← Nat.add_assoc]; exact ht1
        · simp only [linesFrom, List.get?_cons_succ, hl, addrOf_succ, Nat.add_assoc]

theorem instrText_congr (x : Externals) (d d1 : Disassembler) (op : Int) (m : Mnemonic)
    (hp : d.program = d1.program) (hc : d.code = d1.code) (hf : d.funcIndex = d1.funcIndex)
    (hi : d.ip = d1.ip) : instrText x d op m = instrText x d1 op m := by
  obtain ⟨p, w, c, fi, ip, oa, e⟩ := d
  obtain ⟨p1, w1, c1, fi1, ip1, oa1, e1⟩ := d1
  simp only at hp hc hf hi
  subst hp hc hf hi
  cases m <;> rfl

theorem encode_length_ge (is : List Instr) : is.length ≤ (encode is).length := by
  induction is with
  | nil => simp
  | cons i is ih => simp only [encode, List.length_cons, List.length_append]; omega

theorem encode_length (is : List Instr) :
    (encode is).length = (is.map Instr.width).sum := by
  induction is with
  | nil => rfl
  | cons i is ih =>
    simp only [encode, List.length_cons, List.length_append, List.map_cons, List.sum_cons, ih,
      Instr.width]
    omega

theorem encode_append (is js : List Instr) : encode (is ++ js) = encode is ++ encode js := by
  induction is with
  | nil => rfl
  | cons i is ih => simp [encode, ih]

/-- Fields of the state after an instruction, when no error is pending. -/
theorem afterInstr_fields (d : Disassembler) (n : Nat) (text : String) (he : d.err = none) :
    (afterInstr d n text).program = d.program ∧ (afterInstr d n text).code = d.code ∧
    (afterInstr d n text).funcIndex = d.funcIndex ∧ (afterInstr d n text).ip = d.ip + 1 + n ∧
    (afterInstr d n text).opAddr = d.ip ∧
    (afterInstr d n text).writer.failure = d.writer.failure ∧
    (afterInstr d n text).writer.written =
      d.writer.written ++ [opLine d.ip text] ∧
    (afterInstr d n text).err = d.writer.failure d.writer.written (opLine d.ip text) := by
  simp [afterInstr, writeOpf, he, Writer.write, opLine]

/-- On a complete, in-range instruction `step` returns, having consumed the instruction and
written its line. -/
theorem step_ok (x : Externals) (d : Disassembler) (i : Instr) (rest : List Int)
    (h : d.code.drop d.ip = i.op :: (i.operands ++ rest))
    (hw : i.WellFormed x d.program d.funcIndex) :
    ∃ text, instrText x d i.op (x.classify i.op) i.operands = .ok text ∧
      step x d = .ok (afterInstr d i.operands.length text) := by
  obtain ⟨hn, text, ht⟩ := instrText_ok x d i hw
  refine ⟨text, ht, ?_⟩
  rw [step_eq_instrText x d i rest h hn, ht]
  rfl

theorem drop_add_of_drop {α : Type} (l : List α) (n : Nat) (a b : List α)
    (h : l.drop n = a ++ b) : l.drop (n + a.length) = b := by
  rw [← List.drop_drop, h, List.drop_left]

/-- The loop over a well-formed stream with a writer that never fails: it returns with `ip` at
the end of the stream, having written one line per instruction, each at its address. -/
theorem loop_complete (x : Externals) (is : List Instr) :
    ∀ (fuel : Nat) (d : Disassembler), is.length ≤ fuel →
      d.code.drop d.ip = encode is → d.ip ≤ d.code.length →
      (∀ i ∈ is, i.WellFormed x d.program d.funcIndex) →
      d.err = none → d.writer.NeverFails →
      ∃ d1 texts, loop x fuel d = .ok d1 ∧
        TextsFor x d.program d.code d.funcIndex d.ip is texts ∧
        d1.ip = d.code.length ∧ d1.err = none ∧ d1.code = d.code ∧
        d1.program = d.program ∧ d1.funcIndex = d.funcIndex ∧
        d1.writer.failure = d.writer.failure ∧
        d1.writer.written = d.writer.written ++ linesFrom d.ip is texts := by
  induction is with
  | nil =>
    intro fuel d _ hdrop hle _ he _
    have hge : d.code.length ≤ d.ip := by
      have := congrArg List.length hdrop
      simp only [List.length_drop, encode, List.length_nil] at this
      omega
    have hcond : ¬ (d.ip < d.code.length ∧ d.err = none) := by omega
    refine ⟨d, [], ?_, trivial, by omega, he, rfl, rfl, rfl, rfl, by simp [linesFrom]⟩
    cases fuel <;> simp only [loop, if_neg hcond]
  | cons i is ih =>
    intro fuel d hfuel hdrop hle hwf he hnf
    obtain ⟨fuel, rfl⟩ : ∃ f, fuel = f + 1 := ⟨fuel - 1, by simp at hfuel; omega⟩
    have hlen := congrArg List.length hdrop
    simp only [List.length_drop, encode, List.length_cons, List.length_append] at hlen
    have hcond : d.ip < d.code.length ∧ d.err = none := ⟨by omega, he⟩
    obtain ⟨text, htext, hstep⟩ :=
      step_ok x d i (encode is) hdrop (hwf i (List.mem_cons_self _ _))
    obtain ⟨hp, hc, hf, hip, _, hwfail, hwr, herr⟩ := afterInstr_fields d i.operands.length text he
    have hdrop1 : (afterInstr d i.operands.length text).code.drop
        (afterInstr d i.operands.length text).ip = encode is := by
      rw [hc, hip]
      have h2 : d.code.drop d.ip = (i.op :: i.operands) ++ encode is := by simpa [encode] using hdrop
      have := drop_add_of_drop d.code d.ip (i.op :: i.operands) (encode is) h2
      simpa [Nat.add_comm, Nat.add_assoc, Nat.add_left_comm] using this
    obtain ⟨d1, texts, hloop, hts, hip1, herr1, hcode1, hprog1, hfi1, hfail1, hwr1⟩ :=
      ih fuel (afterInstr d i.operands.length text) (by simpa using hfuel) hdrop1
        (by rw [hc, hip]; omega)
        (by rw [hp, hf]; exact fun j hj => hwf j (List.mem_cons_of_mem _ hj))
        (by rw [herr]; exact hnf _ _)
        (by intro l s; rw [hwfail]; exact hnf l s)
    refine ⟨d1, text :: texts, ?_, ?_, by rw [hip1, hc], herr1, by rw [hcode1, hc],
      by rw [hprog1, hp], by rw [hfi1, hf], by rw [hfail1, hwfail], ?_⟩
    · simp only [loop, if_pos hcond, hstep, hloop]
    · refine ⟨?_, ?_⟩
      · unfold instrTextAt
        rw [← htext]
        exact congrFun (instrText_congr x _ d i.op _ rfl rfl rfl rfl) _
      · rw [hp, hc, hf, hip] at hts
        simpa [Instr.width, Nat.add_assoc] using hts
    · rw [hwr1, hwr, hip]
      simp [linesFrom, Instr.width, Nat.add_assoc]

/-- The loop over a well-formed stream returns, whatever the writer does. -/
theorem loop_returns (x : Externals) (is : List Instr) :
    ∀ (fuel : Nat) (d : Disassembler), is.length ≤ fuel →
      d.code.drop d.ip = encode is → d.ip ≤ d.code.length →
      (∀ i ∈ is, i.WellFormed x d.program d.funcIndex) →
      ∃ d1, loop x fuel d = .ok d1 := by
  induction is with
  | nil =>
    intro fuel d _ hdrop hle _
    have hge : d.code.length ≤ d.ip := by
      have := congrArg List.length hdrop
      simp only [List.length_drop, encode, List.length_nil] at this
      omega
    have hcond : ¬ (d.ip < d.code.length ∧ d.err = none) := by omega
    exact ⟨d, by cases fuel <;> simp only [loop, if_neg hcond]⟩
  | cons i is ih =>
    intro fuel d hfuel hdrop hle hwf
    obtain ⟨fuel, rfl⟩ : ∃ f, fuel = f + 1 := ⟨fuel - 1, by simp at hfuel; omega⟩
    by_cases hcond : d.ip < d.code.length ∧ d.err = none
    · have he := hcond.2
      have hlen := congrArg List.length hdrop
      simp only [List.length_drop, encode, List.length_cons, List.length_append] at hlen
      obtain ⟨text, _, hstep⟩ := step_ok x d i (encode is) hdrop (hwf i (List.mem_cons_self _ _))
      obtain ⟨hp, hc, hf, hip, _, _, _, _⟩ := afterInstr_fields d i.operands.length text he
      have hdrop1 : (afterInstr d i.operands.length text).code.drop
          (afterInstr d i.operands.length text).ip = encode is := by
        rw [hc, hip]
        have h2 : d.code.drop d.ip = (i.op :: i.operands) ++ encode is := by
          simpa [encode] using hdrop
        have := drop_add_of_drop d.code d.ip (i.op :: i.operands) (encode is) h2
        simpa [Nat.add_comm, Nat.add_assoc, Nat.add_left_comm] using this
      obtain ⟨d1, hloop⟩ :=
        ih fuel (afterInstr d i.operands.length text) (by simpa using hfuel) hdrop1
          (by rw [hc, hip]; omega)
          (by rw [hp, hf]; exact fun j hj => hwf j (List.mem_cons_of_mem _ hj))
      exact ⟨d1, by simp only [loop, if_pos hcond, hstep, hloop]⟩
    · exact ⟨d, by simp only [loop, if_neg hcond]⟩

/-- Fields of the state after `writef`, when no error is pending. -/
theorem writef_fields (d : Disassembler) (text : String) (he : d.err = none) :
    (writef d text).program = d.program ∧ (writef d text).code = d.code ∧
    (writef d text).funcIndex = d.funcIndex ∧ (writef d text).ip = d.ip ∧
    (writef d text).writer.failure = d.writer.failure ∧
    (writef d text).writer.written = d.writer.written ++ [text] ∧
    (writef d text).err = d.writer.failure d.writer.written text := by
  simp [writef, he, Writer.write]

/-- The state in which the loop of `disassemble` starts. -/
theorem header_fields (p : Program) (w : Writer) (code : List Int) (fi : Nat) (pfx : String) :
    let d1 := if pfx ≠ "" then writef (newDisassembler p w code fi) ("        // " ++ pfx ++ "\n")
      else newDisassembler p w code fi
    d1.program = p ∧ d1.code = code ∧ d1.funcIndex = fi ∧ d1.ip = 0 ∧
    d1.writer.failure = w.failure ∧ d1.writer.written = w.written ++ headerLines pfx ∧
    (w.NeverFails → d1.err = none) := by
  intro d1
  by_cases h : pfx ≠ ""
  · have hd : d1 = writef (newDisassembler p w code fi) ("        // " ++ pfx ++ "\n") := if_pos h
    obtain ⟨h1, h2, h3, h4, h5, h6, h7⟩ :=
      writef_fields (newDisassembler p w code fi) ("        // " ++ pfx ++ "\n") rfl
    rw [hd]
    refine ⟨h1, h2, h3, h4, h5, ?_, fun hnf => ?_⟩
    · rw [h6, headerLines, if_pos h]; rfl
    · rw [h7]; exact hnf _ _
  · have hd : d1 = newDisassembler p w code fi := if_neg h
    rw [hd]
    refine ⟨rfl, rfl, rfl, rfl, rfl, ?_, fun _ => rfl⟩
    rw [headerLines, if_neg h]; simp [newDisassembler]

/-- A well-formed stream and a writer that never fails: `disassemble` returns with `ip` at the
end of the stream, having written the section line, one line per instruction, each at its
address and with its text, and the blank line. -/
theorem disassemble_complete (x : Externals) (p : Program) (w : Writer) (fi : Nat)
    (pfx : String) (is : List Instr)
    (hwf : ∀ i ∈ is, i.WellFormed x p fi) (hnf : w.NeverFails) :
    ∃ d texts, disassemble x (newDisassembler p w (encode is) fi) pfx = .ok d ∧
      TextsFor x p (encode is) fi 0 is texts ∧
      d.ip = (encode is).length ∧ d.err = none ∧ d.writer.failure = w.failure ∧
      d.writer.written = w.written ++ headerLines pfx ++ linesFrom 0 is texts ++ ["\n"] := by
  obtain ⟨h1, h2, h3, h4, h5, h6, h7⟩ := header_fields p w (encode is) fi pfx
  unfold disassemble
  simp only at h1 h2 h3 h4 h5 h6 h7 ⊢
  generalize (if pfx ≠ "" then
    writef (newDisassembler p w (encode is) fi) ("        // " ++ pfx ++ "\n")
    else newDisassembler p w (encode is) fi) = d1 at h1 h2 h3 h4 h5 h6 h7 ⊢
  obtain ⟨d2, texts, hloop, hts, hip, herr, hcode, _, _, hfail, hwr⟩ :=
    loop_complete x is (d1.code.length - d1.ip) d1
      (by rw [h2, h4]; simpa using encode_length_ge is)
      (by rw [h2, h4]; rfl) (by rw [h4]; omega)
      (by rw [h1, h3]; exact hwf) (h7 hnf) (by intro l s; rw [h5]; exact hnf l s)
  obtain ⟨_, _, _, g4, g5, g6, g7⟩ := writef_fields d2 "\n" herr
  refine ⟨writef d2 "\n", texts, by rw [hloop], ?_, ?_, ?_, ?_, ?_⟩
  · rw [h1, h2, h3, h4] at hts; exact hts
  · rw [g4, hip, h2]
  · rw [g7, hfail, h5]; exact hnf _ _
  · rw [g5, hfail, h5]
  · rw [g6, hwr, h6, h4]

/-- A well-formed stream: `disassemble` returns, whatever the writer does. -/
theorem disassemble_returns (x : Externals) (p : Program) (w : Writer) (fi : Nat)
    (pfx : String) (is : List Instr) (hwf : ∀ i ∈ is, i.WellFormed x p fi) :
    ∃ d, disassemble x (newDisassembler p w (encode is) fi) pfx = .ok d := by
  obtain ⟨h1, h2, h3, h4, _, _, _⟩ := header_fields p w (encode is) fi pfx
  unfold disassemble
  simp only at h1 h2 h3 h4 ⊢
  generalize (if pfx ≠ "" then
    writef (newDisassembler p w (encode is) fi) ("        // " ++ pfx ++ "\n")
    else newDisassembler p w (encode is) fi) = d1 at h1 h2 h3 h4 ⊢
  obtain ⟨d2, hloop⟩ :=
    loop_returns x is (d1.code.length - d1.ip) d1
      (by rw [h2, h4]; simpa using encode_length_ge is)
      (by rw [h2, h4]; rfl) (by rw [h4]; omega)
      (by rw [h1, h3]; exact hwf)
  exact ⟨writef d2 "\n", by rw [hloop]⟩

/-! ## The claims -/

theorem addrOf_length (is : List Instr) : addrOf is is.length = (encode is).length := by
  rw [addrOf, List.take_length, encode_length]

theorem addrOf_step (is : List Instr) (k : Nat) (i : Instr) (hi : is.get? k = some i) :
    addrOf is (k + 1) = addrOf is k + i.width := by
  induction is generalizing k with
  | nil => simp at hi
  | cons j is ih =>
    cases k with
    | zero =>
      simp only [List.get?_cons_zero, Option.some.injEq] at hi
      subst hi
      simp [addrOf]
    | succ k =>
      rw [addrOf_succ, addrOf_succ, ih k (by simpa using hi)]
      omega

/-- C1 (as stated, refuted): the stream `Local 2` in the body of `f(a, b)` is one complete
instruction and has no pool index at all, yet `disassemble` does not reach the end of the
stream: `localName` panics on the slot. -/
theorem C1_counterexample :
    (∀ i ∈ [Instr.mk 4 [2]], i.Complete sampleExternals sampleProgram) ∧
    disassemble sampleExternals
        (newDisassembler sampleProgram okWriter (encode [Instr.mk 4 [2]]) 0) "function f" =
      .error (.unexpectedLocal 2) := by
  refine ⟨?_, rfl⟩
  intro i hi
  rw [List.mem_singleton] at hi
  subst hi
  rfl

/-- C1 (amended): for a stream that is a concatenation of complete instructions whose pool
indexes and local slots are all in range, and a writer on which no write fails, `disassemble`
decodes every instruction exactly once: it returns with `ip` equal to `len(code)`, which is the
sum of all widths, and the `k`-th line written for an instruction (from 0) carries the address
that is the sum of the widths of the instructions before it, with the text of that
instruction. -/
theorem C1_decodes_each_instruction_once (x : Externals) (p : Program) (w : Writer) (fi : Nat)
    (pfx : String) (is : List Instr)
    (hwf : ∀ i ∈ is, i.WellFormed x p fi) (hnf : w.NeverFails) :
    ∃ d lines, disassemble x (newDisassembler p w (encode is) fi) pfx = .ok d ∧
      d.ip = (encode is).length ∧ (encode is).length = addrOf is is.length ∧ d.err = none ∧
      d.writer.written = w.written ++ headerLines pfx ++ lines ++ ["\n"] ∧
      lines.length = is.length ∧
      ∀ k, k < is.length → ∃ i text, is.get? k = some i ∧
        i.operands.length = operandCount (x.classify i.op) ∧
        addrOf is (k + 1) = addrOf is k + i.width ∧
        instrTextAt x p (encode is) fi (addrOf is k) i = .ok text ∧
        lines.get? k = some (opLine (addrOf is k) text) := by
  obtain ⟨d, texts, hd, hts, hip, herr, _, hwr⟩ := disassemble_complete x p w fi pfx is hwf hnf
  refine ⟨d, linesFrom 0 is texts, hd, hip, (addrOf_length is).symm, herr, hwr,
    linesFrom_length 0 is texts (textsFor_length _ _ _ _ _ _ _ hts), ?_⟩
  intro k hk
  obtain ⟨i, t, hi, ht, hl⟩ := linesFrom_get x p (encode is) fi 0 is texts hts k hk
  refine ⟨i, t, hi, ?_, addrOf_step is k i hi, by simpa using ht, by simpa using hl⟩
  have hw := hwf i (List.get?_mem hi)
  exact (instrText_ok x (stateAt p (encode is) fi 0) i hw).1

/-- C1, witness: the amended claim at the stream `Num 5.25; Print 2 >>; Nop` of the sample
program. -/
theorem C1_decodes_each_instruction_once_witness :
    (∀ i ∈ sampleStream, i.WellFormed sampleExternals sampleProgram 0) ∧ okWriter.NeverFails ∧
    ∃ d lines, disassemble sampleExternals
        (newDisassembler sampleProgram okWriter (encode sampleStream) 0) "BEGIN" = .ok d ∧
      d.ip = (encode sampleStream).length ∧
      (encode sampleStream).length = addrOf sampleStream sampleStream.length ∧ d.err = none ∧
      d.writer.written = okWriter.written ++ headerLines "BEGIN" ++ lines ++ ["\n"] ∧
      lines.length = sampleStream.length ∧
      ∀ k, k < sampleStream.length → ∃ i text, sampleStream.get? k = some i ∧
        i.operands.length = operandCount (sampleExternals.classify i.op) ∧
        addrOf sampleStream (k + 1) = addrOf sampleStream k + i.width ∧
        instrTextAt sampleExternals sampleProgram (encode sampleStream) 0
          (addrOf sampleStream k) i = .ok text ∧
        lines.get? k = some (opLine (addrOf sampleStream k) text) :=
  have h1 : ∀ i ∈ sampleStream, i.WellFormed sampleExternals sampleProgram 0 := by
    intro i hi
    simp only [sampleStream, List.mem_cons, List.mem_singleton, List.not_mem_nil, or_false] at hi
    rcases hi with rfl | rfl | rfl <;> rfl
  have h2 : okWriter.NeverFails := fun _ _ => rfl
  ⟨h1, h2, C1_decodes_each_instruction_once sampleExternals sampleProgram okWriter 0 "BEGIN"
    sampleStream h1 h2⟩

theorem toInt32_range (w : Int) :
    -(2 : Int) ^ 31 ≤ toInt32 w ∧ toInt32 w < (2 : Int) ^ 31 ∧
      (toInt32 w - w) % (2 : Int) ^ 32 = 0 := by
  unfold toInt32
  have h1 := Int.emod_nonneg (w + 2 ^ 31) (by norm_num : (2 : Int) ^ 32 ≠ 0)
  have h2 := Int.emod_lt_of_pos (w + 2 ^ 31) (by norm_num : (0 : Int) < 2 ^ 32)
  have h3 := Int.emod_add_ediv (w + 2 ^ 31) (2 ^ 32)
  refine ⟨by omega, by omega, ?_⟩
  have h4 : (w + 2 ^ 31) % 2 ^ 32 - 2 ^ 31 - w = (2 : Int) ^ 32 * (-((w + 2 ^ 31) / 2 ^ 32)) := by
    rw [mul_neg]; omega
  rw [h4, Int.mul_emod_right]

/-- C2: a `Jump`, `JumpFalse`, `JumpTrue`, `JumpNumLess`, `JumpNumGreater`,
`JumpNumLessOrEqual` or `JumpNumGreaterOrEqual` instruction at address `A = d.ip` with offset
word `w` is decoded in one step that leaves `ip = A + 2` and writes, at address `A`, the
mnemonic followed by the `%04x` rendering of `(A + 2) + O`, where `O = int32(w)` is the word
read as a signed 32-bit value: the target is relative to the address after the operand, for
forward and backward offsets alike. -/
theorem C2_jump_target_after_operand (x : Externals) (d : Disassembler) (op w : Int)
    (rest : List Int) (name : String)
    (hname : jumpName (x.classify op) = some name)
    (h : d.code.drop d.ip = op :: w :: rest) (he : d.err = none) :
    step x d =
        .ok (afterInstr d 1 (name ++ " 0x" ++ fmtX04 (((d.ip + 2 : Nat) : Int) + toInt32 w))) ∧
      (afterInstr d 1 (name ++ " 0x" ++ fmtX04 (((d.ip + 2 : Nat) : Int) + toInt32 w))).ip =
        d.ip + 2 ∧
      (afterInstr d 1
          (name ++ " 0x" ++ fmtX04 (((d.ip + 2 : Nat) : Int) + toInt32 w))).writer.written =
        d.writer.written ++
          [opLine d.ip (name ++ " 0x" ++ fmtX04 (((d.ip + 2 : Nat) : Int) + toInt32 w))] ∧
      -(2 : Int) ^ 31 ≤ toInt32 w ∧ toInt32 w < (2 : Int) ^ 31 ∧
      (toInt32 w - w) % (2 : Int) ^ 32 = 0 := by
  obtain ⟨_, _, _, hip, _, _, hwr, _⟩ :=
    afterInstr_fields d 1 (name ++ " 0x" ++ fmtX04 (((d.ip + 2 : Nat) : Int) + toInt32 w)) he
  refine ⟨?_, hip, hwr, toInt32_range w⟩
  have hcount : operandCount (x.classify op) = 1 := by
    cases hc : x.classify op <;> rw [hc] at hname <;> simp [jumpName] at hname <;> rfl
  rw [step_eq1 x d op w rest h hcount]
  cases hc : x.classify op <;> rw [hc] at hname <;> simp only [jumpName] at hname <;>
    cases hname <;> rfl

/-- C2, witness: a `Jump` at address 3 with offset word `0xFFFFFFFD` (that is -3). -/
theorem C2_jump_target_after_operand_witness :
    jumpName (sampleExternals.classify 32) = some "Jump" ∧
    (stateAt sampleProgram [49, 49, 49, 32, 4294967293] 0 3).code.drop
        (stateAt sampleProgram [49, 49, 49, 32, 4294967293] 0 3).ip = 32 :: 4294967293 :: [] ∧
    step sampleExternals (stateAt sampleProgram [49, 49, 49, 32, 4294967293] 0 3) =
      .ok (afterInstr (stateAt sampleProgram [49, 49, 49, 32, 4294967293] 0 3) 1
        ("Jump" ++ " 0x" ++ fmtX04 (((3 + 2 : Nat) : Int) + toInt32 4294967293))) ∧
    "Jump" ++ " 0x" ++ fmtX04 (((3 + 2 : Nat) : Int) + toInt32 4294967293) = "Jump 0x0002" :=
  ⟨rfl, rfl,
    (C2_jump_target_after_operand sampleExternals
      (stateAt sampleProgram [49, 49, 49, 32, 4294967293] 0 3) 32 4294967293 [] "Jump"
      rfl rfl rfl).1, by decide⟩

theorem loop_step_error (x : Externals) (d : Disassembler) (a : Abort) (w : Int)
    (rest : List Int) (h : d.code.drop d.ip = w :: rest) (he : d.err = none)
    (hs : step x d = .error a) (fuel : Nat) : loop x (fuel + 1) d = .error a := by
  have hlen := congrArg List.length h
  simp only [List.length_drop, List.length_cons] at hlen
  have hcond : d.ip < d.code.length ∧ d.err = none := ⟨by omega, he⟩
  simp only [loop, if_pos hcond, hs]

/-- C3 (as stated, refuted): in the body of `f(a, b)` the instruction `Local 2`, whose slot is
not a declared parameter, makes `disassemble` panic; no index is rendered. -/
theorem C3_counterexample :
    sampleProgram.Functions.get? 0 = some { Name := "f", Params := ["a", "b"], Body := [4, 1, 49] } ∧
    sampleExternals.classify 4 = .Local ∧
    disassemble sampleExternals (newDisassembler sampleProgram okWriter [4, 2] 0) "function f" =
      .error (.unexpectedLocal 2) :=
  ⟨rfl, rfl, rfl⟩

/-- C3 (amended): for a local slot that is not a declared parameter of the enclosing function,
`localName` panics with "unexpected local variable index"; a `Local`, `AssignLocal`,
`IncrLocal` or `AugAssignLocal` instruction with that slot makes the iteration, and with it
the loop, panic: no line is written for it and decoding does not continue. -/
theorem C3_undeclared_local_slot_panics (x : Externals) (d : Disassembler) (f : Function)
    (slot : Int) (hf : d.program.Functions.get? d.funcIndex = some f)
    (hslot : ¬ (0 ≤ slot ∧ slot < f.Params.length)) :
    localName d slot = .error (.unexpectedLocal slot) ∧
    (∀ op rest, (x.classify op = .Local ∨ x.classify op = .AssignLocal) →
      d.code.drop d.ip = op :: slot :: rest →
      step x d = .error (.unexpectedLocal slot) ∧
        (d.err = none → ∀ fuel, loop x (fuel + 1) d = .error (.unexpectedLocal slot))) ∧
    (∀ op a rest, (x.classify op = .IncrLocal ∨ x.classify op = .AugAssignLocal) →
      d.code.drop d.ip = op :: a :: slot :: rest →
      step x d = .error (.unexpectedLocal slot) ∧
        (d.err = none → ∀ fuel, loop x (fuel + 1) d = .error (.unexpectedLocal slot))) := by
  have hl := localName_unexpected d f slot hf hslot
  refine ⟨hl, ?_, ?_⟩
  · intro op rest hc h
    have hs : step x d = .error (.unexpectedLocal slot) := by
      rcases hc with hc | hc
      · rw [step_eq1 x d op slot rest h (by rw [hc]; rfl), hc]
        simp only [instrText, operands1, hl]; rfl
      · rw [step_eq1 x d op slot rest h (by rw [hc]; rfl), hc]
        simp only [instrText, operands1, hl]; rfl
    exact ⟨hs, fun he fuel => loop_step_error x d _ op _ h he hs fuel⟩
  · intro op a rest hc h
    have hs : step x d = .error (.unexpectedLocal slot) := by
      rcases hc with hc | hc
      · rw [step_eq2 x d op a slot rest h (by rw [hc]; rfl), hc]
        simp only [instrText, operands2, hl]; rfl
      · rw [step_eq2 x d op a slot rest h (by rw [hc]; rfl), hc]
        simp only [instrText, operands2, hl]; rfl
    exact ⟨hs, fun he fuel => loop_step_error x d _ op _ h he hs fuel⟩

/-- C3, witness: slot 2 in the body of `f(a, b)`. -/
theorem C3_undeclared_local_slot_panics_witness :
    (stateAt sampleProgram [4, 2] 0 0).program.Functions.get?
        (stateAt sampleProgram [4, 2] 0 0).funcIndex =
      some { Name := "f", Params := ["a", "b"], Body := [4, 1, 49] } ∧
    ¬ ((0 : Int) ≤ 2 ∧ (2 : Int) < (["a", "b"] : List String).length) ∧
    localName (stateAt sampleProgram [4, 2] 0 0) 2 = .error (.unexpectedLocal 2) :=
  ⟨rfl, by decide,
    (C3_undeclared_local_slot_panics sampleExternals (stateAt sampleProgram [4, 2] 0 0)
      { Name := "f", Params := ["a", "b"], Body := [4, 1, 49] } 2 rfl (by decide)).1⟩

/-- C4 (as stated, refuted): the stream `Num` cut before its operand, and the stream `Num 7`
whose index is out of range for the two entries of `Nums`, both make `disassemble` panic with
an index-out-of-range run-time error; neither returns a decode error. -/
theorem C4_counterexample :
    disassemble sampleExternals (newDisassembler sampleProgram okWriter [0] 0) "BEGIN" =
      .error (.indexOutOfRange 1 1) ∧
    disassemble sampleExternals (newDisassembler sampleProgram okWriter [0, 7] 0) "BEGIN" =
      .error (.indexOutOfRange 7 2) :=
  ⟨rfl, rfl⟩

/-- C4 (amended): for every program, every writer and every stream that is a concatenation of
complete instructions with all pool indexes and local slots in range, `disassemble` returns
normally and never panics; the error it returns is nil when no write fails. -/
theorem C4_returns_on_well_formed_stream (x : Externals) (p : Program) (w : Writer) (fi : Nat)
    (pfx : String) (is : List Instr) (hwf : ∀ i ∈ is, i.WellFormed x p fi) :
    (∃ d, disassemble x (newDisassembler p w (encode is) fi) pfx = .ok d) ∧
    (w.NeverFails →
      ∃ d, disassemble x (newDisassembler p w (encode is) fi) pfx = .ok d ∧ d.err = none) := by
  refine ⟨disassemble_returns x p w fi pfx is hwf, fun hnf => ?_⟩
  obtain ⟨d, _, hd, _, _, herr, _, _⟩ := disassemble_complete x p w fi pfx is hwf hnf
  exact ⟨d, hd, herr⟩

/-- C4, witness: the sample stream. -/
theorem C4_returns_on_well_formed_stream_witness :
    (∀ i ∈ sampleStream, i.WellFormed sampleExternals sampleProgram 0) ∧
    ∃ d, disassemble sampleExternals
      (newDisassembler sampleProgram okWriter (encode sampleStream) 0) "BEGIN" = .ok d :=
  have h1 : ∀ i ∈ sampleStream, i.WellFormed sampleExternals sampleProgram 0 := by
    intro i hi
    simp only [sampleStream, List.mem_cons, List.mem_singleton, List.not_mem_nil, or_false] at hi
    rcases hi with rfl | rfl | rfl <;> rfl
  ⟨h1, (C4_returns_on_well_formed_stream sampleExternals sampleProgram okWriter 0 "BEGIN"
    sampleStream h1).1⟩

theorem runFunctions_append (x : Externals) (p : Program) (pre post : List Function) (k : Nat)
    (s : Progress) :
    runFunctions x p (pre ++ post) k s =
      runFunctions x p pre k s >>= fun s1 => runFunctions x p post (k + pre.length) s1 := by
  induction pre generalizing k s with
  | nil => simp [runFunctions]
  | cons f pre ih =>
    have e : ∀ s1, runFunctions x p (pre ++ post) (k + 1) s1 =
        runFunctions x p pre (k + 1) s1 >>= fun s2 =>
          runFunctions x p post (k + (pre.length + 1)) s2 := by
      intro s1
      rw [ih (k + 1) s1]
      have : k + 1 + pre.length = k + (pre.length + 1) := by omega
      rw [this]
    show runFunctions x p (f :: (pre ++ post)) k s = _
    simp only [runFunctions, List.length_cons, bind_assoc, e]

theorem get?_append_length {α : Type} (pre post : List α) (a : α) :
    (pre ++ a :: post).get? pre.length = some a := by
  induction pre with
  | nil => rfl
  | cons b pre ih => simpa using ih

theorem localName_param (d : Disassembler) (f : Function) (i : Nat) (name : String)
    (hf : d.program.Functions.get? d.funcIndex = some f) (hp : f.Params.get? i = some name) :
    localName d (i : Int) = .ok name := by
  have hlt : i < f.Params.length := by
    by_contra hge
    rw [List.get?_eq_none.mpr (Nat.le_of_not_lt hge)] at hp
    cases hp
  obtain ⟨n, hn, hl⟩ := localName_ok d f (i : Int) hf (Int.ofNat_nonneg i) (by exact_mod_cast hlt)
  rw [Int.toNat_ofNat, hp] at hn
  cases hn
  exact hl

/-- C5: let `f` be the function number `j = pre.length` of the program and `name` its
parameter number `i`.  Then (1) in every state of the disassembler of function `j`,
`localName(i)` returns `name`; (2) `Local`, `AssignLocal`, `IncrLocal` and `AugAssignLocal`
instructions with slot `i` decoded in such a state are written with `name`; (3) the loop over
`p.Functions` of `Program.Disassemble` disassembles the body of `f` in a state whose
`funcIndex` is `j`, so the lookup goes to `Functions[j]`. -/
theorem C5_parameter_slot_renders_name (x : Externals) (p : Program) (pre post : List Function)
    (f : Function) (i : Nat) (name : String)
    (hfs : p.Functions = pre ++ f :: post) (hp : f.Params.get? i = some name) :
    (∀ d : Disassembler, d.program = p → d.funcIndex = pre.length →
      localName d (i : Int) = .ok name ∧
      (∀ op rest, d.code.drop d.ip = op :: (i : Int) :: rest →
        (x.classify op = .Local → step x d = .ok (afterInstr d 1 ("Local " ++ name))) ∧
        (x.classify op = .AssignLocal →
          step x d = .ok (afterInstr d 1 ("AssignLocal " ++ name)))) ∧
      (∀ op a rest, d.code.drop d.ip = op :: a :: (i : Int) :: rest →
        (x.classify op = .IncrLocal →
          step x d = .ok (afterInstr d 2 ("IncrLocal " ++ fmtD (toInt32 a) ++ " " ++ name))) ∧
        (x.classify op = .AugAssignLocal →
          step x d =
            .ok (afterInstr d 2 ("AugAssignLocal " ++ x.tokenString a ++ " " ++ name))))) ∧
    (∀ s : Progress, runFunctions x p p.Functions 0 s =
      runFunctions x p pre 0 s >>= fun s1 =>
        runUnit x p f.Body pre.length ("function " ++ f.Name) s1 >>= fun s2 =>
          runFunctions x p post (pre.length + 1) s2) ∧
    (∀ w : Writer, (newDisassembler p w f.Body pre.length).funcIndex = pre.length ∧
      (newDisassembler p w f.Body pre.length).program.Functions.get? pre.length = some f) := by
  have hget : p.Functions.get? pre.length = some f := by
    rw [hfs]; exact get?_append_length pre post f
  refine ⟨?_, ?_, ?_⟩
  · intro d hprog hfi
    have hf : d.program.Functions.get? d.funcIndex = some f := by rw [hprog, hfi]; exact hget
    have hl := localName_param d f i name hf hp
    refine ⟨hl, ?_, ?_⟩
    · intro op rest h
      refine ⟨fun hc => ?_, fun hc => ?_⟩
      · rw [step_eq1 x d op _ rest h (by rw [hc]; rfl), hc]
        simp only [instrText, operands1, hl]; rfl
      · rw [step_eq1 x d op _ rest h (by rw [hc]; rfl), hc]
        simp only [instrText, operands1, hl]; rfl
    · intro op a rest h
      refine ⟨fun hc => ?_, fun hc => ?_⟩
      · rw [step_eq2 x d op a _ rest h (by rw [hc]; rfl), hc]
        simp only [instrText, operands2, hl]; rfl
      · rw [step_eq2 x d op a _ rest h (by rw [hc]; rfl), hc]
        simp only [instrText, operands2, hl]; rfl
  · intro s
    rw [hfs, runFunctions_append]
    simp only [runFunctions, Nat.zero_add]
  · intro w
    exact ⟨rfl, hget⟩

/-- C5, witness: parameter `b` (slot 1) of the function `f(a, b)` of the sample program. -/
theorem C5_parameter_slot_renders_name_witness :
    sampleProgram.Functions =
      [] ++ ({ Name := "f", Params := ["a", "b"], Body := [4, 1, 49] } : Function) :: [] ∧
    (["a", "b"] : List String).get? 1 = some "b" ∧
    localName (newDisassembler sampleProgram okWriter [4, 1, 49] 0) ((1 : Nat) : Int) = .ok "b" ∧
    step sampleExternals (newDisassembler sampleProgram okWriter [4, 1, 49] 0) =
      .ok (afterInstr (newDisassembler sampleProgram okWriter [4, 1, 49] 0) 1 ("Local " ++ "b")) :=
  have h := (C5_parameter_slot_renders_name sampleExternals sampleProgram [] []
    { Name := "f", Params := ["a", "b"], Body := [4, 1, 49] } 1 "b" rfl rfl).1
    (newDisassembler sampleProgram okWriter [4, 1, 49] 0) rfl rfl
  ⟨rfl, rfl, h.1, (h.2.1 4 [49] rfl).1 rfl⟩

/-- C7: a `Print` (or `Printf`) instruction with argument count `n` and redirection operand
`r` is written as `Print n` (`Printf n`) with nothing after the count when `r` is
`lexer.ILLEGAL`, and as `Print n` (`Printf n`), a space and the token text of `r` otherwise. -/
theorem C7_print_redirect (x : Externals) (d : Disassembler) (op n r : Int) (rest : List Int)
    (h : d.code.drop d.ip = op :: n :: r :: rest) :
    (x.classify op = .Print →
      (r = x.ILLEGAL → step x d = .ok (afterInstr d 2 ("Print " ++ fmtD n))) ∧
      (r ≠ x.ILLEGAL →
        step x d = .ok (afterInstr d 2 ("Print " ++ fmtD n ++ " " ++ x.tokenString r)))) ∧
    (x.classify op = .Printf →
      (r = x.ILLEGAL → step x d = .ok (afterInstr d 2 ("Printf " ++ fmtD n))) ∧
      (r ≠ x.ILLEGAL →
        step x d = .ok (afterInstr d 2 ("Printf " ++ fmtD n ++ " " ++ x.tokenString r)))) := by
  refine ⟨fun hc => ⟨fun hr => ?_, fun hr => ?_⟩, fun hc => ⟨fun hr => ?_, fun hr => ?_⟩⟩
  · rw [step_eq2 x d op n r rest h (by rw [hc]; rfl), hc]
    simp only [instrText, operands2, if_pos hr]; rfl
  · rw [step_eq2 x d op n r rest h (by rw [hc]; rfl), hc]
    simp only [instrText, operands2, if_neg hr]; rfl
  · rw [step_eq2 x d op n r rest h (by rw [hc]; rfl), hc]
    simp only [instrText, operands2, if_pos hr]; rfl
  · rw [step_eq2 x d op n r rest h (by rw [hc]; rfl), hc]
    simp only [instrText, operands2, if_neg hr]; rfl

/-- C7, witness: `Print 2` without redirection and `Print 2 >>` with the append operator, in
the sample numbering (word 47 is `Print`, token 0 is `ILLEGAL`, token 1 reads `>>`). -/
theorem C7_print_redirect_witness :
    (stateAt sampleProgram [47, 2, 0] 0 0).code.drop (stateAt sampleProgram [47, 2, 0] 0 0).ip =
      47 :: 2 :: 0 :: [] ∧
    (stateAt sampleProgram [47, 2, 1] 0 0).code.drop (stateAt sampleProgram [47, 2, 1] 0 0).ip =
      47 :: 2 :: 1 :: [] ∧
    sampleExternals.classify 47 = .Print ∧ (0 : Int) = sampleExternals.ILLEGAL ∧
    (1 : Int) ≠ sampleExternals.ILLEGAL ∧
    step sampleExternals (stateAt sampleProgram [47, 2, 0] 0 0) =
      .ok (afterInstr (stateAt sampleProgram [47, 2, 0] 0 0) 2 ("Print " ++ fmtD 2)) ∧
    step sampleExternals (stateAt sampleProgram [47, 2, 1] 0 0) =
      .ok (afterInstr (stateAt sampleProgram [47, 2, 1] 0 0) 2
        ("Print " ++ fmtD 2 ++ " " ++ sampleExternals.tokenString 1)) ∧
    "Print " ++ fmtD 2 = "Print 2" ∧
    "Print " ++ fmtD 2 ++ " " ++ sampleExternals.tokenString 1 = "Print 2 >>" :=
  ⟨rfl, rfl, rfl, rfl, by decide,
    ((C7_print_redirect sampleExternals (stateAt sampleProgram [47, 2, 0] 0 0) 47 2 0 [] rfl).1
      rfl).1 rfl,
    ((C7_print_redirect sampleExternals (stateAt sampleProgram [47, 2, 1] 0 0) 47 2 1 [] rfl).1
      rfl).2 (by decide),
    by decide, by decide⟩

/-! ## Digits and quoting -/

theorem digitChar_lt16 (k : Nat) (hk : k < 16) :
    isLowerHex (Nat.digitChar k) = true ∧ hexVal (Nat.digitChar k) = k ∧
      Nat.digitChar k ≠ '\n' ∧ Nat.digitChar k ≠ '.' := by
  interval_cases k <;> decide

theorem digitsAux_mem (b : Nat) (hb : 0 < b) (fuel n : Nat) :
    ∀ c ∈ digitsAux b fuel n, ∃ k, k < b ∧ c = Nat.digitChar k := by
  induction fuel generalizing n with
  | zero =>
    intro c hc
    simp only [digitsAux, List.mem_singleton] at hc
    exact ⟨n % b, Nat.mod_lt _ hb, hc⟩
  | succ fuel ih =>
    intro c hc
    unfold digitsAux at hc
    split at hc
    · rename_i hlt
      simp only [List.mem_singleton] at hc
      exact ⟨n, hlt, hc⟩
    · rw [List.mem_append, List.mem_singleton] at hc
      rcases hc with hc | hc
      · exact ih _ c hc
      · exact ⟨n % b, Nat.mod_lt _ hb, hc⟩

theorem hexFixed_mem (w n : Nat) : ∀ c ∈ hexFixed w n, ∃ k, k < 16 ∧ c = Nat.digitChar k := by
  induction w generalizing n with
  | zero => intro c hc; simp [hexFixed] at hc
  | succ w ih =>
    intro c hc
    rw [hexFixed, List.mem_append, List.mem_singleton] at hc
    rcases hc with hc | hc
    · exact ih _ c hc
    · exact ⟨n % 16, Nat.mod_lt _ (by norm_num), hc⟩

theorem padZero_mem (w : Nat) (ds : List Char) (c : Char) (hc : c ∈ padZero w ds) :
    c = '0' ∨ c ∈ ds := by
  rw [padZero, List.mem_append] at hc
  rcases hc with hc | hc
  · exact Or.inl (List.eq_of_mem_replicate hc)
  · exact Or.inr hc

theorem hexDigits_lower (n : Nat) : ∀ c ∈ hexDigits n, isLowerHex c = true ∧ c ≠ '\n' := by
  intro c hc
  obtain ⟨k, hk, rfl⟩ := digitsAux_mem 16 (by norm_num) n n c hc
  exact ⟨(digitChar_lt16 k hk).1, (digitChar_lt16 k hk).2.2.1⟩

theorem decDigits_plain (n : Nat) : ∀ c ∈ decDigits n, c ≠ '\n' ∧ c ≠ '.' := by
  intro c hc
  obtain ⟨k, hk, rfl⟩ := digitsAux_mem 10 (by norm_num) n n c hc
  exact (digitChar_lt16 k (by omega)).2.2

theorem fmtD_plain (n : Int) : ∀ c ∈ (fmtD n).data, c ≠ '\n' ∧ c ≠ '.' := by
  intro c hc
  unfold fmtD at hc
  split at hc
  · simp only [List.mem_cons] at hc
    rcases hc with rfl | hc
    · decide
    · exact decDigits_plain _ c hc
  · exact decDigits_plain _ c hc

theorem fmtX04_no_newline (n : Int) : ∀ c ∈ (fmtX04 n).data, c ≠ '\n' := by
  intro c hc
  unfold fmtX04 at hc
  split at hc
  · simp only [List.mem_cons] at hc
    rcases hc with rfl | hc
    · decide
    · rcases padZero_mem _ _ _ hc with rfl | hc
      · decide
      · exact (hexDigits_lower _ c hc).2
  · rcases padZero_mem _ _ _ hc with rfl | hc
    · decide
    · exact (hexDigits_lower _ c hc).2

theorem isPrint_newline (high : Char → Bool) (c : Char) (h : isPrint high c = true) :
    c ≠ '\n' := by
  rintro rfl
  simp [isPrint] at h

theorem ite_no_newline (p : Prop) [Decidable p] (l1 l2 : List Char)
    (h1 : ∀ e ∈ l1, e ≠ '\n') (h2 : ∀ e ∈ l2, e ≠ '\n') :
    ∀ e ∈ (if p then l1 else l2), e ≠ '\n' := by
  split
  · exact h1
  · exact h2

theorem hexEscape_no_newline (a b : Char) (ha : a ≠ '\n') (hb : b ≠ '\n') (w n : Nat) :
    ∀ e ∈ a :: b :: hexFixed w n, e ≠ '\n' := by
  intro e he
  simp only [List.mem_cons] at he
  rcases he with rfl | rfl | he
  · exact ha
  · exact hb
  · obtain ⟨k, hk, rfl⟩ := hexFixed_mem _ _ e he
    exact (digitChar_lt16 k hk).2.2.1

theorem escapeRune_no_newline (high : Char → Bool) (c : Char) :
    ∀ e ∈ escapeRune high c, e ≠ '\n' := by
  unfold escapeRune
  by_cases h1 : c = '"' ∨ c = '\\'
  · rw [if_pos h1]
    intro e he
    simp only [List.mem_cons, List.mem_singleton, List.not_mem_nil, or_false] at he
    rcases he with rfl | rfl
    · decide
    · rcases h1 with rfl | rfl <;> decide
  · rw [if_neg h1]
    by_cases h2 : isPrint high c = true
    · rw [if_pos h2]
      intro e he
      simp only [List.mem_singleton] at he
      subst he
      exact isPrint_newline high _ h2
    · rw [if_neg h2]
      refine ite_no_newline _ _ _ (by decide) ?_
      refine ite_no_newline _ _ _ (by decide) ?_
      refine ite_no_newline _ _ _ (by decide) ?_
      refine ite_no_newline _ _ _ (by decide) ?_
      refine ite_no_newline _ _ _ (by decide) ?_
      refine ite_no_newline _ _ _ (by decide) ?_
      refine ite_no_newline _ _ _ (by decide) ?_
      refine ite_no_newline _ _ _ (hexEscape_no_newline _ _ (by decide) (by decide) _ _) ?_
      refine ite_no_newline _ _ _ (hexEscape_no_newline _ _ (by decide) (by decide) _ _) ?_
      exact hexEscape_no_newline _ _ (by decide) (by decide) _ _

theorem escapeAll_no_newline (high : Char → Bool) (l : List Char) :
    ∀ e ∈ escapeAll high l, e ≠ '\n' := by
  induction l with
  | nil => intro e he; simp [escapeAll] at he
  | cons c cs ih =>
    intro e he
    rw [escapeAll, List.mem_append] at he
    rcases he with he | he
    · exact escapeRune_no_newline high c e he
    · exact ih e he

theorem fmtQ_no_newline (high : Char → Bool) (s : String) :
    ∀ e ∈ (fmtQ high s).data, e ≠ '\n' := by
  intro e he
  simp only [fmtQ, List.mem_cons, List.mem_append, List.mem_singleton, List.not_mem_nil,
    or_false] at he
  rcases he with rfl | he | rfl
  · decide
  · exact escapeAll_no_newline high _ e he
  · decide

/-- C10: a `Str` instruction with in-range index is written as `Str` followed by the string
in double quotes (`%q`): every embedded double quote and backslash is preceded by a
backslash, the value `a"b` is written `"a\"b"`, and the line contains no newline character
before the one that ends it. -/
theorem C10_str_quoted (x : Externals) (d : Disassembler) (op index : Int) (rest : List Int)
    (s : String) (hc : x.classify op = .Str) (h : d.code.drop d.ip = op :: index :: rest)
    (h0 : 0 ≤ index) (hs : d.program.Strs.get? index.toNat = some s) :
    step x d = .ok (afterInstr d 1 ("Str " ++ fmtQ x.isPrintHigh s)) ∧
    (fmtQ x.isPrintHigh s).data = '"' :: (escapeAll x.isPrintHigh s.data ++ ['"']) ∧
    (∀ c cs, escapeAll x.isPrintHigh (c :: cs) =
      escapeRune x.isPrintHigh c ++ escapeAll x.isPrintHigh cs) ∧
    (∀ c, c = '"' ∨ c = '\\' → escapeRune x.isPrintHigh c = ['\\', c]) ∧
    opLine d.ip ("Str " ++ fmtQ x.isPrintHigh s) =
      (fmtX04 d.ip ++ "    " ++ ("Str " ++ fmtQ x.isPrintHigh s)) ++ "\n" ∧
    (∀ e ∈ (fmtX04 d.ip ++ "    " ++ ("Str " ++ fmtQ x.isPrintHigh s)).data, e ≠ '\n') ∧
    "Str " ++ fmtQ x.isPrintHigh "a\"b" = "Str \"a\\\"b\"" := by
  refine ⟨?_, rfl, fun _ _ => rfl, ?_, rfl, ?_, rfl⟩
  · have hsl : sliceIndex d.program.Strs index = .ok s := by
      unfold sliceIndex
      rw [if_pos h0, hs]
    rw [step_eq1 x d op index rest h (by rw [hc]; rfl), hc]
    simp only [instrText, operands1, hsl]
    rfl
  · intro c hc1
    unfold escapeRune
    rw [if_pos hc1]
  · intro e he
    simp only [String.data_append, List.mem_append] at he
    rcases he with (he | he) | he | he
    · exact fmtX04_no_newline _ e he
    · revert e; decide
    · revert e; decide
    · exact fmtQ_no_newline _ s e he

/-- C10, witness: the string `a"b` at index 0 of the sample program. -/
theorem C10_str_quoted_witness :
    sampleExternals.classify 1 = .Str ∧
    (stateAt sampleProgram [1, 0] 0 0).code.drop (stateAt sampleProgram [1, 0] 0 0).ip =
      1 :: 0 :: [] ∧
    (0 : Int) ≤ 0 ∧
    (stateAt sampleProgram [1, 0] 0 0).program.Strs.get? (0 : Int).toNat = some "a\"b" ∧
    step sampleExternals (stateAt sampleProgram [1, 0] 0 0) =
      .ok (afterInstr (stateAt sampleProgram [1, 0] 0 0) 1
        ("Str " ++ fmtQ sampleExternals.isPrintHigh "a\"b")) :=
  ⟨rfl, rfl, le_refl _, rfl,
    (C10_str_quoted sampleExternals (stateAt sampleProgram [1, 0] 0 0) 1 0 [] "a\"b"
      rfl rfl (le_refl _) rfl).1⟩

theorem hexValue_append_single (l : List Char) (c : Char) :
    hexValue (l ++ [c]) = 16 * hexValue l + hexVal c := by
  simp [hexValue, List.foldl_append]

theorem hexDigitsAux_value (fuel n : Nat) (h : n ≤ fuel) :
    hexValue (digitsAux 16 fuel n) = n := by
  induction fuel generalizing n with
  | zero =>
    have : n = 0 := by omega
    subst this
    decide
  | succ fuel ih =>
    unfold digitsAux
    split
    · rename_i hlt
      simpa [hexValue] using (digitChar_lt16 n hlt).2.1
    · rename_i hge
      rw [hexValue_append_single, ih (n / 16) (by omega),
        (digitChar_lt16 (n % 16) (Nat.mod_lt _ (by norm_num))).2.1]
      omega

theorem hexDigitsAux_length_pos (fuel n : Nat) : 1 ≤ (digitsAux 16 fuel n).length := by
  cases fuel with
  | zero => simp [digitsAux]
  | succ fuel =>
    unfold digitsAux
    split <;> simp

theorem hexDigitsAux_length_le (fuel n k : Nat) (h : n ≤ fuel) (hk : n < 16 ^ (k + 1)) :
    (digitsAux 16 fuel n).length ≤ k + 1 := by
  induction fuel generalizing n k with
  | zero => simp [digitsAux]
  | succ fuel ih =>
    unfold digitsAux
    split
    · simp
    · rename_i hge
      cases k with
      | zero => simp at hk; omega
      | succ k =>
        have h1 : n / 16 < 16 ^ (k + 1) := by
          rw [Nat.div_lt_iff_lt_mul (by norm_num)]
          rw [pow_succ] at hk
          exact hk
        have := ih (n / 16) k (by omega) h1
        simp only [List.length_append, List.length_singleton]
        omega

theorem hexDigitsAux_length_gt (fuel n k : Nat) (h : n ≤ fuel) (hk : 16 ^ k ≤ n) :
    k < (digitsAux 16 fuel n).length := by
  induction fuel generalizing n k with
  | zero =>
    have hn : n = 0 := by omega
    subst hn
    have : 0 < 16 ^ k := pow_pos (by norm_num) k
    omega
  | succ fuel ih =>
    unfold digitsAux
    split
    · rename_i hlt
      cases k with
      | zero => simp
      | succ k =>
        have : 16 ^ 1 ≤ 16 ^ (k + 1) := Nat.pow_le_pow_right (by norm_num) (by omega)
        omega
    · rename_i hge
      cases k with
      | zero => simp
      | succ k =>
        have h1 : 16 ^ k ≤ n / 16 := by
          rw [Nat.le_div_iff_mul_le (by norm_num)]
          rw [pow_succ] at hk
          exact hk
        have := ih (n / 16) k (by omega) h1
        simp only [List.length_append, List.length_singleton]
        omega

theorem hexValue_padZero (w : Nat) (ds : List Char) : hexValue (padZero w ds) = hexValue ds := by
  have hz : ∀ m : Nat, List.foldl (fun acc c => 16 * acc + hexVal c) 0 (List.replicate m '0') = 0 := by
    intro m
    induction m with
    | zero => rfl
    | succ m ih =>
      rw [List.replicate_succ, List.foldl_cons]
      have : 16 * 0 + hexVal '0' = 0 := by decide
      rw [this, ih]
  simp only [hexValue, padZero, List.foldl_append, hz]

/-- The `%04x` rendering of a natural number: lowercase hexadecimal digits that denote it,
zero-padded to at least four characters, exactly four below `0x10000`. -/
theorem fmtX04_nat (n : Nat) :
    (fmtX04 (n : Int)).data = padZero 4 (hexDigits n) ∧
    (∀ c ∈ (fmtX04 (n : Int)).data, isLowerHex c = true) ∧
    hexValue (fmtX04 (n : Int)).data = n ∧
    4 ≤ (fmtX04 (n : Int)).length ∧
    ((fmtX04 (n : Int)).length = 4 ↔ n < 65536) := by
  have hd : (fmtX04 (n : Int)).data = padZero 4 (hexDigits n) := by
    unfold fmtX04
    rw [if_neg (by omega), Int.toNat_ofNat]
  have hlen : (fmtX04 (n : Int)).length = (4 - (hexDigits n).length) + (hexDigits n).length := by
    show (fmtX04 (n : Int)).data.length = _
    rw [hd]
    simp [padZero]
  refine ⟨hd, ?_, ?_, by omega, ?_⟩
  · intro c hc
    rw [hd] at hc
    rcases padZero_mem _ _ _ hc with rfl | hc
    · decide
    · exact (hexDigits_lower n c hc).1
  · rw [hd, hexValue_padZero]
    exact hexDigitsAux_value n n (le_refl n)
  · rw [hlen]
    constructor
    · intro h4
      by_contra hge
      have := hexDigitsAux_length_gt n n 4 (le_refl n) (by norm_num; omega)
      unfold hexDigits at h4
      omega
    · intro hlt
      have := hexDigitsAux_length_le n n 3 (le_refl n) (by norm_num; omega)
      unfold hexDigits
      omega

theorem encode_replicate (n : Nat) (w : Int) :
    encode (List.replicate n ⟨w, []⟩) = List.replicate n w := by
  induction n with
  | zero => rfl
  | succ n ih => simp [List.replicate_succ, encode, ih]

theorem addrOf_replicate (n k : Nat) (w : Int) (hk : k ≤ n) :
    addrOf (List.replicate n ⟨w, []⟩) k = k := by
  simp [addrOf, List.take_replicate, List.map_replicate, Instr.width, Nat.min_eq_left hk]

/-- C8 (as stated, refuted): in a stream of 65537 one-word instructions the last instruction
starts at address 65536, and the address field of its line is `10000`, five characters. -/
theorem C8_counterexample :
    ∃ d, disassemble sampleExternals
        (newDisassembler sampleProgram okWriter (List.replicate 65537 49) 0) "BEGIN" = .ok d ∧
      d.writer.written.get? (65536 + 1) = some ("10000" ++ "    " ++ "Nop" ++ "\n") ∧
      ("10000" : String).length = 5 := by
  have hwf : ∀ i ∈ List.replicate 65537 (Instr.mk 49 []),
      i.WellFormed sampleExternals sampleProgram 0 := by
    intro i hi
    obtain rfl := List.eq_of_mem_replicate hi
    rfl
  obtain ⟨d, texts, hd, hts, _, _, _, hwr⟩ :=
    disassemble_complete sampleExternals sampleProgram okWriter 0 "BEGIN"
      (List.replicate 65537 ⟨49, []⟩) hwf (fun _ _ => rfl)
  rw [encode_replicate] at hd hts
  refine ⟨d, hd, ?_, by decide⟩
  obtain ⟨i, t, hi, ht, hl⟩ := linesFrom_get sampleExternals sampleProgram _ 0 0
    (List.replicate 65537 ⟨49, []⟩) texts hts 65536
    (by rw [List.length_replicate]; exact Nat.lt_succ_self 65536)
  have hi2 : i = ⟨49, []⟩ := by
    have := List.get?_mem hi
    exact List.eq_of_mem_replicate this
  subst hi2
  rw [addrOf_replicate 65537 65536 49 (by norm_num)] at ht hl
  have ht2 : t = "Nop" := by
    have e : instrTextAt sampleExternals sampleProgram (List.replicate 65537 49) 0 (0 + 65536)
        ⟨49, []⟩ = .ok "Nop" := rfl
    rw [e] at ht
    exact (Except.ok.inj ht).symm
  subst ht2
  have hline : opLine (0 + 65536) "Nop" = "10000" ++ "    " ++ "Nop" ++ "\n" := by decide
  rw [hline] at hl
  have hlen := linesFrom_length 0 (List.replicate 65537 (Instr.mk 49 [])) texts
    (textsFor_length _ _ _ _ _ _ _ hts)
  have hh : okWriter.written ++ headerLines "BEGIN" = ["        // BEGIN\n"] := by decide
  have hlt : 65536 < (linesFrom 0 (List.replicate 65537 (Instr.mk 49 [])) texts).length := by
    rw [hlen, List.length_replicate]; exact Nat.lt_succ_self 65536
  rw [hwr, hh, List.append_assoc, List.singleton_append, List.get?_cons_succ,
    List.get?_eq_getElem?, List.getElem?_append_left hlt, ← List.get?_eq_getElem?, hl]

/-- C8 (amended): the address field that `writeOpf` puts at the start of a line is the `%04x`
rendering of `opAddr`, the start address of the instruction: lowercase hexadecimal digits
from `0-9a-f` that denote `opAddr`, zero-padded to at least four characters; it has exactly
four characters if and only if `opAddr < 0x10000`. -/
theorem C8_address_field (d : Disassembler) (text : String) (he : d.err = none) :
    (writeOpf d text).writer.written =
      d.writer.written ++ [fmtX04 d.opAddr ++ "    " ++ text ++ "\n"] ∧
    (∀ n, afterInstr d n text = writeOpf { d with ip := d.ip + 1 + n, opAddr := d.ip } text) ∧
    (fmtX04 d.opAddr).data = padZero 4 (hexDigits d.opAddr) ∧
    (∀ c ∈ (fmtX04 d.opAddr).data, isLowerHex c = true) ∧
    hexValue (fmtX04 d.opAddr).data = d.opAddr ∧
    4 ≤ (fmtX04 d.opAddr).length ∧
    ((fmtX04 d.opAddr).length = 4 ↔ d.opAddr < 65536) := by
  obtain ⟨h1, h2, h3, h4, h5⟩ := fmtX04_nat d.opAddr
  refine ⟨?_, fun _ => rfl, h1, h2, h3, h4, h5⟩
  simp [writeOpf, he, Writer.write]

/-- C8, witness: the instruction at address `0x1f` of a stream. -/
theorem C8_address_field_witness :
    ({ stateAt sampleProgram [] 0 31 with opAddr := 31 } : Disassembler).err = none ∧
    (writeOpf { stateAt sampleProgram [] 0 31 with opAddr := 31 } "Nop").writer.written =
      ({ stateAt sampleProgram [] 0 31 with opAddr := 31 } : Disassembler).writer.written ++
        [fmtX04 (31 : Nat) ++ "    " ++ "Nop" ++ "\n"] ∧
    fmtX04 (31 : Nat) ++ "    " ++ "Nop" ++ "\n" = "001f    Nop\n" :=
  ⟨rfl, (C8_address_field { stateAt sampleProgram [] 0 31 with opAddr := 31 } "Nop" rfl).1,
    by decide⟩

/-! ## Numbers -/

theorem bitLenAux_le (fuel n k : Nat) (h : n < 2 ^ k) : bitLenAux fuel n ≤ k := by
  induction fuel generalizing n k with
  | zero => simp [bitLenAux]
  | succ fuel ih =>
    unfold bitLenAux
    split
    · omega
    · rename_i hn
      cases k with
      | zero => simp at h; omega
      | succ k =>
        have : n / 2 < 2 ^ k := by
          rw [Nat.div_lt_iff_lt_mul (by norm_num)]
          rw [pow_succ] at h
          exact h
        have := ih (n / 2) k this
        omega

theorem roundHalfEven_of_dvd (a b : Nat) (hb : 0 < b) (h : b ∣ a) :
    roundHalfEven a b = a / b := by
  have hr : a % b = 0 := Nat.mod_eq_zero_of_dvd h
  unfold roundHalfEven
  simp only [hr]
  rw [if_neg]
  omega

theorem magDen_pos (e : Int) : 0 < magDen e := pow_pos (by norm_num) _

theorem magDen_natCast (k : Nat) : magDen (k : Int) = 1 := by
  unfold magDen
  have : (-(k : Int)).toNat = 0 := by omega
  rw [this, pow_zero]

/-- The magnitude of a representable double, when it is an integer, survives the conversion
to an integer and back. -/
theorem magnitude_roundtrip (m : Nat) (e : Int) (hm : m < 2 ^ 53) :
    2 ^ (bitLen (magNum m e / magDen e) - 53) ∣ magNum m e / magDen e := by
  by_cases he : e ≤ 0
  · have hnum : magNum m e = m := by
      unfold magNum
      have : e.toNat = 0 := by omega
      rw [this, pow_zero, Nat.mul_one]
    have hq : magNum m e / magDen e < 2 ^ 53 := by
      rw [hnum]
      exact lt_of_le_of_lt (Nat.div_le_self _ _) hm
    have hk : bitLen (magNum m e / magDen e) - 53 = 0 := by
      have := bitLenAux_le (magNum m e / magDen e) (magNum m e / magDen e) 53 hq
      unfold bitLen
      omega
    rw [hk, pow_zero]
    exact one_dvd _
  · have hden : magDen e = 1 := by
      unfold magDen
      have : (-e).toNat = 0 := by omega
      rw [this, pow_zero]
    rw [hden, Nat.div_one]
    have hlt : magNum m e < 2 ^ (53 + e.toNat) := by
      unfold magNum
      rw [pow_add]
      exact Nat.mul_lt_mul_of_lt_of_le hm (le_refl _) (pow_pos (by norm_num) _)
    have hk : bitLen (magNum m e) - 53 ≤ e.toNat := by
      have := bitLenAux_le (magNum m e) (magNum m e) (53 + e.toNat) hlt
      unfold bitLen
      omega
    unfold magNum at *
    exact Dvd.dvd.mul_left (pow_dvd_pow 2 hk) m

/-- For a representable finite double whose truncation fits in 64 bits, the test
`num == float64(int(num))` of the `Num` case holds exactly when the value is an integer; the
integer printed is then the value itself. -/
theorem num_test_iff_integral (overflow : Float64 → Int) (neg : Bool) (m : Nat) (e : Int)
    (hm : m < 2 ^ 53)
    (hrange : (magNum m e / magDen e : Nat) < 2 ^ 63) :
    (Float64.toInt overflow (.finite neg m e) =
      if neg then -((magNum m e / magDen e : Nat) : Int) else ((magNum m e / magDen e : Nat) : Int)) ∧
    (Float64.eq (.finite neg m e)
        (Float64.ofInt (Float64.toInt overflow (.finite neg m e))) = true ↔
      magDen e ∣ magNum m e) := by
  set q := magNum m e / magDen e with hq
  have hto : Float64.toInt overflow (.finite neg m e) =
      if neg then -((q : Nat) : Int) else ((q : Nat) : Int) := by
    unfold Float64.toInt
    simp only [← hq]
    rw [if_pos]
    have hq0 : (0 : Int) ≤ (q : Int) := Int.ofNat_nonneg q
    have hq63 : (q : Int) < (2 : Int) ^ 63 := by exact_mod_cast hrange
    have h63 : (0 : Int) < (2 : Int) ^ 63 := by norm_num
    cases neg
    · simp only [Bool.false_eq_true, if_false]
      constructor <;> linarith
    · simp only [if_true]
      constructor <;> linarith
  refine ⟨hto, ?_⟩
  rw [hto]
  have habs : (if neg then -((q : Nat) : Int) else ((q : Nat) : Int)).natAbs = q := by
    cases neg <;> simp
  have hofInt : Float64.ofInt (if neg then -((q : Nat) : Int) else ((q : Nat) : Int)) =
      .finite (decide ((if neg then -((q : Nat) : Int) else ((q : Nat) : Int)) < 0))
        (roundHalfEven q (2 ^ (bitLen q - 53))) ((bitLen q - 53 : Nat) : Int) := by
    unfold Float64.ofInt
    simp only [habs]
  rw [hofInt]
  constructor
  · intro heq
    unfold Float64.eq at heq
    simp only at heq
    by_cases hz : m = 0 ∧ roundHalfEven q (2 ^ (bitLen q - 53)) = 0
    · have : magNum m e = 0 := by unfold magNum; rw [hz.1, Nat.zero_mul]
      rw [this]; exact dvd_zero _
    · rw [if_neg hz] at heq
      have h2 := (of_decide_eq_true heq).2
      rw [magDen_natCast, Nat.mul_one] at h2
      rw [h2]
      exact Dvd.intro_left _ rfl
  · intro hdvd
    have hk := magnitude_roundtrip m e hm
    rw [← hq] at hk
    have hr : roundHalfEven q (2 ^ (bitLen q - 53)) = q / 2 ^ (bitLen q - 53) :=
      roundHalfEven_of_dvd q _ (pow_pos (by norm_num) _) hk
    have hqd : q * magDen e = magNum m e := Nat.div_mul_cancel hdvd
    unfold Float64.eq
    simp only
    by_cases hz : m = 0 ∧ roundHalfEven q (2 ^ (bitLen q - 53)) = 0
    · rw [if_pos hz]
    · rw [if_neg hz]
      apply decide_eq_true
      have hm0 : m ≠ 0 := by
        intro h0
        apply hz
        refine ⟨h0, ?_⟩
        have : q = 0 := by
          rw [hq]
          unfold magNum
          rw [h0, Nat.zero_mul, Nat.zero_div]
        rw [hr, this, Nat.zero_div]
      have hnum : 0 < magNum m e := by
        unfold magNum
        exact Nat.mul_pos (Nat.pos_of_ne_zero hm0) (pow_pos (by norm_num) _)
      have hqpos : 0 < q := by
        rcases Nat.eq_zero_or_pos q with h0 | h0
        · rw [h0, Nat.zero_mul] at hqd; omega
        · exact h0
      refine ⟨?_, ?_⟩
      · have hq1 : (0 : Int) < (q : Int) := by exact_mod_cast hqpos
        cases neg
        · simp only [Bool.false_eq_true, if_false, false_eq_decide_iff]
          omega
        · simp only [if_true, true_eq_decide_iff]
          omega
      · rw [magDen_natCast, Nat.mul_one, hr]
        unfold magNum
        rw [Int.toNat_ofNat, Nat.div_mul_cancel hk]
        exact hqd.symm

/-- C6: a `Num` instruction whose pool value `v` passes the test `v == float64(int(v))` is
written as `Num` and the decimal integer `int(v)`, which has no fractional part; every other
`v` is written as `Num` and the `%.6g` rendering of `v`.  For a representable finite `v` whose
truncation fits in 64 bits the test holds exactly when `v` is an integer, and the integer
written is `v` itself.  So 5.0 is written `Num 5` and 5.25 is written `Num 5.25`. -/
theorem C6_num_rendering (x : Externals) (d : Disassembler) (op index : Int) (rest : List Int)
    (v : Float64) (hc : x.classify op = .Num) (h : d.code.drop d.ip = op :: index :: rest)
    (h0 : 0 ≤ index) (hv : d.program.Nums.get? index.toNat = some v) :
    (Float64.eq v (Float64.ofInt (v.toInt x.floatToIntOverflow)) = true →
      step x d = .ok (afterInstr d 1 ("Num " ++ fmtD (v.toInt x.floatToIntOverflow)))) ∧
    (Float64.eq v (Float64.ofInt (v.toInt x.floatToIntOverflow)) = false →
      step x d = .ok (afterInstr d 1 ("Num " ++ fmtG6 v))) ∧
    (∀ n : Int, ∀ c ∈ (fmtD n).data, c ≠ '.') ∧
    (∀ (neg : Bool) (m : Nat) (e : Int), v = .finite neg m e → m < 2 ^ 53 →
      (magNum m e / magDen e : Nat) < 2 ^ 63 →
      (v.toInt x.floatToIntOverflow =
        if neg then -((magNum m e / magDen e : Nat) : Int)
        else ((magNum m e / magDen e : Nat) : Int)) ∧
      (Float64.eq v (Float64.ofInt (v.toInt x.floatToIntOverflow)) = true ↔
        magDen e ∣ magNum m e)) ∧
    Float64.eq (.finite false 5 0)
      (Float64.ofInt ((Float64.finite false 5 0).toInt x.floatToIntOverflow)) = true ∧
    "Num " ++ fmtD ((Float64.finite false 5 0).toInt x.floatToIntOverflow) = "Num 5" ∧
    Float64.eq (.finite false 21 (-2))
      (Float64.ofInt ((Float64.finite false 21 (-2)).toInt x.floatToIntOverflow)) = false ∧
    "Num " ++ fmtG6 (.finite false 21 (-2)) = "Num 5.25" := by
  have hsl : sliceIndex d.program.Nums index = .ok v := by
    unfold sliceIndex
    rw [if_pos h0, hv]
  have hstep := step_eq1 x d op index rest h (by rw [hc]; rfl)
  rw [hc] at hstep
  simp only [instrText, operands1, hsl, bind, Except.bind] at hstep
  refine ⟨fun ht => ?_, fun hf => ?_, fun n c hcn => (fmtD_plain n c hcn).2, ?_, ?_,
    rfl, ?_, by decide⟩
  · rw [hstep, if_pos ht]; rfl
  · rw [hstep, if_neg (by rw [hf]; decide)]; rfl
  · intro neg m e hve hm hrange
    subst hve
    exact num_test_iff_integral x.floatToIntOverflow neg m e hm hrange
  · exact (num_test_iff_integral x.floatToIntOverflow false 5 0 (by norm_num)
      (by decide)).2.mpr (by decide)
  · rw [Bool.eq_false_iff]
    intro ht
    have hd := (num_test_iff_integral x.floatToIntOverflow false 21 (-2) (by norm_num)
      (by decide)).2.mp ht
    revert hd
    decide

/-- C6, witness: the numbers 5.0 and 5.25 at indexes 0 and 1 of the sample program. -/
theorem C6_num_rendering_witness :
    sampleExternals.classify 0 = .Num ∧
    (stateAt sampleProgram [0, 0] 0 0).code.drop (stateAt sampleProgram [0, 0] 0 0).ip =
      0 :: 0 :: [] ∧
    (stateAt sampleProgram [0, 1] 0 0).code.drop (stateAt sampleProgram [0, 1] 0 0).ip =
      0 :: 1 :: [] ∧
    (stateAt sampleProgram [0, 0] 0 0).program.Nums.get? (0 : Int).toNat =
      some (.finite false 5 0) ∧
    (stateAt sampleProgram [0, 1] 0 0).program.Nums.get? (1 : Int).toNat =
      some (.finite false 21 (-2)) ∧
    step sampleExternals (stateAt sampleProgram [0, 0] 0 0) =
      .ok (afterInstr (stateAt sampleProgram [0, 0] 0 0) 1
        ("Num " ++ fmtD ((Float64.finite false 5 0).toInt sampleExternals.floatToIntOverflow))) ∧
    step sampleExternals (stateAt sampleProgram [0, 1] 0 0) =
      .ok (afterInstr (stateAt sampleProgram [0, 1] 0 0) 1
        ("Num " ++ fmtG6 (.finite false 21 (-2)))) :=
  ⟨rfl, rfl, rfl, rfl, rfl,
    (C6_num_rendering sampleExternals (stateAt sampleProgram [0, 0] 0 0) 0 0 []
      (.finite false 5 0) rfl rfl (le_refl _) rfl).1 (by decide),
    (C6_num_rendering sampleExternals (stateAt sampleProgram [0, 1] 0 0) 0 1 []
      (.finite false 21 (-2)) rfl rfl (by decide) rfl).2.1 (by decide)⟩

/-! ## Lines without embedded newlines -/

theorem plain_append (a b : String) (ha : Plain a) (hb : Plain b) : Plain (a ++ b) := by
  intro c hc
  rw [String.data_append, List.mem_append] at hc
  rcases hc with hc | hc
  · exact ha c hc
  · exact hb c hc

theorem plain_mk (l : List Char) (h : ∀ c ∈ l, c ≠ '\n') : Plain (String.mk l) := h

theorem plain_fmtD (n : Int) : Plain (fmtD n) := fun c hc => (fmtD_plain n c hc).1

theorem plain_fmtX04 (n : Int) : Plain (fmtX04 n) := fmtX04_no_newline n

theorem plain_fmtQ (high : Char → Bool) (s : String) : Plain (fmtQ high s) :=
  fmtQ_no_newline high s

theorem plain_fmtBadD (s : String) (h : Plain s) : Plain (fmtBadD s) := by
  unfold fmtBadD
  exact plain_append _ _ (plain_append _ _ (by decide) h) (by decide)

theorem decDigits_no_newline (n : Nat) : ∀ c ∈ decDigits n, c ≠ '\n' :=
  fun c hc => (decDigits_plain n c hc).1

theorem trimZeros_mem (ds : List Char) (c : Char) (h : c ∈ trimZeros ds) : c ∈ ds := by
  unfold trimZeros at h
  rw [List.mem_reverse] at h
  exact List.mem_reverse.mp ((List.dropWhile_sublist _).subset h)

theorem nn_cons (a : Char) (l : List Char) (ha : a ≠ '\n') (hl : ∀ c ∈ l, c ≠ '\n') :
    ∀ c ∈ a :: l, c ≠ '\n' := by
  intro c hc
  rw [List.mem_cons] at hc
  rcases hc with rfl | hc
  · exact ha
  · exact hl c hc

theorem nn_append (l1 l2 : List Char) (h1 : ∀ c ∈ l1, c ≠ '\n') (h2 : ∀ c ∈ l2, c ≠ '\n') :
    ∀ c ∈ l1 ++ l2, c ≠ '\n' := by
  intro c hc
  rw [List.mem_append] at hc
  rcases hc with hc | hc
  · exact h1 c hc
  · exact h2 c hc

theorem nn_replicate (n : Nat) (a : Char) (ha : a ≠ '\n') :
    ∀ c ∈ List.replicate n a, c ≠ '\n' := by
  intro c hc
  rw [List.eq_of_mem_replicate hc]
  exact ha

theorem nn_nil : ∀ c ∈ ([] : List Char), c ≠ '\n' := by
  intro c hc
  cases hc

theorem ite_char_ne (p : Prop) [Decidable p] (a b : Char) (ha : a ≠ '\n') (hb : b ≠ '\n') :
    (if p then a else b) ≠ '\n' := by
  split
  · exact ha
  · exact hb

theorem sixDigits_no_newline (n d : Nat) : ∀ c ∈ (sixDigits n d).1, c ≠ '\n' := by
  unfold sixDigits
  dsimp only
  rw [apply_ite Prod.fst]
  exact ite_no_newline _ _ _ (nn_cons _ _ (by decide) nn_nil)
    (fun c hc => decDigits_no_newline _ c (trimZeros_mem _ c hc))

theorem getD_no_newline (ds : List Char) (hds : ∀ c ∈ ds, c ≠ '\n') (j : Nat) :
    ds.getD j '0' ≠ '\n' := by
  rw [List.getD_eq_getElem?_getD]
  cases hj : ds[j]? with
  | none => decide
  | some a =>
    rw [Option.getD_some]
    exact hds a (List.getElem?_mem hj)

theorem fmtE_no_newline (ds : List Char) (dp : Int) (prec : Nat)
    (hds : ∀ c ∈ ds, c ≠ '\n') : ∀ c ∈ fmtE ds dp prec, c ≠ '\n' := by
  unfold fmtE
  dsimp only
  refine nn_cons _ _ ?_ (nn_append _ _ ?_ (nn_cons _ _ (by decide) (nn_cons _ _ ?_ ?_)))
  · cases ds with
    | nil => decide
    | cons a as => exact hds a (List.mem_cons_self _ _)
  · refine ite_no_newline _ _ _ (nn_cons _ _ (by decide) (nn_append _ _ ?_ ?_)) nn_nil
    · exact fun c hc => hds c (List.mem_of_mem_take (List.mem_of_mem_drop hc))
    · exact nn_replicate _ _ (by decide)
  · exact ite_char_ne _ _ _ (by decide) (by decide)
  · exact ite_no_newline _ _ _ (nn_cons _ _ (by decide) (decDigits_no_newline _))
      (decDigits_no_newline _)

theorem fmtF_no_newline (ds : List Char) (dp : Int) (prec : Nat)
    (hds : ∀ c ∈ ds, c ≠ '\n') : ∀ c ∈ fmtF ds dp prec, c ≠ '\n' := by
  unfold fmtF
  dsimp only
  refine nn_append _ _ ?_ ?_
  · refine ite_no_newline _ _ _ (nn_append _ _ ?_ (nn_replicate _ _ (by decide)))
      (nn_cons _ _ (by decide) nn_nil)
    exact fun c hc => hds c (List.mem_of_mem_take hc)
  · refine ite_no_newline _ _ _ (nn_cons _ _ (by decide) ?_) nn_nil
    intro c hc
    rw [List.mem_map] at hc
    obtain ⟨i, _, rfl⟩ := hc
    exact ite_char_ne _ _ _ (getD_no_newline ds hds _) (by decide)

theorem fmtGDigits_no_newline (ds : List Char) (dp : Int)
    (hds : ∀ c ∈ ds, c ≠ '\n') : ∀ c ∈ fmtGDigits ds dp, c ≠ '\n' := by
  unfold fmtGDigits
  dsimp only
  exact ite_no_newline _ _ _ (fmtE_no_newline ds dp _ hds) (fmtF_no_newline ds dp _ hds)

theorem plain_fmtG6 (v : Float64) : Plain (fmtG6 v) := by
  cases v with
  | nan => unfold fmtG6; decide
  | inf neg => cases neg <;> (unfold fmtG6; decide)
  | finite neg m e =>
    have hbody : ∀ c ∈ (if m = 0 then fmtGDigits [] 0
        else fmtGDigits (sixDigits (magNum m e) (magDen e)).1
          (sixDigits (magNum m e) (magDen e)).2), c ≠ '\n' :=
      ite_no_newline _ _ _ (fmtGDigits_no_newline [] 0 nn_nil)
        (fmtGDigits_no_newline _ _ (sixDigits_no_newline _ _))
    unfold fmtG6
    dsimp only
    exact ite_no_newline _ _ _ (nn_cons _ _ (by decide) hbody) hbody

theorem okPlain_pure (s : String) (h : Plain s) : OkPlain (pure s) := by
  intro t ht
  cases ht
  exact h

theorem okPlain_ite (c : Prop) [Decidable c] (a b : Except Abort String)
    (ha : OkPlain a) (hb : OkPlain b) : OkPlain (if c then a else b) := by
  split
  · exact ha
  · exact hb

theorem sliceIndex_mem {α : Type} (xs : List α) (i : Int) (a : α)
    (h : sliceIndex xs i = .ok a) : a ∈ xs := by
  unfold sliceIndex at h
  split at h
  · split at h
    · rename_i b hb
      cases h
      exact List.get?_mem hb
    · cases h
  · cases h

theorem localNameLoop_mem (ps : List String) (i : Nat) (index : Int) (name : String)
    (h : localNameLoop ps i index = some name) : name ∈ ps := by
  induction ps generalizing i with
  | nil => cases h
  | cons p ps ih =>
    unfold localNameLoop at h
    split at h
    · cases h
      exact List.mem_cons_self _ _
    · exact List.mem_cons_of_mem _ (ih (i + 1) h)

theorem localName_mem (d : Disassembler) (index : Int) (name : String)
    (h : localName d index = .ok name) : ∃ f ∈ d.program.Functions, name ∈ f.Params := by
  unfold localName at h
  split at h
  · cases h
  · rename_i f hf
    split at h
    · rename_i p hp
      cases h
      exact ⟨f, sliceIndex_mem _ _ _ hf, localNameLoop_mem _ _ _ _ hp⟩
    · cases h

theorem okPlain_bind_mem {α : Type} (xs : List α) (i : Int) (f : α → Except Abort String)
    (hf : ∀ a ∈ xs, OkPlain (f a)) : OkPlain (sliceIndex xs i >>= f) := by
  intro t ht
  cases hs : sliceIndex xs i with
  | error e => rw [hs] at ht; cases ht
  | ok a =>
    rw [hs] at ht
    exact hf a (sliceIndex_mem xs i a hs) t ht

theorem okPlain_bind_names (xs : List String) (i : Int) (f : String → Except Abort String)
    (hxs : ∀ s ∈ xs, Plain s) (hf : ∀ s, Plain s → OkPlain (f s)) :
    OkPlain (sliceIndex xs i >>= f) :=
  okPlain_bind_mem xs i f (fun a ha => hf a (hxs a ha))

theorem okPlain_bind_local (d : Disassembler) (i : Int) (f : String → Except Abort String)
    (hp : ∀ fn ∈ d.program.Functions, Plain fn.Name ∧ ∀ q ∈ fn.Params, Plain q)
    (hf : ∀ s, Plain s → OkPlain (f s)) : OkPlain (localName d i >>= f) := by
  intro t ht
  cases hs : localName d i with
  | error e => rw [hs] at ht; cases ht
  | ok a =>
    rw [hs] at ht
    obtain ⟨fn, hfn, ha⟩ := localName_mem d i a hs
    exact hf a ((hp fn hfn).2 a ha) t ht

theorem okPlain_operands0 (d : Disassembler) (f : Except Abort String) (ops : List Int)
    (hf : OkPlain f) : OkPlain (operands0 d f ops) := by
  intro t ht
  unfold operands0 at ht
  split at ht
  · exact hf t ht
  · cases ht

theorem okPlain_operands1 (d : Disassembler) (f : Int → Except Abort String) (ops : List Int)
    (hf : ∀ a, OkPlain (f a)) : OkPlain (operands1 d f ops) := by
  intro t ht
  unfold operands1 at ht
  split at ht
  · exact hf _ t ht
  · cases ht

theorem okPlain_operands2 (d : Disassembler) (f : Int → Int → Except Abort String)
    (ops : List Int) (hf : ∀ a b, OkPlain (f a b)) : OkPlain (operands2 d f ops) := by
  intro t ht
  unfold operands2 at ht
  split at ht
  · exact hf _ _ t ht
  · cases ht

theorem okPlain_operands3 (d : Disassembler) (f : Int → Int → Int → Except Abort String)
    (ops : List Int) (hf : ∀ a b c, OkPlain (f a b c)) : OkPlain (operands3 d f ops) := by
  intro t ht
  unfold operands3 at ht
  split at ht
  · exact hf _ _ _ t ht
  · cases ht

/-- With names that contain no newline, the text of an instruction contains none. -/
theorem instrText_plain (x : Externals) (d : Disassembler) (op : Int) (m : Mnemonic)
    (ops : List Int) (hn : PlainNames x d.program) : OkPlain (instrText x d op m ops) := by
  obtain ⟨hS, hA, hF, hO, hT, hV⟩ := hn
  cases m <;> simp only [instrText] <;>
    (first
      | (apply okPlain_operands0)
      | (apply okPlain_operands1; intro a)
      | (apply okPlain_operands2; intro a b)
      | (apply okPlain_operands3; intro a b c)) <;>
    (first
      | apply okPlain_pure
      | (apply okPlain_ite <;> apply okPlain_pure)
      | (apply okPlain_bind_names _ _ _ hS; intro s hs
         first
           | apply okPlain_pure
           | (apply okPlain_bind_names _ _ _ hA; intro s2 hs2; apply okPlain_pure))
      | (apply okPlain_bind_names _ _ _ hA; intro s hs; apply okPlain_pure)
      | (apply okPlain_bind_local _ _ _ hF; intro s hs; apply okPlain_pure)
      | (apply okPlain_bind_mem; intro fn hfn
         first
           | apply okPlain_pure
           | (apply okPlain_ite <;> apply okPlain_pure))) <;>
    repeat' first
      | apply plain_append
      | apply plain_fmtBadD
      | exact plain_fmtD _
      | exact plain_fmtX04 _
      | exact plain_fmtQ _ _
      | exact plain_fmtG6 _
      | exact hO _
      | exact hT _
      | exact hV _
      | exact hs
      | exact hs2
      | exact (hF _ hfn).1
      | decide

/-- C9: a unit of `Program.Disassemble` (a call of `disassemble` with a non-empty prefix on a
fresh state) over a well-formed stream of `n` instructions, with a writer on which no write
fails, returns nil after exactly `n + 2` writes, each ended by a newline, in this order: the
section line `        // <prefix>`, one line per instruction (its address, four spaces, its
text), and one blank line.  When the prefix and the names printed verbatim contain no
newline, each write is exactly one line: its only newline is its last character.  The
prefixes that `Program.Disassemble` passes are never empty. -/
theorem C9_unit_writes_header_lines_blank (x : Externals) (p : Program) (w : Writer) (fi : Nat)
    (pfx : String) (is : List Instr) (hpfx : pfx ≠ "")
    (hwf : ∀ i ∈ is, i.WellFormed x p fi) (hnf : w.NeverFails) :
    ∃ w1 lines, runUnit x p (encode is) fi pfx (w, none) = .ok (w1, none) ∧
      w1.written = w.written ++ ["        // " ++ pfx ++ "\n"] ++ lines ++ ["\n"] ∧
      lines.length = is.length ∧
      w1.written.length = w.written.length + (is.length + 2) ∧
      (∀ k, k < is.length → ∃ i text, is.get? k = some i ∧
        instrTextAt x p (encode is) fi (addrOf is k) i = .ok text ∧
        lines.get? k = some (fmtX04 (addrOf is k) ++ "    " ++ text ++ "\n")) ∧
      (PlainNames x p → Plain pfx →
        ∀ l ∈ ["        // " ++ pfx ++ "\n"] ++ lines ++ ["\n"],
          ∃ body, l = body ++ "\n" ∧ Plain body) ∧
      (∀ name : String, "function " ++ name ≠ "") := by
  obtain ⟨d, texts, hd, hts, _, herr, _, hwr⟩ := disassemble_complete x p w fi pfx is hwf hnf
  have hlen := linesFrom_length 0 is texts (textsFor_length _ _ _ _ _ _ _ hts)
  have hhdr : headerLines pfx = ["        // " ++ pfx ++ "\n"] := by
    rw [headerLines, if_pos hpfx]
  rw [hhdr] at hwr
  have hper : ∀ k, k < is.length → ∃ i text, is.get? k = some i ∧
      instrTextAt x p (encode is) fi (addrOf is k) i = .ok text ∧
      (linesFrom 0 is texts).get? k =
        some (fmtX04 (addrOf is k) ++ "    " ++ text ++ "\n") := by
    intro k hk
    obtain ⟨i, t, hi, ht, hl⟩ := linesFrom_get x p (encode is) fi 0 is texts hts k hk
    exact ⟨i, t, hi, by simpa using ht, by simpa [opLine] using hl⟩
  refine ⟨d.writer, linesFrom 0 is texts, ?_, hwr, hlen, ?_, hper, ?_, ?_⟩
  · simp only [runUnit, hd, herr]
  · rw [hwr]
    simp only [List.length_append, List.length_singleton, hlen]
    omega
  · intro hnames hplain l hl
    simp only [List.mem_append, List.mem_singleton] at hl
    rcases hl with (rfl | hl) | rfl
    · exact ⟨"        // " ++ pfx, rfl, plain_append _ _ (by decide) hplain⟩
    · obtain ⟨k, hk⟩ := List.mem_iff_get?.mp hl
      have hklt : k < is.length := by
        rw [← hlen]
        by_contra hge
        rw [List.get?_eq_none.mpr (Nat.le_of_not_lt hge)] at hk
        cases hk
      obtain ⟨i, t, _, ht, hline⟩ := hper k hklt
      rw [hk] at hline
      cases hline
      exact ⟨fmtX04 (addrOf is k) ++ "    " ++ t, rfl,
        plain_append _ _ (plain_append _ _ (plain_fmtX04 _) (by decide))
          (instrText_plain x (stateAt p (encode is) fi (addrOf is k)) i.op _ i.operands
            hnames t ht)⟩
    · exact ⟨"", rfl, by decide⟩
  · intro name hn
    have := congrArg String.length hn
    simp only [String.length_append] at this
    have h9 : ("function " : String).length = 9 := by decide
    have h0 : ("" : String).length = 0 := by decide
    omega

/-- C9, witness: the `BEGIN` unit of the sample stream, three instructions and five lines. -/
theorem C9_unit_writes_header_lines_blank_witness :
    ("BEGIN" : String) ≠ "" ∧
    (∀ i ∈ sampleStream, i.WellFormed sampleExternals sampleProgram 0) ∧ okWriter.NeverFails ∧
    ∃ w1 lines, runUnit sampleExternals sampleProgram (encode sampleStream) 0 "BEGIN"
        (okWriter, none) = .ok (w1, none) ∧
      w1.written = okWriter.written ++ ["        // " ++ "BEGIN" ++ "\n"] ++ lines ++ ["\n"] ∧
      lines.length = sampleStream.length ∧
      w1.written.length = okWriter.written.length + (sampleStream.length + 2) :=
  have h0 : ("BEGIN" : String) ≠ "" := by decide
  have h1 : ∀ i ∈ sampleStream, i.WellFormed sampleExternals sampleProgram 0 := by
    intro i hi
    simp only [sampleStream, List.mem_cons, List.mem_singleton, List.not_mem_nil, or_false] at hi
    rcases hi with rfl | rfl | rfl <;> rfl
  have h2 : okWriter.NeverFails := fun _ _ => rfl
  ⟨h0, h1, h2,
    match C9_unit_writes_header_lines_blank sampleExternals sampleProgram okWriter 0 "BEGIN"
      sampleStream h0 h1 h2 with
    | ⟨w1, lines, a, b, c, e, _⟩ => ⟨w1, lines, a, b, c, e⟩⟩

/-! ## Claims C11 to C15 -/

/-- C11: for a `Global`, `AssignGlobal`, `IncrGlobal` or `AugAssignGlobal` instruction whose
index `i` is in range, the variable is written as the name `ScalarNames[i]`; for `IncrGlobal`
and `AugAssignGlobal` the index is the second operand, after the amount or the operator. -/
theorem C11_global_scalar_renders_name (x : Externals) (d : Disassembler) (i : Nat)
    (name : String) (hname : d.program.ScalarNames.get? i = some name) :
    (∀ op rest, d.code.drop d.ip = op :: (i : Int) :: rest →
      (x.classify op = .Global → step x d = .ok (afterInstr d 1 ("Global " ++ name))) ∧
      (x.classify op = .AssignGlobal →
        step x d = .ok (afterInstr d 1 ("AssignGlobal " ++ name)))) ∧
    (∀ op a rest, d.code.drop d.ip = op :: a :: (i : Int) :: rest →
      (x.classify op = .IncrGlobal →
        step x d = .ok (afterInstr d 2 ("IncrGlobal " ++ fmtD (toInt32 a) ++ " " ++ name))) ∧
      (x.classify op = .AugAssignGlobal →
        step x d =
          .ok (afterInstr d 2 ("AugAssignGlobal " ++ x.tokenString a ++ " " ++ name)))) := by
  have hs := sliceIndex_nat d.program.ScalarNames i name hname
  refine ⟨?_, ?_⟩
  · intro op rest h
    refine ⟨fun hc => ?_, fun hc => ?_⟩
    · rw [step_eq1 x d op _ rest h (by rw [hc]; rfl), hc]
      simp only [instrText, operands1, hs]; rfl
    · rw [step_eq1 x d op _ rest h (by rw [hc]; rfl), hc]
      simp only [instrText, operands1, hs]; rfl
  · intro op a rest h
    refine ⟨fun hc => ?_, fun hc => ?_⟩
    · rw [step_eq2 x d op a _ rest h (by rw [hc]; rfl), hc]
      simp only [instrText, operands2, hs]; rfl
    · rw [step_eq2 x d op a _ rest h (by rw [hc]; rfl), hc]
      simp only [instrText, operands2, hs]; rfl

/-- C11, witness: the scalar `x` at index 0 of the sample program, read by `Global 0` and
incremented by `IncrGlobal 1 0`. -/
theorem C11_global_scalar_renders_name_witness :
    (stateAt sampleProgram [3, 0] 0 0).program.ScalarNames.get? 0 = some "x" ∧
    step sampleExternals (stateAt sampleProgram [3, 0] 0 0) =
      .ok (afterInstr (stateAt sampleProgram [3, 0] 0 0) 1 ("Global " ++ "x")) ∧
    step sampleExternals (stateAt sampleProgram [19, 1, 0] 0 0) =
      .ok (afterInstr (stateAt sampleProgram [19, 1, 0] 0 0) 2
        ("IncrGlobal " ++ fmtD (toInt32 1) ++ " " ++ "x")) :=
  ⟨rfl,
    ((C11_global_scalar_renders_name sampleExternals (stateAt sampleProgram [3, 0] 0 0) 0 "x"
      rfl).1 3 [] rfl).1 rfl,
    ((C11_global_scalar_renders_name sampleExternals (stateAt sampleProgram [19, 1, 0] 0 0) 0 "x"
      rfl).2 19 1 [] rfl).1 rfl⟩

/-- C12: in a state with `ip < len(code)`, `fetch` returns `code[ip]` and the state with `ip`
advanced by exactly one; `code`, `program`, `funcIndex`, `opAddr`, `err` and the writer are
unchanged; from equal states it returns equal values and equal states. -/
theorem C12_fetch_advances_ip_only (d : Disassembler) (h : d.ip < d.code.length) :
    fetch d = .ok (d.code.get ⟨d.ip, h⟩, { d with ip := d.ip + 1 }) ∧
    ({ d with ip := d.ip + 1 } : Disassembler).ip = d.ip + 1 ∧
    ({ d with ip := d.ip + 1 } : Disassembler).code = d.code ∧
    ({ d with ip := d.ip + 1 } : Disassembler).program = d.program ∧
    ({ d with ip := d.ip + 1 } : Disassembler).funcIndex = d.funcIndex ∧
    ({ d with ip := d.ip + 1 } : Disassembler).opAddr = d.opAddr ∧
    ({ d with ip := d.ip + 1 } : Disassembler).err = d.err ∧
    ({ d with ip := d.ip + 1 } : Disassembler).writer = d.writer ∧
    (∀ d1 d2 : Disassembler, d1 = d2 → fetch d1 = fetch d2) := by
  refine ⟨?_, rfl, rfl, rfl, rfl, rfl, rfl, rfl, fun d1 d2 h12 => by rw [h12]⟩
  unfold fetch
  rw [List.get?_eq_get h]

/-- C12, witness: the fetch of the second word of a three-word stream. -/
theorem C12_fetch_advances_ip_only_witness :
    (stateAt sampleProgram [49, 7, 49] 0 1).ip < (stateAt sampleProgram [49, 7, 49] 0 1).code.length ∧
    fetch (stateAt sampleProgram [49, 7, 49] 0 1) =
      .ok (7, { stateAt sampleProgram [49, 7, 49] 0 1 with ip := 2 }) :=
  ⟨by decide, (C12_fetch_advances_ip_only (stateAt sampleProgram [49, 7, 49] 0 1) (by decide)).1⟩

/-- The `ForGlobalInGlobal` case: three operands, and the exit address is the address after
the third operand plus the value of the offset word itself, with no conversion to `int32`. -/
theorem forGlobalInGlobal_step (x : Externals) (d : Disassembler) (op v a w : Int)
    (rest : List Int) (varName arrayName : String)
    (hc : x.classify op = .ForGlobalInGlobal)
    (h : d.code.drop d.ip = op :: v :: a :: w :: rest)
    (hv : sliceIndex d.program.ScalarNames v = .ok varName)
    (ha : sliceIndex d.program.ArrayNames a = .ok arrayName) :
    step x d = .ok (afterInstr d 3
      ("ForGlobalInGlobal " ++ varName ++ " " ++ arrayName ++ " 0x" ++
        fmtX04 (((d.ip + 4 : Nat) : Int) + w))) := by
  rw [step_eq3 x d op v a w rest h (by rw [hc]; rfl), hc]
  simp only [instrText, operands3, hv, ha]
  rfl

/-- The offset word read as such and read through `int32` agree exactly on the signed 32-bit
range. -/
theorem toInt32_eq_self_iff (w : Int) :
    toInt32 w = w ↔ -(2 : Int) ^ 31 ≤ w ∧ w < (2 : Int) ^ 31 := by
  unfold toInt32
  constructor
  · intro h
    have h1 := Int.emod_nonneg (w + 2 ^ 31) (by norm_num : (2 : Int) ^ 32 ≠ 0)
    have h2 := Int.emod_lt_of_pos (w + 2 ^ 31) (by norm_num : (0 : Int) < 2 ^ 32)
    constructor <;> omega
  · intro h
    have : (w + 2 ^ 31) % 2 ^ 32 = w + 2 ^ 31 :=
      Int.emod_eq_of_lt (by omega) (by omega)
    omega

/-- C13 (evaluation at the failing input): at address 4 a `ForGlobalInGlobal` whose offset
word is `0xFFFFFFFD`, the 32-bit pattern of -3, is written with exit address
`8 + 4294967293 = 0x100000005`; a `Jump` whose operand ends at the same address 8 with the same
offset word is written with target `8 - 3 = 0x0005`. -/
theorem C13_forGlobalInGlobal_offset_not_signed :
    step sampleExternals (stateAt sampleProgram [49, 49, 49, 49, 39, 0, 0, 4294967293] 0 4) =
      .ok (afterInstr (stateAt sampleProgram [49, 49, 49, 49, 39, 0, 0, 4294967293] 0 4) 3
        "ForGlobalInGlobal x arr 0x100000005") ∧
    step sampleExternals (stateAt sampleProgram [49, 49, 49, 49, 49, 49, 32, 4294967293] 0 6) =
      .ok (afterInstr (stateAt sampleProgram [49, 49, 49, 49, 49, 49, 32, 4294967293] 0 6) 1
        "Jump 0x0005") ∧
    toInt32 4294967293 = -3 :=
  ⟨rfl, rfl, by decide⟩

/-- C14 (evaluation at the failing input): `AugAssignSpecial += NF` is written with the
bad-verb text `%!d(string=NF)` for its variable, while `Special`, `AssignSpecial` and
`IncrSpecial` write the plain name `NF`. -/
theorem C14_augAssignSpecial_bad_verb :
    step sampleExternals (stateAt sampleProgram [27, 2, 1] 0 0) =
      .ok (afterInstr (stateAt sampleProgram [27, 2, 1] 0 0) 2
        "AugAssignSpecial += %!d(string=NF)") ∧
    step sampleExternals (stateAt sampleProgram [5, 1] 0 0) =
      .ok (afterInstr (stateAt sampleProgram [5, 1] 0 0) 1 "Special NF") ∧
    step sampleExternals (stateAt sampleProgram [11, 1] 0 0) =
      .ok (afterInstr (stateAt sampleProgram [11, 1] 0 0) 1 "AssignSpecial NF") ∧
    step sampleExternals (stateAt sampleProgram [21, 1, 1] 0 0) =
      .ok (afterInstr (stateAt sampleProgram [21, 1, 1] 0 0) 2 "IncrSpecial 1 NF") :=
  ⟨rfl, rfl, rfl, rfl⟩

/-- The text of `InLocal`, `AssignArrayLocal`, `DeleteLocal`, `DeleteAllLocal`,
`IncrArrayLocal` and `AugAssignArrayLocal` does not depend on the table `ArrayNames`. -/
theorem localArray_text_independent (x : Externals) (d : Disassembler) (names : List String)
    (op : Int) (m : Mnemonic) (ops : List Int)
    (hm : m = .InLocal ∨ m = .AssignArrayLocal ∨ m = .DeleteLocal ∨ m = .DeleteAllLocal ∨
      m = .IncrArrayLocal ∨ m = .AugAssignArrayLocal) :
    instrText x { d with program := { d.program with ArrayNames := names } } op m ops =
      instrText x d op m ops := by
  rcases hm with rfl | rfl | rfl | rfl | rfl | rfl <;> rfl

/-- C15 (evaluation at the failing input): `CallSplitLocal 0` and `CallSplitSepLocal 0` are
written with the name at index 0 of the global table `ArrayNames`, so the line changes when
only `ArrayNames` changes, and with an empty `ArrayNames` the instruction panics; `InLocal 0`
is written with the slot number whatever `ArrayNames` is. -/
theorem C15_callSplitLocal_reads_arrayNames :
    step sampleExternals (stateAt sampleProgram [41, 0] 0 0) =
      .ok (afterInstr (stateAt sampleProgram [41, 0] 0 0) 1 "CallSplitLocal arr") ∧
    step sampleExternals (stateAt { sampleProgram with ArrayNames := ["other"] } [41, 0] 0 0) =
      .ok (afterInstr (stateAt { sampleProgram with ArrayNames := ["other"] } [41, 0] 0 0) 1
        "CallSplitLocal other") ∧
    step sampleExternals (stateAt { sampleProgram with ArrayNames := [] } [41, 0] 0 0) =
      .error (.indexOutOfRange 0 0) ∧
    step sampleExternals (stateAt sampleProgram [43, 0] 0 0) =
      .ok (afterInstr (stateAt sampleProgram [43, 0] 0 0) 1 "CallSplitSepLocal arr") ∧
    step sampleExternals (stateAt { sampleProgram with ArrayNames := [] } [43, 0] 0 0) =
      .error (.indexOutOfRange 0 0) ∧
    step sampleExternals (stateAt { sampleProgram with ArrayNames := [] } [8, 0] 0 0) =
      .ok (afterInstr (stateAt { sampleProgram with ArrayNames := [] } [8, 0] 0 0) 1
        "InLocal 0") :=
  ⟨rfl, rfl, rfl, rfl, rfl, rfl⟩

/-! ## Claim C18: the decode loop ends -/

theorem advances_fetch (d : Disassembler) (body : Int × Disassembler → Except Abort Disassembler)
    (h : ∀ r, Advances r.2 (body r)) : Advances d (fetch d >>= body) := by
  intro hle
  unfold fetch
  cases hg : d.code.get? d.ip with
  | none =>
    show Abort.indexOutOfRange d.ip d.code.length ≠ .outOfFuel
    intro hc; cases hc
  | some w =>
    have hlt : d.ip < d.code.length := by
      by_contra hn
      rw [List.get?_eq_none.mpr (by omega)] at hg
      cases hg
    have h1 := h (w, { d with ip := d.ip + 1 }) (by show d.ip + 1 ≤ d.code.length; omega)
    show match body (w, { d with ip := d.ip + 1 }) with
      | .ok d1 => d1.code = d.code ∧ d.ip ≤ d1.ip ∧ d1.ip ≤ d1.code.length
      | .error a => a ≠ .outOfFuel
    cases hb : body (w, { d with ip := d.ip + 1 }) with
    | error a => rw [hb] at h1; exact h1
    | ok d1 =>
      rw [hb] at h1
      obtain ⟨a, b, c⟩ := h1
      exact ⟨a, by have : d.ip + 1 ≤ d1.ip := b; omega, c⟩

theorem advances_slice {α : Type} (d : Disassembler) (xs : List α) (i : Int)
    (body : α → Except Abort Disassembler) (h : ∀ a, Advances d (body a)) :
    Advances d (sliceIndex xs i >>= body) := by
  intro hle
  unfold sliceIndex
  by_cases h0 : 0 ≤ i
  · rw [if_pos h0]
    cases hg : xs.get? i.toNat with
    | none => show Abort.indexOutOfRange i xs.length ≠ .outOfFuel; intro hc; cases hc
    | some a => exact h a hle
  · rw [if_neg h0]
    show Abort.indexOutOfRange i xs.length ≠ .outOfFuel
    intro hc; cases hc

theorem sliceIndex_ne_outOfFuel {α : Type} (xs : List α) (i : Int) :
    sliceIndex xs i ≠ .error .outOfFuel := by
  unfold sliceIndex
  by_cases h0 : 0 ≤ i
  · rw [if_pos h0]
    cases xs.get? i.toNat with
    | none => intro hc; cases hc
    | some a => intro hc; cases hc
  · rw [if_neg h0]; intro hc; cases hc

theorem advances_local (d d0 : Disassembler) (i : Int)
    (body : String → Except Abort Disassembler) (h : ∀ a, Advances d (body a)) :
    Advances d (localName d0 i >>= body) := by
  intro hle
  unfold localName
  cases hs : sliceIndex d0.program.Functions d0.funcIndex with
  | error a =>
    show a ≠ .outOfFuel
    intro hc
    rw [hc] at hs
    exact sliceIndex_ne_outOfFuel _ _ hs
  | ok f =>
    dsimp only
    cases hl : localNameLoop f.Params 0 i with
    | none => show Abort.unexpectedLocal i ≠ .outOfFuel; intro hc; cases hc
    | some nm => exact h nm hle

theorem advances_write (d : Disassembler) (text : String) :
    Advances d (pure (writeOpf d text)) := by
  intro hle
  show (writeOpf d text).code = d.code ∧ d.ip ≤ (writeOpf d text).ip ∧
    (writeOpf d text).ip ≤ (writeOpf d text).code.length
  unfold writeOpf
  cases d.err with
  | some e => exact ⟨rfl, le_refl _, hle⟩
  | none => exact ⟨rfl, le_refl _, hle⟩

theorem advances_ite (d : Disassembler) (c : Prop) [Decidable c]
    (a b : Except Abort Disassembler) (ha : Advances d a) (hb : Advances d b) :
    Advances d (if c then a else b) := by
  by_cases h : c
  · rw [if_pos h]; exact ha
  · rw [if_neg h]; exact hb

/-- Every case of the `switch` leaves the stream as it is and does not move `ip` back. -/
theorem switchOp_advances (x : Externals) (op : Int) (d : Disassembler) (m : Mnemonic) :
    Advances d (switchOp x op d m) := by
  cases m <;> simp only [switchOp] <;>
    first
      | exact advances_write _ _
      | (apply advances_fetch; intro r1
         first
           | exact advances_write _ _
           | (apply advances_slice; intro a
              first
                | exact advances_write _ _
                | (apply advances_ite <;> exact advances_write _ _))
           | (apply advances_local; intro a; exact advances_write _ _)
           | (apply advances_fetch; intro r2
              first
                | exact advances_write _ _
                | (apply advances_ite <;> exact advances_write _ _)
                | (apply advances_slice; intro a; exact advances_write _ _)
                | (apply advances_local; intro a; exact advances_write _ _)
                | (apply advances_fetch; intro r3
                   apply advances_slice; intro a
                   apply advances_slice; intro b
                   exact advances_write _ _)))

/-- One iteration either returns with the same stream and `ip` strictly further, still inside
the stream, or panics with a panic of the program. -/
theorem step_cases (x : Externals) (d : Disassembler) :
    (∃ d1, step x d = .ok d1 ∧ d1.code = d.code ∧ d.ip < d1.ip ∧ d1.ip ≤ d1.code.length) ∨
    (∃ a, step x d = .error a ∧ a ≠ .outOfFuel) := by
  unfold step fetch
  cases hg : d.code.get? d.ip with
  | none =>
    right
    exact ⟨_, rfl, by intro hc; cases hc⟩
  | some w =>
    have hlt : d.ip < d.code.length := by
      by_contra hn
      rw [List.get?_eq_none.mpr (by omega)] at hg
      cases hg
    have h := switchOp_advances x w { d with opAddr := d.ip, ip := d.ip + 1 } (x.classify w)
      (by show d.ip + 1 ≤ d.code.length; omega)
    show (∃ d1, switchOp x w { d with opAddr := d.ip, ip := d.ip + 1 } (x.classify w) = .ok d1 ∧
        d1.code = d.code ∧ d.ip < d1.ip ∧ d1.ip ≤ d1.code.length) ∨
      (∃ a, switchOp x w { d with opAddr := d.ip, ip := d.ip + 1 } (x.classify w) = .error a ∧
        a ≠ .outOfFuel)
    cases hs : switchOp x w { d with opAddr := d.ip, ip := d.ip + 1 } (x.classify w) with
    | error a =>
      rw [hs] at h
      exact Or.inr ⟨a, rfl, h⟩
    | ok d1 =>
      rw [hs] at h
      obtain ⟨a, b, c⟩ := h
      exact Or.inl ⟨d1, rfl, a, by have : d.ip + 1 ≤ d1.ip := b; omega, c⟩

/-- With `len(code) - ip` iterations allowed the loop never runs out of them, and allowing more
changes nothing. -/
theorem loop_fuel (x : Externals) :
    ∀ (fuel : Nat) (d : Disassembler), d.code.length - d.ip ≤ fuel →
      loop x fuel d ≠ .error .outOfFuel ∧
      ∀ fuel2, d.code.length - d.ip ≤ fuel2 → loop x fuel2 d = loop x fuel d := by
  intro fuel
  induction fuel with
  | zero =>
    intro d hf
    have hcond : ¬ (d.ip < d.code.length ∧ d.err = none) := by omega
    refine ⟨?_, fun fuel2 _ => ?_⟩
    · simp only [loop, if_neg hcond]
      intro hc; cases hc
    · cases fuel2 <;> simp only [loop, if_neg hcond]
  | succ fuel ih =>
    intro d hf
    by_cases hcond : d.ip < d.code.length ∧ d.err = none
    · rcases step_cases x d with ⟨d1, hs, hc, hip, _⟩ | ⟨a, hs, ha⟩
      · have hf1 : d1.code.length - d1.ip ≤ fuel := by rw [hc]; omega
        obtain ⟨h1, h2⟩ := ih d1 hf1
        refine ⟨?_, fun fuel2 hf2 => ?_⟩
        · simp only [loop, if_pos hcond, hs]
          exact h1
        · obtain ⟨f2, rfl⟩ : ∃ f, fuel2 = f + 1 := ⟨fuel2 - 1, by omega⟩
          simp only [loop, if_pos hcond, hs]
          exact h2 f2 (by rw [hc]; omega)
      · refine ⟨?_, fun fuel2 hf2 => ?_⟩
        · simp only [loop, if_pos hcond, hs]
          intro hc
          cases hc
          exact ha rfl
        · obtain ⟨f2, rfl⟩ : ∃ f, fuel2 = f + 1 := ⟨fuel2 - 1, by omega⟩
          simp only [loop, if_pos hcond, hs]
    · refine ⟨?_, fun fuel2 _ => ?_⟩
      · simp only [loop, if_neg hcond]
        intro hc; cases hc
      · cases fuel2 <;> simp only [loop, if_neg hcond]

/-- The loop makes at most `len(code) - ip` iterations, whatever the bound it is given. -/
theorem loopIterations_le (x : Externals) :
    ∀ (fuel : Nat) (d : Disassembler), loopIterations x fuel d ≤ d.code.length - d.ip := by
  intro fuel
  induction fuel with
  | zero => intro d; simp only [loopIterations]; omega
  | succ fuel ih =>
    intro d
    by_cases hcond : d.ip < d.code.length ∧ d.err = none
    · rcases step_cases x d with ⟨d1, hs, hc, hip, hle⟩ | ⟨a, hs, _⟩
      · have h1 := ih d1
        simp only [loopIterations, if_pos hcond, hs]
        rw [hc] at h1 hle
        omega
      · simp only [loopIterations, if_pos hcond, hs]
        omega
    · simp only [loopIterations, if_neg hcond]
      omega

/-- C18: every iteration of the loop of `disassemble` that returns has moved `ip` strictly
forward inside the unchanged stream; the loop makes at most `len(code) - ip`, hence at most
`len(code)`, iterations; so `len(code) - ip` iterations always suffice, more change nothing,
and `disassemble` ends on every stream, by returning or by a panic of the program. -/
theorem C18_disassemble_terminates (x : Externals) (d : Disassembler) :
    (∀ d1, step x d = .ok d1 → d.ip < d1.ip ∧ d1.ip ≤ d1.code.length ∧ d1.code = d.code) ∧
    (∀ fuel, loopIterations x fuel d ≤ d.code.length - d.ip ∧
      loopIterations x fuel d ≤ d.code.length) ∧
    (∀ fuel, d.code.length - d.ip ≤ fuel →
      loop x fuel d ≠ .error .outOfFuel ∧ loop x fuel d = loop x (d.code.length - d.ip) d) ∧
    (∀ pfx, disassemble x d pfx ≠ .error .outOfFuel) := by
  refine ⟨fun d1 hs => ?_, fun fuel => ?_, fun fuel hf => ?_, fun pfx => ?_⟩
  · rcases step_cases x d with ⟨d2, hs2, hc, hip, hle⟩ | ⟨a, hs2, _⟩
    · rw [hs] at hs2
      cases hs2
      exact ⟨hip, hle, hc⟩
    · rw [hs] at hs2
      cases hs2
  · have := loopIterations_le x fuel d
    exact ⟨this, by omega⟩
  · exact ⟨(loop_fuel x fuel d hf).1, ((loop_fuel x fuel d hf).2 _ (le_refl _)).symm ▸ rfl⟩
  · unfold disassemble
    intro hc
    generalize (if pfx ≠ "" then writef d ("        // " ++ pfx ++ "\n") else d) = d1 at hc
    have h := (loop_fuel x (d1.code.length - d1.ip) d1 (le_refl _)).1
    cases hl : loop x (d1.code.length - d1.ip) d1 with
    | ok d2 => simp only [hl] at hc; cases hc
    | error a =>
      simp only [hl] at hc
      cases hc
      exact h hl

/-- C18, witness: the `BEGIN` unit of the sample program, fifteen words; the first iteration
moves `ip` from 0 to 2, and the loop makes seven iterations. -/
theorem C18_disassemble_terminates_witness :
    (newDisassembler sampleProgram okWriter [0, 0, 0, 1, 1, 0, 47, 2, 0, 47, 2, 1, 32, 4294967293, 49]
      0).ip < 2 ∧
    loopIterations sampleExternals 100
      (newDisassembler sampleProgram okWriter
        [0, 0, 0, 1, 1, 0, 47, 2, 0, 47, 2, 1, 32, 4294967293, 49] 0) = 7 ∧
    loopIterations sampleExternals 100
      (newDisassembler sampleProgram okWriter
        [0, 0, 0, 1, 1, 0, 47, 2, 0, 47, 2, 1, 32, 4294967293, 49] 0) ≤ 15 ∧
    disassemble sampleExternals
      (newDisassembler sampleProgram okWriter
        [0, 0, 0, 1, 1, 0, 47, 2, 0, 47, 2, 1, 32, 4294967293, 49] 0) "BEGIN" ≠
        .error .outOfFuel :=
  ⟨by decide, rfl,
    ((C18_disassemble_terminates sampleExternals
      (newDisassembler sampleProgram okWriter
        [0, 0, 0, 1, 1, 0, 47, 2, 0, 47, 2, 1, 32, 4294967293, 49] 0)).2.1 100).2,
    (C18_disassemble_terminates sampleExternals
      (newDisassembler sampleProgram okWriter
        [0, 0, 0, 1, 1, 0, 47, 2, 0, 47, 2, 1, 32, 4294967293, 49] 0)).2.2.2 "BEGIN"⟩

/-! ## Latched writes: the loop, a unit, the sections -/

theorem latch_error (w : Writer) (e : String) (cs : List String) :
    latch (w, some e) cs = (w, some e) := by
  cases cs <;> rfl

theorem latch_append (s : Progress) (a b : List String) :
    latch s (a ++ b) = latch (latch s a) b := by
  induction a generalizing s with
  | nil => rfl
  | cons c cs ih =>
    obtain ⟨w, o⟩ := s
    cases o with
    | some e => rw [List.cons_append, latch_error, latch_error, latch_error]
    | none => exact ih (w.write c)

theorem latch_neverFails (w : Writer) (cs : List String) (h : w.NeverFails) :
    latch (w, none) cs = ({ w with written := w.written ++ cs }, none) := by
  induction cs generalizing w with
  | nil => simp [latch]
  | cons c cs ih =>
    have hw : w.write c = ({ w with written := w.written ++ [c] }, none) := by
      simp only [Writer.write, h w.written c]
    show latch (w.write c) cs = _
    rw [hw, ih { w with written := w.written ++ [c] } (fun l s => h l s)]
    simp

theorem writef_latch (d : Disassembler) (text : String) :
    ((writef d text).writer, (writef d text).err) = latch (d.writer, d.err) [text] ∧
    (writef d text).program = d.program ∧ (writef d text).code = d.code ∧
    (writef d text).funcIndex = d.funcIndex ∧ (writef d text).ip = d.ip := by
  cases h : d.err with
  | some e =>
    simp only [writef, h, latch_error]
    exact ⟨trivial, trivial, trivial, trivial, trivial⟩
  | none =>
    simp only [writef, h]
    exact ⟨rfl, trivial, trivial, trivial, trivial⟩

theorem afterInstr_latch (d : Disassembler) (n : Nat) (text : String) (he : d.err = none) :
    ((afterInstr d n text).writer, (afterInstr d n text).err) =
      latch (d.writer, none) [opLine d.ip text] := by
  simp only [afterInstr, writeOpf, he]
  rfl

/-- The loop over a well-formed stream, with any writer: it returns, and its writes are the
operation lines of the stream under the latch. -/
theorem loop_latch (x : Externals) (is : List Instr) :
    ∀ (fuel : Nat) (d : Disassembler), is.length ≤ fuel →
      d.code.drop d.ip = encode is → d.ip ≤ d.code.length →
      (∀ i ∈ is, i.WellFormed x d.program d.funcIndex) →
      ∃ d1, loop x fuel d = .ok d1 ∧
        (d1.writer, d1.err) =
          latch (d.writer, d.err) (unitLines x d.program d.code d.funcIndex d.ip is) := by
  induction is with
  | nil =>
    intro fuel d _ hdrop hle _
    have hge : d.code.length ≤ d.ip := by
      have := congrArg List.length hdrop
      simp only [List.length_drop, encode, List.length_nil] at this
      omega
    have hcond : ¬ (d.ip < d.code.length ∧ d.err = none) := by omega
    exact ⟨d, by cases fuel <;> simp only [loop, if_neg hcond], rfl⟩
  | cons i is ih =>
    intro fuel d hfuel hdrop hle hwf
    obtain ⟨fuel, rfl⟩ : ∃ f, fuel = f + 1 := ⟨fuel - 1, by simp at hfuel; omega⟩
    by_cases hcond : d.ip < d.code.length ∧ d.err = none
    · have he := hcond.2
      obtain ⟨text, htext, hstep⟩ :=
        step_ok x d i (encode is) hdrop (hwf i (List.mem_cons_self _ _))
      obtain ⟨hp, hc, hf, hip, _, _, _, _⟩ := afterInstr_fields d i.operands.length text he
      have hdrop1 : (afterInstr d i.operands.length text).code.drop
          (afterInstr d i.operands.length text).ip = encode is := by
        rw [hc, hip]
        have h1 : d.code.drop d.ip = (i.op :: i.operands) ++ encode is := hdrop
        have h2 := drop_add_of_drop d.code d.ip (i.op :: i.operands) (encode is) h1
        simp only [List.length_cons] at h2
        rw [show d.ip + 1 + i.operands.length = d.ip + (i.operands.length + 1) by omega]
        exact h2
      have hle1 : (afterInstr d i.operands.length text).ip ≤
          (afterInstr d i.operands.length text).code.length := by
        rw [hc, hip]
        have hlen := congrArg List.length hdrop
        simp only [List.length_drop, encode, List.length_cons, List.length_append] at hlen
        omega
      obtain ⟨d1, hloop, hw⟩ := ih fuel (afterInstr d i.operands.length text)
        (by simp at hfuel; omega) hdrop1 hle1
        (by rw [hp, hf]; exact fun j hj => hwf j (List.mem_cons_of_mem _ hj))
      refine ⟨d1, by simp only [loop, if_pos hcond, hstep, hloop], ?_⟩
      have hat : instrTextAt x d.program d.code d.funcIndex d.ip i = .ok text := by
        unfold instrTextAt
        rw [instrText_congr x (stateAt d.program d.code d.funcIndex d.ip) d i.op
          (x.classify i.op) rfl rfl rfl rfl]
        exact htext
      rw [hw, afterInstr_latch d _ text he, hp, hc, hf, hip, he]
      simp only [unitLines, hat, Instr.width]
      rw [show d.ip + 1 + i.operands.length = d.ip + (1 + i.operands.length) by omega]
      rfl
    · refine ⟨d, by simp only [loop, if_neg hcond], ?_⟩
      have hlt : d.ip < d.code.length := by
        have hlen := congrArg List.length hdrop
        simp only [List.length_drop, encode, List.length_cons, List.length_append] at hlen
        omega
      cases he : d.err with
      | none => exact absurd ⟨hlt, he⟩ hcond
      | some e => rw [latch_error]

/-- A unit on a well-formed stream, with any writer: `disassemble` returns, and its writes are
the section line, the operation lines and the blank line under the latch. -/
theorem disassemble_latch (x : Externals) (p : Program) (w : Writer) (fi : Nat) (pfx : String)
    (is : List Instr) (hwf : ∀ i ∈ is, i.WellFormed x p fi) :
    ∃ d, disassemble x (newDisassembler p w (encode is) fi) pfx = .ok d ∧
      (d.writer, d.err) =
        latch (w, none) (headerLines pfx ++ unitLines x p (encode is) fi 0 is ++ ["\n"]) := by
  have hh : ∃ d1, d1 = (if pfx ≠ "" then
        writef (newDisassembler p w (encode is) fi) ("        // " ++ pfx ++ "\n")
        else newDisassembler p w (encode is) fi) ∧
      d1.program = p ∧ d1.code = encode is ∧ d1.funcIndex = fi ∧ d1.ip = 0 ∧
      (d1.writer, d1.err) = latch (w, none) (headerLines pfx) := by
    by_cases h : pfx ≠ ""
    · obtain ⟨h1, h2, h3, h4, h5⟩ :=
        writef_latch (newDisassembler p w (encode is) fi) ("        // " ++ pfx ++ "\n")
      refine ⟨_, rfl, ?_⟩
      rw [if_pos h, headerLines, if_pos h]
      exact ⟨h2, h3, h4, h5, h1⟩
    · refine ⟨_, rfl, ?_⟩
      rw [if_neg h, headerLines, if_neg h]
      exact ⟨rfl, rfl, rfl, rfl, rfl⟩
  obtain ⟨d1, hd1, h1, h2, h3, h4, h5⟩ := hh
  unfold disassemble
  simp only
  rw [← hd1]
  obtain ⟨d2, hloop, hw⟩ := loop_latch x is (d1.code.length - d1.ip) d1
    (by rw [h2, h4]; simpa using encode_length_ge is)
    (by rw [h2, h4]; rfl) (by rw [h4]; omega)
    (by rw [h1, h3]; exact hwf)
  refine ⟨writef d2 "\n", by rw [hloop], ?_⟩
  rw [(writef_latch d2 "\n").1, hw, h5, h1, h2, h3, h4, latch_append, latch_append]

/-! ## The sections of `Program.Disassemble` -/

theorem runSections_append (x : Externals) (p : Program) (a b : List Section) (s : Progress) :
    runSections x p (a ++ b) s = runSections x p a s >>= runSections x p b := by
  induction a generalizing s with
  | nil => rfl
  | cons u us ih =>
    show (runUnit x p u.code u.funcIndex u.pfx s >>= fun s1 => runSections x p (us ++ b) s1) =
      (runUnit x p u.code u.funcIndex u.pfx s >>= fun s1 => runSections x p us s1) >>=
        runSections x p b
    cases runUnit x p u.code u.funcIndex u.pfx s with
    | error e => rfl
    | ok s1 => exact ih s1

theorem runSections_single (x : Externals) (p : Program) (u : Section) (s : Progress) :
    runSections x p [u] s = runUnit x p u.code u.funcIndex u.pfx s := by
  show (runUnit x p u.code u.funcIndex u.pfx s >>= fun s1 => pure s1) = _
  cases runUnit x p u.code u.funcIndex u.pfx s <;> rfl

theorem runAction_eq (x : Externals) (p : Program) (a : Action) (s : Progress) :
    runAction x p a s = runSections x p (actionSections a) s := by
  have hbody : ∀ s1 : Progress,
      (if a.Body.length > 0 then runUnit x p a.Body 0 "\x7b body \x7d" s1 else pure s1) =
        runSections x p (if a.Body.length > 0 then [⟨"\x7b body \x7d", 0, a.Body⟩] else [])
          s1 := by
    intro s1
    by_cases hb : a.Body.length > 0
    · rw [if_pos hb, if_pos hb, runSections_single]
    · rw [if_neg hb, if_neg hb]; rfl
  unfold runAction actionSections
  rw [runSections_append]
  rcases hp : a.Pattern with _ | ⟨p1, _ | ⟨p2, _ | ⟨p3, r⟩⟩⟩
  · exact hbody s
  · show (runUnit x p p1 0 "pattern" s >>= fun s1 => _) =
      runSections x p [⟨"pattern", 0, p1⟩] s >>= _
    rw [runSections_single]
    cases runUnit x p p1 0 "pattern" s with
    | error e => rfl
    | ok s1 => exact hbody s1
  · show (runUnit x p p1 0 "start" s >>= fun t =>
        runUnit x p p2 0 "stop" t >>= fun s1 => _) =
      (runUnit x p p1 0 "start" s >>= fun t =>
        runSections x p [⟨"stop", 0, p2⟩] t) >>= _
    cases runUnit x p p1 0 "start" s with
    | error e => rfl
    | ok t =>
      show (runUnit x p p2 0 "stop" t >>= fun s1 => _) =
        runSections x p [⟨"stop", 0, p2⟩] t >>= _
      rw [runSections_single]
      cases runUnit x p p2 0 "stop" t with
      | error e => rfl
      | ok s1 => exact hbody s1
  · exact hbody s

theorem runActions_eq (x : Externals) (p : Program) (as : List Action) (s : Progress) :
    runActions x p as s = runSections x p (actionsSections as) s := by
  induction as generalizing s with
  | nil => rfl
  | cons a rest ih =>
    show (runAction x p a s >>= fun s1 => runActions x p rest s1) =
      runSections x p (actionSections a ++ actionsSections rest) s
    rw [runSections_append, runAction_eq]
    cases runSections x p (actionSections a) s with
    | error e => rfl
    | ok s1 => exact ih s1

theorem runFunctions_eq (x : Externals) (p : Program) (fs : List Function) (i : Nat)
    (s : Progress) :
    runFunctions x p fs i s = runSections x p (functionSections fs i) s := by
  induction fs generalizing i s with
  | nil => rfl
  | cons f rest ih =>
    show (runUnit x p f.Body i ("function " ++ f.Name) s >>= fun s1 =>
        runFunctions x p rest (i + 1) s1) =
      (runUnit x p f.Body i ("function " ++ f.Name) s >>= fun s1 =>
        runSections x p (functionSections rest (i + 1)) s1)
    cases runUnit x p f.Body i ("function " ++ f.Name) s with
    | error e => rfl
    | ok s1 => exact ih (i + 1) s1

theorem runSections_chain (x : Externals) (p : Program) (b e : List Section) (w : Writer)
    (fB fE : Progress → Except Abort Progress)
    (hB : ∀ s, fB s = runSections x p b s) (hE : ∀ s, fE s = runSections x p e s) :
    (fB (w, none) >>= fun s1 => runActions x p p.Actions s1 >>= fun s2 =>
      fE s2 >>= fun s3 => runFunctions x p p.Functions 0 s3) =
    runSections x p (b ++ actionsSections p.Actions ++ e ++ functionSections p.Functions 0)
      (w, none) := by
  rw [runSections_append, runSections_append, runSections_append, hB]
  cases runSections x p b (w, none) with
  | error a => rfl
  | ok s1 =>
    show (runActions x p p.Actions s1 >>= fun s2 =>
      fE s2 >>= fun s3 => runFunctions x p p.Functions 0 s3) =
      (runSections x p (actionsSections p.Actions) s1 >>= runSections x p e) >>=
        runSections x p (functionSections p.Functions 0)
    rw [runActions_eq]
    cases runSections x p (actionsSections p.Actions) s1 with
    | error a => rfl
    | ok s2 =>
      show (fE s2 >>= fun s3 => runFunctions x p p.Functions 0 s3) =
        runSections x p e s2 >>= runSections x p (functionSections p.Functions 0)
      rw [hE]
      cases runSections x p e s2 with
      | error a => rfl
      | ok s3 => exact runFunctions_eq x p p.Functions 0 s3

/-- The run of `Program.Disassemble` is the run of the sections of the program, in order. -/
theorem disassemble_eq_sections (x : Externals) (p : Program) (w : Writer) :
    Program.Disassemble x p w = runSections x p p.sections (w, none) := by
  unfold Program.Disassemble Program.sections
  cases p.Begin with
  | none =>
    cases p.End with
    | none =>
      exact runSections_chain x p [] [] w pure pure (fun _ => rfl) (fun _ => rfl)
    | some c2 =>
      exact runSections_chain x p [] [⟨"END", 0, c2⟩] w pure
        (fun s => runUnit x p c2 0 "END" s) (fun _ => rfl)
        (fun s => (runSections_single x p ⟨"END", 0, c2⟩ s).symm)
  | some c1 =>
    cases p.End with
    | none =>
      exact runSections_chain x p [⟨"BEGIN", 0, c1⟩] [] w
        (fun s => runUnit x p c1 0 "BEGIN" s) pure
        (fun s => (runSections_single x p ⟨"BEGIN", 0, c1⟩ s).symm) (fun _ => rfl)
    | some c2 =>
      exact runSections_chain x p [⟨"BEGIN", 0, c1⟩] [⟨"END", 0, c2⟩] w
        (fun s => runUnit x p c1 0 "BEGIN" s) (fun s => runUnit x p c2 0 "END" s)
        (fun s => (runSections_single x p ⟨"BEGIN", 0, c1⟩ s).symm)
        (fun s => (runSections_single x p ⟨"END", 0, c2⟩ s).symm)

/-! ## Claims C16 and C17: latched write errors, order of the sections -/

/-- The writes of a section on a well-formed stream: the section line, the operation lines,
the blank line. -/
theorem sectionChunks_eq (x : Externals) (p : Program) (pfx : String) (fi : Nat)
    (is : List Instr) (hwf : ∀ i ∈ is, i.WellFormed x p fi) :
    sectionChunks x p ⟨pfx, fi, encode is⟩ =
      headerLines pfx ++ unitLines x p (encode is) fi 0 is ++ ["\n"] := by
  obtain ⟨d, hd, hw⟩ := disassemble_latch x p okWriter fi pfx is hwf
  unfold sectionChunks
  simp only [hd]
  rw [latch_neverFails okWriter _ (fun _ _ => rfl)] at hw
  have := congrArg (fun s : Progress => s.1.written) hw
  simpa [okWriter] using this

/-- A unit on a well-formed stream, from any state between two units: its writes are those of
the section under the latch. -/
theorem runUnit_latch (x : Externals) (p : Program) (s : Section) (st : Progress)
    (hwf : ∃ is : List Instr, s.code = encode is ∧ ∀ i ∈ is, i.WellFormed x p s.funcIndex) :
    runUnit x p s.code s.funcIndex s.pfx st = .ok (latch st (sectionChunks x p s)) := by
  obtain ⟨is, hc, hwf⟩ := hwf
  obtain ⟨pfx, fi, code⟩ := s
  simp only at hc hwf ⊢
  subst hc
  obtain ⟨w, o⟩ := st
  cases o with
  | some e => rw [latch_error]; rfl
  | none =>
    obtain ⟨d, hd, hw⟩ := disassemble_latch x p w fi pfx is hwf
    rw [sectionChunks_eq x p pfx fi is hwf, ← hw]
    simp only [runUnit, hd]

theorem runSections_latch (x : Externals) (p : Program) (ss : List Section) (st : Progress)
    (hwf : ∀ s ∈ ss, ∃ is : List Instr, s.code = encode is ∧
      ∀ i ∈ is, i.WellFormed x p s.funcIndex) :
    runSections x p ss st = .ok (latch st (chunksOf x p ss)) := by
  induction ss generalizing st with
  | nil => rfl
  | cons s rest ih =>
    show (runUnit x p s.code s.funcIndex s.pfx st >>= fun s1 => runSections x p rest s1) = _
    rw [runUnit_latch x p s st (hwf s (List.mem_cons_self _ _))]
    show runSections x p rest (latch st (sectionChunks x p s)) = _
    rw [ih _ (fun u hu => hwf u (List.mem_cons_of_mem _ hu))]
    show _ = Except.ok (latch st (sectionChunks x p s ++ chunksOf x p rest))
    rw [latch_append]

/-- On a well-formed program `Program.Disassemble` returns, and its writes are the writes of
the sections, in order, under the latch. -/
theorem program_latch (x : Externals) (p : Program) (w : Writer) (hwf : p.WellFormed x) :
    Program.Disassemble x p w = .ok (latch (w, none) (chunksOf x p p.sections)) := by
  rw [disassemble_eq_sections, runSections_latch x p p.sections (w, none) hwf]

/-- When no write of `cs` fails, all are made and no error is left. -/
theorem latch_all_ok (cs : List String) : ∀ (w : Writer),
    (∀ j, j < cs.length → w.failure (w.written ++ cs.take j) (cs.getD j "") = none) →
    latch (w, none) cs = ({ w with written := w.written ++ cs }, none) := by
  induction cs with
  | nil => intro w _; simp [latch]
  | cons c cs ih =>
    intro w h
    have h0 := h 0 (by simp)
    simp only [List.take_zero, List.append_nil, List.getD_cons_zero] at h0
    have hw : w.write c = ({ w with written := w.written ++ [c] }, none) := by
      simp only [Writer.write, h0]
    show latch (w.write c) cs = _
    rw [hw, ih { w with written := w.written ++ [c] } (fun j hj => by
      have := h (j + 1) (by simp; omega)
      simpa using this)]
    simp

/-- When the write number `k` (from 0) of `cs` is the first to fail, exactly the writes up to
it are made and its error is left. -/
theorem latch_first_failure (cs : List String) : ∀ (w : Writer) (k : Nat) (e : String),
    k < cs.length →
    (∀ j, j < k → w.failure (w.written ++ cs.take j) (cs.getD j "") = none) →
    w.failure (w.written ++ cs.take k) (cs.getD k "") = some e →
    latch (w, none) cs = ({ w with written := w.written ++ cs.take (k + 1) }, some e) := by
  induction cs with
  | nil => intro w k e hk; simp at hk
  | cons c cs ih =>
    intro w k e hk hok hfail
    cases k with
    | zero =>
      simp only [List.take_zero, List.append_nil, List.getD_cons_zero] at hfail
      have hw : w.write c = ({ w with written := w.written ++ [c] }, some e) := by
        simp only [Writer.write, hfail]
      show latch (w.write c) cs = _
      rw [hw, latch_error]
      simp
    | succ k =>
      have h0 := hok 0 (by omega)
      simp only [List.take_zero, List.append_nil, List.getD_cons_zero] at h0
      have hw : w.write c = ({ w with written := w.written ++ [c] }, none) := by
        simp only [Writer.write, h0]
      show latch (w.write c) cs = _
      rw [hw, ih { w with written := w.written ++ [c] } k e (by simpa using hk)
        (fun j hj => by
          have := hok (j + 1) (by omega)
          simpa using this)
        (by simpa using hfail)]
      simp

theorem sampleProgram2_wellFormed : sampleProgram2.WellFormed sampleExternals := by
  intro s hs
  have hsec : sampleProgram2.sections =
      [⟨"BEGIN", 0, [49]⟩, ⟨"pattern", 0, [0, 0]⟩, ⟨"\x7b body \x7d", 0, [47, 2, 0]⟩,
        ⟨"function f", 0, [4, 1]⟩] := rfl
  rw [hsec] at hs
  simp only [List.mem_cons, List.mem_singleton, List.not_mem_nil, or_false] at hs
  rcases hs with rfl | rfl | rfl | rfl
  · refine ⟨[⟨49, []⟩], rfl, fun i hi => ?_⟩
    simp only [List.mem_singleton] at hi
    subst hi; rfl
  · refine ⟨[⟨0, [0]⟩], rfl, fun i hi => ?_⟩
    simp only [List.mem_singleton] at hi
    subst hi; rfl
  · refine ⟨[⟨47, [2, 0]⟩], rfl, fun i hi => ?_⟩
    simp only [List.mem_singleton] at hi
    subst hi; rfl
  · refine ⟨[⟨4, [1]⟩], rfl, fun i hi => ?_⟩
    simp only [List.mem_singleton] at hi
    subst hi; rfl

theorem loop_err (x : Externals) (d : Disassembler) (e : String) (he : d.err = some e)
    (fuel : Nat) : loop x fuel d = .ok d := by
  have hcond : ¬ (d.ip < d.code.length ∧ d.err = none) := by
    rw [he]; intro h; cases h.2
  cases fuel <;> simp only [loop, if_neg hcond]

/-- C16: on a well-formed program, when the write number `k` (from 0, that is the `k+1`-th
write) is the first that the writer fails, with error `e`, `Program.Disassemble` makes exactly
the writes up to and including that one and returns `e`; when no write fails it makes them all
and returns nil.  Once `err` is set, `writef` and `writeOpf` write nothing, the decode loop
stops, and a later unit is not started. -/
theorem C16_write_errors_latch (x : Externals) (p : Program) (w : Writer)
    (hwf : p.WellFormed x) :
    (∀ k e, k < (chunksOf x p p.sections).length →
      (∀ j, j < k → w.failure (w.written ++ (chunksOf x p p.sections).take j)
        ((chunksOf x p p.sections).getD j "") = none) →
      w.failure (w.written ++ (chunksOf x p p.sections).take k)
        ((chunksOf x p p.sections).getD k "") = some e →
      ∃ w1, Program.Disassemble x p w = .ok (w1, some e) ∧
        w1.written = w.written ++ (chunksOf x p p.sections).take (k + 1) ∧
        w1.written.length = w.written.length + (k + 1)) ∧
    ((∀ j, j < (chunksOf x p p.sections).length →
        w.failure (w.written ++ (chunksOf x p p.sections).take j)
          ((chunksOf x p p.sections).getD j "") = none) →
      ∃ w1, Program.Disassemble x p w = .ok (w1, none) ∧
        w1.written = w.written ++ chunksOf x p p.sections) ∧
    (∀ (d : Disassembler) (e t : String), d.err = some e →
      writef d t = d ∧ writeOpf d t = d ∧ ∀ fuel, loop x fuel d = .ok d) ∧
    (∀ (code : List Int) (fi : Nat) (pfx : String) (w1 : Writer) (e : String),
      runUnit x p code fi pfx (w1, some e) = .ok (w1, some e)) := by
  refine ⟨fun k e hk hok hfail => ?_, fun hok => ?_, fun d e t he => ?_,
    fun code fi pfx w1 e => rfl⟩
  · refine ⟨{ w with written := w.written ++ (chunksOf x p p.sections).take (k + 1) }, ?_,
      rfl, ?_⟩
    · rw [program_latch x p w hwf, latch_first_failure _ w k e hk hok hfail]
    · simp only [List.length_append, List.length_take]
      omega
  · exact ⟨{ w with written := w.written ++ chunksOf x p p.sections },
      by rw [program_latch x p w hwf, latch_all_ok _ w hok], rfl⟩
  · refine ⟨?_, ?_, loop_err x d e he⟩
    · simp only [writef, he]
    · simp only [writeOpf, he]

/-- C16, witness: the second sample program with a writer whose third write fails; the section
line of `BEGIN`, its one operation line and its blank line are attempted, nothing after. -/
theorem C16_write_errors_latch_witness :
    sampleProgram2.WellFormed sampleExternals ∧
    ∃ w1, Program.Disassemble sampleExternals sampleProgram2 (failAt 3 "disk full") =
        .ok (w1, some "disk full") ∧
      w1.written = ["        // BEGIN\n", "0000    Nop\n", "\n"] ∧
      w1.written.length = 3 :=
  ⟨sampleProgram2_wellFormed,
    (C16_write_errors_latch sampleExternals sampleProgram2 (failAt 3 "disk full")
      sampleProgram2_wellFormed).1 2 "disk full" (by decide)
      (fun j hj => by interval_cases j <;> rfl) rfl⟩

theorem functionSections_length (fs : List Function) (k : Nat) :
    (functionSections fs k).length = fs.length := by
  induction fs generalizing k with
  | nil => rfl
  | cons f rest ih => simp only [functionSections, List.length_cons, ih]

theorem functionSections_get (fs : List Function) : ∀ (k i : Nat) (f : Function),
    fs.get? i = some f →
    (functionSections fs k).get? i = some ⟨"function " ++ f.Name, k + i, f.Body⟩ := by
  induction fs with
  | nil => intro k i f h; simp at h
  | cons g rest ih =>
    intro k i f h
    cases i with
    | zero =>
      simp only [List.get?_cons_zero, Option.some.injEq] at h
      subst h
      rfl
    | succ i =>
      simp only [List.get?_cons_succ] at h
      have := ih (k + 1) i f h
      simp only [functionSections, List.get?_cons_succ, this]
      rw [show k + 1 + i = k + (i + 1) by omega]

theorem function_pfx_ne_empty (name : String) : "function " ++ name ≠ "" := by
  intro hn
  have := congrArg String.length hn
  simp only [String.length_append] at this
  have h9 : ("function " : String).length = 9 := by decide
  have h0 : ("" : String).length = 0 := by decide
  omega

theorem actionSections_pfx (a : Action) : ∀ s ∈ actionSections a, s.pfx ≠ "" := by
  intro s hs
  unfold actionSections at hs
  rw [List.mem_append] at hs
  rcases hs with hs | hs
  · rcases hp : a.Pattern with _ | ⟨p1, _ | ⟨p2, _ | ⟨p3, r⟩⟩⟩ <;> rw [hp] at hs <;>
      simp only [List.mem_cons, List.mem_singleton, List.not_mem_nil, or_false] at hs
    · subst hs; exact (by decide : ("pattern" : String) ≠ "")
    · rcases hs with rfl | rfl
      · exact (by decide : ("start" : String) ≠ "")
      · exact (by decide : ("stop" : String) ≠ "")
  · by_cases hb : a.Body.length > 0
    · rw [if_pos hb, List.mem_singleton] at hs
      subst hs; exact (by decide : ("\x7b body \x7d" : String) ≠ "")
    · rw [if_neg hb] at hs
      cases hs

theorem actionsSections_pfx (as : List Action) : ∀ s ∈ actionsSections as, s.pfx ≠ "" := by
  induction as with
  | nil => intro s hs; cases hs
  | cons a rest ih =>
    intro s hs
    simp only [actionsSections, List.mem_append] at hs
    rcases hs with hs | hs
    · exact actionSections_pfx a s hs
    · exact ih s hs

theorem functionSections_pfx (fs : List Function) :
    ∀ (k : Nat), ∀ s ∈ functionSections fs k, s.pfx ≠ "" := by
  induction fs with
  | nil => intro k s hs; cases hs
  | cons f rest ih =>
    intro k s hs
    simp only [functionSections, List.mem_cons] at hs
    rcases hs with rfl | hs
    · exact function_pfx_ne_empty f.Name
    · exact ih (k + 1) s hs

/-- No section of a program has an empty prefix. -/
theorem sections_pfx (p : Program) : ∀ s ∈ p.sections, s.pfx ≠ "" := by
  intro s hs
  unfold Program.sections at hs
  simp only [List.mem_append] at hs
  rcases hs with ((hs | hs) | hs) | hs
  · cases hb : p.Begin with
    | none => rw [hb] at hs; cases hs
    | some c =>
      rw [hb] at hs
      simp only [List.mem_singleton] at hs
      subst hs; exact (by decide : ("BEGIN" : String) ≠ "")
  · exact actionsSections_pfx _ s hs
  · cases he : p.End with
    | none => rw [he] at hs; cases hs
    | some c =>
      rw [he] at hs
      simp only [List.mem_singleton] at hs
      subst hs; exact (by decide : ("END" : String) ≠ "")
  · exact functionSections_pfx _ 0 s hs

/-- C17: the run of `Program.Disassemble` is the run of the sections of the program in this
order: `BEGIN` exactly when there is a begin block; for each action in order no pattern section
for no pattern, `pattern` for one, `start` then `stop` for two, then `{ body }` exactly when the
body is not empty; `END` exactly when there is an end block; one `function <name>` per
function, in index order and with its index.  On a well-formed program and a writer that
never fails the output is the writes of these sections in this order, each starting with its
section line. -/
theorem C17_sections_in_order (x : Externals) (p : Program) (w : Writer) :
    Program.Disassemble x p w = runSections x p p.sections (w, none) ∧
    (∃ b e, p.sections = b ++ actionsSections p.Actions ++ e ++ functionSections p.Functions 0 ∧
      (p.Begin = none → b = []) ∧ (∀ c, p.Begin = some c → b = [⟨"BEGIN", 0, c⟩]) ∧
      (p.End = none → e = []) ∧ (∀ c, p.End = some c → e = [⟨"END", 0, c⟩])) ∧
    (∀ (a : Action) (rest : List Action),
      actionsSections (a :: rest) = actionSections a ++ actionsSections rest) ∧
    (∀ a : Action, ∃ pats body, actionSections a = pats ++ body ∧
      (a.Pattern = [] → pats = []) ∧
      (∀ c, a.Pattern = [c] → pats = [⟨"pattern", 0, c⟩]) ∧
      (∀ c1 c2, a.Pattern = [c1, c2] → pats = [⟨"start", 0, c1⟩, ⟨"stop", 0, c2⟩]) ∧
      (2 < a.Pattern.length → pats = []) ∧
      (a.Body ≠ [] → body = [⟨"\x7b body \x7d", 0, a.Body⟩]) ∧
      (a.Body = [] → body = [])) ∧
    ((functionSections p.Functions 0).length = p.Functions.length ∧
      ∀ i f, p.Functions.get? i = some f →
        (functionSections p.Functions 0).get? i = some ⟨"function " ++ f.Name, i, f.Body⟩) ∧
    (p.WellFormed x → w.NeverFails →
      (∃ w1, Program.Disassemble x p w = .ok (w1, none) ∧
        w1.written = w.written ++ chunksOf x p p.sections) ∧
      ∀ s ∈ p.sections, ∃ rest,
        sectionChunks x p s = ("        // " ++ s.pfx ++ "\n") :: rest) := by
  refine ⟨disassemble_eq_sections x p w, ?_, fun _ _ => rfl, fun a => ?_, ?_, ?_⟩
  · refine ⟨_, _, rfl, ?_, ?_, ?_, ?_⟩
    · intro h; rw [h]
    · intro c h; rw [h]
    · intro h; rw [h]
    · intro c h; rw [h]
  · refine ⟨_, _, rfl, ?_, ?_, ?_, ?_, ?_, ?_⟩
    · intro h; rw [h]
    · intro c h; rw [h]
    · intro c1 c2 h; rw [h]
    · intro h
      rcases hp : a.Pattern with _ | ⟨p1, _ | ⟨p2, _ | ⟨p3, r⟩⟩⟩
      · exact absurd h (by rw [hp]; simp)
      · exact absurd h (by rw [hp]; simp)
      · exact absurd h (by rw [hp]; simp)
      · rfl
    · intro h
      have hb : a.Body.length > 0 := List.length_pos.mpr h
      rw [if_pos hb]
    · intro h
      rw [h]; rfl
  · refine ⟨functionSections_length _ _, fun i f h => ?_⟩
    have := functionSections_get p.Functions 0 i f h
    rw [Nat.zero_add] at this
    exact this
  · intro hwf hnf
    refine ⟨⟨{ w with written := w.written ++ chunksOf x p p.sections }, ?_, rfl⟩, ?_⟩
    · rw [program_latch x p w hwf, latch_neverFails w _ hnf]
    · intro s hs
      obtain ⟨is, hc, hi⟩ := hwf s hs
      have hne := sections_pfx p s hs
      obtain ⟨pfx, fi, code⟩ := s
      simp only at hc hi hne ⊢
      subst hc
      rw [sectionChunks_eq x p pfx fi is hi, headerLines, if_pos hne]
      exact ⟨_, rfl⟩

/-- C17, witness: the second sample program has the four sections `BEGIN`, `pattern`,
`{ body }` and `function f`, and a writer that accepts everything receives their lines in that
order. -/
theorem C17_sections_in_order_witness :
    sampleProgram2.WellFormed sampleExternals ∧ okWriter.NeverFails ∧
    sampleProgram2.sections =
      [⟨"BEGIN", 0, [49]⟩, ⟨"pattern", 0, [0, 0]⟩, ⟨"\x7b body \x7d", 0, [47, 2, 0]⟩,
        ⟨"function f", 0, [4, 1]⟩] ∧
    ∃ w1, Program.Disassemble sampleExternals sampleProgram2 okWriter = .ok (w1, none) ∧
      w1.written =
        ["        // BEGIN\n", "0000    Nop\n", "\n",
          "        // pattern\n", "0000    Num 5\n", "\n",
          "        // \x7b body \x7d\n", "0000    Print 2\n", "\n",
          "        // function f\n", "0000    Local b\n", "\n"] :=
  ⟨sampleProgram2_wellFormed, fun _ _ => rfl, rfl,
    ((C17_sections_in_order sampleExternals sampleProgram2 okWriter).2.2.2.2.2
      sampleProgram2_wellFormed (fun _ _ => rfl)).1⟩

end GoAwk
